import Mathlib

/-!
Verification of the accuDaq core: graph model, topology analysis
(`daq_core/compiler/topology.py`), code generation
(`daq_core/compiler/codegen.py`, `daq_core/compiler/compiler.py`) and the
execution engine (`daq_core/engine.py`, `daq_core/components/base.py`).

Python `dict`s are modelled as association lists in insertion order (CPython
dicts preserve insertion order); Python `str` ordering is code-point
lexicographic, modelled by `charsLe` below; raised exceptions (`KeyError`,
`ValueError`) are modelled with `Except`.
-/

/-- Code-point lexicographic comparison of character lists; this is exactly
Python's `str` comparison (and Lean's `String` order, restated so that it
reduces in the kernel). -/
def charsLe : List Char → List Char → Bool
  | [], _ => true
  | _ :: _, [] => false
  | a :: as, b :: bs =>
    if a.toNat < b.toNat then true
    else if b.toNat < a.toNat then false
    else charsLe as bs

/-- Python `<=` on strings. -/
def strLe (a b : String) : Bool := charsLe a.data b.data

/-- `strLe` as a relation, used for sorting node-id queues. -/
def sLe (a b : String) : Prop := strLe a b = true

instance : DecidableRel sLe := fun _ _ => instDecidableEqBool _ _

theorem charsLe_total : ∀ as bs, charsLe as bs = true ∨ charsLe bs as = true := by
  intro as
  induction as with
  | nil => intro bs; left; rfl
  | cons a as ih =>
    intro bs
    cases bs with
    | nil => right; rfl
    | cons b bs =>
      by_cases h1 : a.toNat < b.toNat
      · left; simp [charsLe, h1]
      · by_cases h2 : b.toNat < a.toNat
        · right; simp [charsLe, h1, h2]
        · simpa [charsLe, h1, h2] using ih bs

theorem charsLe_trans : ∀ as bs cs, charsLe as bs = true → charsLe bs cs = true →
    charsLe as cs = true := by
  intro as
  induction as with
  | nil => intro bs cs _ _; rfl
  | cons a as ih =>
    intro bs cs hab hbc
    cases bs with
    | nil => simp [charsLe] at hab
    | cons b bs =>
      cases cs with
      | nil => simp [charsLe] at hbc
      | cons c cs =>
        simp only [charsLe] at hab hbc ⊢
        rcases Nat.lt_trichotomy a.toNat b.toNat with h1 | h1 | h1
        · rcases Nat.lt_trichotomy b.toNat c.toNat with h2 | h2 | h2
          · simp [Nat.lt_trans h1 h2]
          · simp [h2 ▸ h1]
          · simp [h2, Nat.lt_asymm h2] at hbc
        · rcases Nat.lt_trichotomy b.toNat c.toNat with h2 | h2 | h2
          · simp [h1 ▸ h2]
          · simp only [h1, h2]
            simp [h1, Nat.lt_irrefl] at hab
            simp [h2, Nat.lt_irrefl] at hbc
            simp [Nat.lt_irrefl]
            exact ih bs cs hab hbc
          · simp [h2, Nat.lt_asymm h2] at hbc
        · simp [h1, Nat.lt_asymm h1] at hab

theorem charsLe_antisymm : ∀ as bs, charsLe as bs = true → charsLe bs as = true →
    as = bs := by
  intro as
  induction as with
  | nil => intro bs _ hba; cases bs with
    | nil => rfl
    | cons b bs => simp [charsLe] at hba
  | cons a as ih =>
    intro bs hab hba
    cases bs with
    | nil => simp [charsLe] at hab
    | cons b bs =>
      simp only [charsLe] at hab hba
      rcases Nat.lt_trichotomy a.toNat b.toNat with h1 | h1 | h1
      · simp [h1, Nat.lt_asymm h1] at hba
      · have hab' : charsLe as bs = true := by
          simpa [h1, Nat.lt_irrefl] using hab
        have hba' : charsLe bs as = true := by
          simpa [h1, Nat.lt_irrefl] using hba
        have : a = b := Char.ext (UInt32.ext h1)
        rw [this, ih bs hab' hba']
      · simp [h1, Nat.lt_asymm h1] at hab

instance : IsTotal String sLe :=
  ⟨fun a b => charsLe_total a.data b.data⟩

instance : IsTrans String sLe :=
  ⟨fun a b c => charsLe_trans a.data b.data c.data⟩

instance : IsAntisymm String sLe :=
  ⟨fun a b hab hba => by
    have h := charsLe_antisymm a.data b.data hab hba
    cases a; cases b; exact congrArg String.mk h⟩

/-- Sorting a list of strings, modelling Python's `list.sort()` on `str`. -/
def sortStr (l : List String) : List String := l.insertionSort sLe

theorem sortStr_perm (l : List String) : (sortStr l).Perm l :=
  List.perm_insertionSort sLe l

theorem sortStr_sorted (l : List String) : List.Sorted sLe (sortStr l) :=
  List.sorted_insertionSort sLe l

/-- Two lists with the same elements, each without duplicates, sort equal. -/
theorem sortStr_eq_of_perm {l₁ l₂ : List String} (h : l₁.Perm l₂) :
    sortStr l₁ = sortStr l₂ :=
  List.eq_of_perm_of_sorted ((sortStr_perm l₁).trans (h.trans (sortStr_perm l₂).symm))
    (sortStr_sorted l₁) (sortStr_sorted l₂)

/-! ## JSON-like property values

Node `properties`, component `config` and port values are opaque JSON-like
bags in the source (`Dict[str, Any]`); integer literals are modelled as
integers, and decimal float literals such as `1.0` as an integer part plus a
fractional digit run (`vfloat 1 0`). -/

inductive Value where
  | vnone : Value
  | vbool : Bool → Value
  | vint : Int → Value
  | vfloat : Int → Nat → Value
  | vstr : String → Value
  | vlist : List Value → Value
  | vdict : List (String × Value) → Value
deriving Repr

/-! ## Graph model (`daq_core/compiler/parser.py`, dataclasses) -/

/-- `Position` dataclass (layout only). Coordinates are modelled as integers;
they never influence analysis or generation. -/
structure Position where
  x : Int
  y : Int
deriving Repr

/-- `PortRef` dataclass. -/
structure PortRef where
  node_id : String
  port_id : String
deriving Repr, DecidableEq

/-- `Wire` dataclass. -/
structure Wire where
  id : String
  source : PortRef
  target : PortRef
deriving Repr, DecidableEq

/-- `Node` dataclass. -/
structure Node where
  id : String
  type : String
  position : Position
  label : String := ""
  properties : List (String × Value) := []
deriving Repr

/-- `Device` dataclass. -/
structure Device where
  id : String
  name : String
  protocol : String
  config : List (String × Value) := []
deriving Repr

/-- `Widget` dataclass. -/
structure Widget where
  id : String
  type : String
  label : String
  layout : List (String × Int)
  binding : Option PortRef := none
  properties : List (String × Value) := []
deriving Repr

/-- `ProjectMeta` dataclass. -/
structure ProjectMeta where
  name : String
  version : String
  schema_version : String
  description : String := ""
deriving Repr

/-- `DAQProject` dataclass: the root aggregate. -/
structure DAQProject where
  meta : ProjectMeta
  devices : List Device
  nodes : List Node
  wires : List Wire
  widgets : List Widget
deriving Repr

namespace DAQProject

/-- `DAQProject.get_node`: first node with the given id, linear scan. -/
def get_node (p : DAQProject) (node_id : String) : Option Node :=
  p.nodes.find? (fun n => n.id = node_id)

/-- `DAQProject.get_outgoing_wires`. -/
def get_outgoing_wires (p : DAQProject) (node_id : String) : List Wire :=
  p.wires.filter (fun w => w.source.node_id = node_id)

/-- `DAQProject.get_incoming_wires`. -/
def get_incoming_wires (p : DAQProject) (node_id : String) : List Wire :=
  p.wires.filter (fun w => w.target.node_id = node_id)

end DAQProject

/-! ## Topology analyzer (`daq_core/compiler/topology.py`) -/

namespace TopologySort

/-- `TopologySort.validate_connections`: one error message per dangling wire
endpoint and one per self-loop wire, batched over all wires; returns
`(len(errors) == 0, errors)`. -/
def validate_connections (p : DAQProject) : Bool × List String :=
  let node_ids := p.nodes.map Node.id
  let errors := p.wires.foldl
    (fun errs w =>
      let errs := if w.source.node_id ∈ node_ids then errs
        else errs ++ ["连线 " ++ w.id ++ " 的源节点不存在: " ++ w.source.node_id]
      let errs := if w.target.node_id ∈ node_ids then errs
        else errs ++ ["连线 " ++ w.id ++ " 的目标节点不存在: " ++ w.target.node_id]
      if w.source.node_id = w.target.node_id then
        errs ++ ["连线 " ++ w.id ++ " 形成自环"]
      else errs)
    []
  (errors.length == 0, errors)

/-- The error messages a single wire contributes in `validate_connections`,
in emission order: dangling source, dangling target, self-loop. -/
def wireErrors (node_ids : List String) (w : Wire) : List String :=
  (if w.source.node_id ∈ node_ids then []
   else ["连线 " ++ w.id ++ " 的源节点不存在: " ++ w.source.node_id]) ++
  (if w.target.node_id ∈ node_ids then []
   else ["连线 " ++ w.id ++ " 的目标节点不存在: " ++ w.target.node_id]) ++
  (if w.source.node_id = w.target.node_id then ["连线 " ++ w.id ++ " 形成自环"]
   else [])

theorem validate_foldl_eq (node_ids : List String) :
    ∀ (ws : List Wire) (acc : List String),
      ws.foldl
        (fun errs w =>
          let errs := if w.source.node_id ∈ node_ids then errs
            else errs ++ ["连线 " ++ w.id ++ " 的源节点不存在: " ++ w.source.node_id]
          let errs := if w.target.node_id ∈ node_ids then errs
            else errs ++ ["连线 " ++ w.id ++ " 的目标节点不存在: " ++ w.target.node_id]
          if w.source.node_id = w.target.node_id then
            errs ++ ["连线 " ++ w.id ++ " 形成自环"]
          else errs)
        acc = acc ++ ws.flatMap (wireErrors node_ids) := by
  intro ws
  induction ws with
  | nil => intro acc; simp
  | cons w ws ih =>
    intro acc
    rw [List.foldl_cons, ih, List.flatMap_cons]
    by_cases h1 : w.source.node_id ∈ node_ids <;>
      by_cases h2 : w.target.node_id ∈ node_ids <;>
        by_cases h3 : w.source.node_id = w.target.node_id <;>
          simp [wireErrors, h1, h2, h3]

theorem wireErrors_flat_length (node_ids : List String) :
    ∀ ws : List Wire,
      (ws.flatMap (wireErrors node_ids)).length =
        (ws.filter (fun w => decide (w.source.node_id ∉ node_ids))).length +
        (ws.filter (fun w => decide (w.target.node_id ∉ node_ids))).length +
        (ws.filter (fun w => decide (w.source.node_id = w.target.node_id))).length := by
  intro ws
  induction ws with
  | nil => simp
  | cons w ws ih =>
    rw [List.flatMap_cons, List.length_append, ih,
      List.filter_cons, List.filter_cons, List.filter_cons]
    by_cases h1 : w.source.node_id ∈ node_ids <;>
      by_cases h2 : w.target.node_id ∈ node_ids <;>
        by_cases h3 : w.source.node_id = w.target.node_id <;>
          · simp [wireErrors, h1, h2, h3, List.filter_cons] <;> omega

end TopologySort

/-! ### Kahn's algorithm (`TopologySort.sort`, topology.py lines 27-91)

Python dicts become association lists in insertion order; `defaultdict(list)`
reads of absent keys yield `[]` (the entry the read creates is never
observable); `in_degree[t] += 1` / `-= 1` on an absent key raises `KeyError`,
modelled as `Except.error` during the build phase (during the pop loop every
successor is a present key whenever the build phase succeeded, and the model
leaves the table unchanged there). -/

namespace TopologySort

/-- First-occurrence deduplication with an explicit seen accumulator
(the key order of a Python dict comprehension over duplicate keys). -/
def dedupFirstAux {α : Type} [DecidableEq α] (seen : List α) : List α → List α
  | [] => []
  | x :: xs =>
    if x ∈ seen then dedupFirstAux seen xs
    else x :: dedupFirstAux (x :: seen) xs

/-- First-occurrence deduplication. -/
def dedupFirst {α : Type} [DecidableEq α] (l : List α) : List α :=
  dedupFirstAux [] l

/-- Dict read with `KeyError`-free access, returning `none` for absent key:
models `d.get(k)` / `d[k]` lookup on the first (unique) occurrence. -/
def degLookup : List (String × Int) → String → Option Int
  | [], _ => none
  | (a, v) :: rest, k => if a = k then some v else degLookup rest k

/-- `d[k] += delta` on the first occurrence of `k`; no-op when absent. -/
def bumpDeg : List (String × Int) → String → Int → List (String × Int)
  | [], _, _ => []
  | (a, v) :: rest, k, d =>
    if a = k then (a, v + d) :: rest else (a, v) :: bumpDeg rest k d

/-- `defaultdict(list)` read: `graph[k]`, `[]` when absent. -/
def getAdj : List (String × List String) → String → List String
  | [], _ => []
  | (a, ts) :: rest, k => if a = k then ts else getAdj rest k

/-- `graph[k] = ts`: overwrite in place, or append the new key. -/
def setAdj : List (String × List String) → String → List String →
    List (String × List String)
  | [], k, ts => [(k, ts)]
  | (a, v) :: rest, k, ts =>
    if a = k then (k, ts) :: rest else (a, v) :: setAdj rest k ts

/-- The `(source.node_id, target.node_id)` pair of a wire. -/
def wirePair (w : Wire) : String × String := (w.source.node_id, w.target.node_id)

/-- Adjacency table plus in-degree table built by `sort` (lines 40-51). -/
structure BuildSt where
  graph : List (String × List String)
  deg : List (String × Int)

/-- `in_degree = {node.id: 0 for node in nodes}`. -/
def initInDeg (nodes : List Node) : List (String × Int) :=
  (dedupFirst (nodes.map Node.id)).map (fun i => (i, 0))

/-- One wire of the build loop: node-pair deduplication then in-degree
increment, `KeyError` when the target id is not an in-degree key. -/
def buildStep (st : BuildSt) (w : Wire) : Except String BuildSt :=
  let s := (wirePair w).1
  let t := (wirePair w).2
  if t ∈ getAdj st.graph s then .ok st
  else if (degLookup st.deg t).isSome then
    .ok ⟨setAdj st.graph s (getAdj st.graph s ++ [t]), bumpDeg st.deg t 1⟩
  else .error ("KeyError: " ++ t)

/-- The whole build loop of `sort`. -/
def buildGraph (nodes : List Node) (wires : List Wire) : Except String BuildSt :=
  wires.foldlM buildStep ⟨[], initInDeg nodes⟩

/-- `in_degree[successor] -= 1` for each successor in order, collecting (in
successor order) those whose new value is exactly `0`
(the `queue.append` of lines 68-71). -/
def decAll (deg : List (String × Int)) :
    List String → List (String × Int) × List String
  | [] => (deg, [])
  | s :: ss =>
    let deg' := bumpDeg deg s (-1)
    let rest := decAll deg' ss
    if degLookup deg' s = some 0 then (rest.1, s :: rest.2) else rest

/-- Number of table entries with a still-positive in-degree: the termination
measure component, and the membership test of `get_cycle_nodes`. -/
def countPos (deg : List (String × Int)) : Nat :=
  (deg.filter (fun e => decide (0 < e.2))).length

/-- The Kahn pop loop (lines 61-71) with an explicit fuel counter.
`sort` passes fuel `queue.length + countPos deg`, which
strictly dominates the number of iterations of the Python `while queue:`
loop, so the `0` branch is never taken there. -/
def kahnLoopF : Nat → List (String × List String) → List (String × Int) →
    List String → List String → List String × List (String × Int)
  | 0, _, deg, _, res => (res, deg)
  | fuel + 1, g, deg, queue, res =>
    match sortStr queue with
    | [] => (res, deg)
    | current :: rest =>
      let p := decAll deg (getAdj g current)
      kahnLoopF fuel g p.1 (rest ++ p.2) (res ++ [current])

/-- The observable state of a `TopologySort` object after `sort()`:
the emitted id sequence and the `_has_cycle` / `_cycle_nodes` fields. -/
structure SortResult where
  sortedIds : List String
  has_cycle : Bool
  cycle_nodes : List String
deriving Repr, DecidableEq

/-- The seed of the ready queue: the in-degree-0 keys, in table order. -/
def seedQueue (deg : List (String × Int)) : List String :=
  (deg.filter (fun e => decide (e.2 = 0))).map Prod.fst

/-- `TopologySort.sort` (plus the `_has_cycle` / `_cycle_nodes` bookkeeping):
Kahn's algorithm over node-pair-deduplicated edges, re-sorting the ready
queue before every pop. -/
def sort (p : DAQProject) : Except String SortResult :=
  if p.nodes.isEmpty then .ok ⟨[], false, []⟩
  else
    match buildGraph p.nodes p.wires with
    | .error e => .error e
    | .ok st =>
      let queue := seedQueue st.deg
      let r := kahnLoopF (queue.length + countPos st.deg) st.graph st.deg queue []
      let hasC : Bool := decide (r.1.length ≠ p.nodes.length)
      .ok ⟨r.1, hasC,
        if hasC then (r.2.filter (fun e => decide (0 < e.2))).map (·.1) else []⟩

/-- The `Node` objects `sort()` returns
(`[get_node(i) for i in result if get_node(i) is not None]`). -/
def sortedNodes (p : DAQProject) (r : SortResult) : List Node :=
  r.sortedIds.filterMap p.get_node

end TopologySort

/-! ### Specification-side Kahn order

`specKahnF` restates the spec's tie-break contract: at every step the
lexicographically smallest ready node id (in-degree zero over the
deduplicated edge set, i.e. all of its in-sources already emitted) is emitted
next.  It depends only on the edge set and the id set, which is what makes
input-permutation invariance provable. -/

/-- The node-pair-deduplicated edge list of a wire list. -/
def edgeList (wires : List Wire) : List (String × String) :=
  TopologySort.dedupFirst (wires.map TopologySort.wirePair)

/-- The distinct in-sources of `k` in the edge list `E`. -/
def insrcList (E : List (String × String)) (k : String) : List String :=
  (E.filter (fun e => decide (e.2 = k))).map (·.1)

/-- The canonical (sorted, duplicate-free) node-id list of a node array. -/
def canonIds (nodes : List Node) : List String :=
  sortStr (TopologySort.dedupFirst (nodes.map Node.id))

/-- `k` is ready: every edge into `k` comes from a key that has already been
emitted (is out of `remaining`). -/
def isReady (E : List (String × String)) (keys remaining : List String)
    (k : String) : Bool :=
  E.all fun e =>
    !(decide (e.2 = k)) || (decide (e.1 ∈ keys) && !(decide (e.1 ∈ remaining)))

/-- One lexicographic-minimum-first Kahn emission sequence; `remaining` is
kept sorted and duplicate-free, so the head of the ready filter is the
lexicographically smallest ready id. -/
def specKahnF : Nat → List (String × String) → List String → List String →
    List String
  | 0, _, _, _ => []
  | fuel + 1, E, keys, remaining =>
    match remaining.filter (isReady E keys remaining) with
    | [] => []
    | m :: _ => m :: specKahnF fuel E keys (remaining.erase m)

/-- The specification order: emit the lexicographically smallest ready id
until none is ready. -/
def specKahn (E : List (String × String)) (keys : List String) : List String :=
  specKahnF keys.length E keys keys

/-! ### Library lemmas: dedup, association tables, sortedness -/

namespace TopologySort

theorem mem_dedupFirstAux {α : Type} [DecidableEq α] :
    ∀ (l seen : List α) (x : α), x ∈ dedupFirstAux seen l ↔ x ∈ l ∧ x ∉ seen := by
  intro l
  induction l with
  | nil => intro seen x; simp [dedupFirstAux]
  | cons a l ih =>
    intro seen x
    by_cases ha : a ∈ seen
    · rw [dedupFirstAux, if_pos ha, ih]
      simp only [List.mem_cons]
      by_cases hxa : x = a
      · subst hxa; tauto
      · tauto
    · rw [dedupFirstAux, if_neg ha]
      simp only [List.mem_cons, ih, List.mem_cons]
      by_cases hxa : x = a
      · subst hxa; tauto
      · tauto

theorem nodup_dedupFirstAux {α : Type} [DecidableEq α] :
    ∀ (l seen : List α), (dedupFirstAux seen l).Nodup := by
  intro l
  induction l with
  | nil => intro seen; simp [dedupFirstAux]
  | cons a l ih =>
    intro seen
    by_cases ha : a ∈ seen
    · rw [dedupFirstAux, if_pos ha]; exact ih seen
    · rw [dedupFirstAux, if_neg ha]
      refine List.Nodup.cons (fun hc => ?_) (ih (a :: seen))
      exact ((mem_dedupFirstAux l (a :: seen) a).mp hc).2 (List.mem_cons_self a seen)

theorem mem_dedupFirst {α : Type} [DecidableEq α] (l : List α) (x : α) :
    x ∈ dedupFirst l ↔ x ∈ l := by
  rw [dedupFirst, mem_dedupFirstAux]; simp

theorem nodup_dedupFirst {α : Type} [DecidableEq α] (l : List α) :
    (dedupFirst l).Nodup := nodup_dedupFirstAux l []

theorem length_dedupFirstAux_le {α : Type} [DecidableEq α] :
    ∀ (l seen : List α), (dedupFirstAux seen l).length ≤ l.length := by
  intro l
  induction l with
  | nil => intro seen; simp [dedupFirstAux]
  | cons a l ih =>
    intro seen
    by_cases ha : a ∈ seen
    · rw [dedupFirstAux, if_pos ha]
      exact Nat.le_succ_of_le (ih seen)
    · rw [dedupFirstAux, if_neg ha]
      simpa using Nat.succ_le_succ (ih (a :: seen))

theorem length_dedupFirst_le {α : Type} [DecidableEq α] (l : List α) :
    (dedupFirst l).length ≤ l.length := length_dedupFirstAux_le l []

theorem dedupFirstAux_append_singleton {α : Type} [DecidableEq α] :
    ∀ (l seen : List α) (p : α),
      dedupFirstAux seen (l ++ [p]) =
        dedupFirstAux seen l ++ (if p ∈ seen ∨ p ∈ l then [] else [p]) := by
  intro l
  induction l with
  | nil =>
    intro seen p
    by_cases hp : p ∈ seen <;> simp [dedupFirstAux, hp]
  | cons a l ih =>
    intro seen p
    by_cases ha : a ∈ seen
    · rw [List.cons_append, dedupFirstAux, if_pos ha, ih, dedupFirstAux, if_pos ha]
      by_cases hpa : p = a
      · simp [hpa, ha]
      · simp [List.mem_cons, hpa]
    · rw [List.cons_append, dedupFirstAux, if_neg ha, ih, dedupFirstAux, if_neg ha]
      by_cases hpa : p = a
      · simp [hpa, List.mem_cons]
      · have : (p ∈ a :: seen ∨ p ∈ l) ↔ (p ∈ seen ∨ p ∈ a :: l) := by
          simp only [List.mem_cons, hpa]; tauto
        simp only [this, List.cons_append]

theorem dedupFirst_append_singleton {α : Type} [DecidableEq α] (l : List α) (p : α) :
    dedupFirst (l ++ [p]) = dedupFirst l ++ (if p ∈ l then [] else [p]) := by
  rw [dedupFirst, dedupFirstAux_append_singleton, dedupFirst]
  simp

/-- Two duplicate-free lists with the same members are permutations. -/
theorem perm_of_nodup_of_mem_iff {α : Type} [DecidableEq α] {l₁ l₂ : List α}
    (h₁ : l₁.Nodup) (h₂ : l₂.Nodup) (h : ∀ x, x ∈ l₁ ↔ x ∈ l₂) : l₁.Perm l₂ := by
  rw [List.perm_iff_count]
  intro a
  by_cases ha : a ∈ l₁
  · rw [List.count_eq_one_of_mem h₁ ha, List.count_eq_one_of_mem h₂ ((h a).mp ha)]
  · rw [List.count_eq_zero_of_not_mem ha,
      List.count_eq_zero_of_not_mem (fun hc => ha ((h a).mpr hc))]

theorem dedupFirst_perm_of_perm {α : Type} [DecidableEq α] {l₁ l₂ : List α}
    (h : l₁.Perm l₂) : (dedupFirst l₁).Perm (dedupFirst l₂) :=
  perm_of_nodup_of_mem_iff (nodup_dedupFirst l₁) (nodup_dedupFirst l₂)
    (fun x => by rw [mem_dedupFirst, mem_dedupFirst]; exact ⟨h.mem_iff.mp, h.mem_iff.mpr⟩)

theorem sortStr_eq_self_of_sorted {l : List String} (h : List.Sorted sLe l) :
    sortStr l = l :=
  List.eq_of_perm_of_sorted (sortStr_perm l) (sortStr_sorted l) h

/-! Association-table lemmas. -/

theorem bumpDeg_keys : ∀ (deg : List (String × Int)) (k : String) (d : Int),
    (bumpDeg deg k d).map Prod.fst = deg.map Prod.fst := by
  intro deg k d
  induction deg with
  | nil => rfl
  | cons e rest ih =>
    obtain ⟨a, v⟩ := e
    by_cases h : a = k <;> simp [bumpDeg, h, ih]

theorem degLookup_bumpDeg_self :
    ∀ (deg : List (String × Int)) (k : String) (d : Int),
      degLookup (bumpDeg deg k d) k = (degLookup deg k).map (· + d) := by
  intro deg k d
  induction deg with
  | nil => rfl
  | cons e rest ih =>
    obtain ⟨a, v⟩ := e
    by_cases h : a = k <;> simp [bumpDeg, degLookup, h, ih]

theorem degLookup_bumpDeg_other :
    ∀ (deg : List (String × Int)) (k j : String) (d : Int), j ≠ k →
      degLookup (bumpDeg deg k d) j = degLookup deg j := by
  intro deg k j d hjk
  induction deg with
  | nil => rfl
  | cons e rest ih =>
    obtain ⟨a, v⟩ := e
    by_cases h : a = k
    · subst h
      simp [bumpDeg, degLookup, Ne.symm hjk]
    · by_cases h2 : a = j <;> simp [bumpDeg, degLookup, h, h2, hjk, ih]

theorem degLookup_isSome_iff_mem :
    ∀ (deg : List (String × Int)) (k : String),
      (degLookup deg k).isSome ↔ k ∈ deg.map Prod.fst := by
  intro deg k
  induction deg with
  | nil => simp [degLookup]
  | cons e rest ih =>
    obtain ⟨a, v⟩ := e
    by_cases h : a = k
    · simp [degLookup, h]
    · have h' : ¬k = a := fun hc => h hc.symm
      simp [degLookup, h, h', ih]

theorem degLookup_mem :
    ∀ (deg : List (String × Int)) (k : String) (v : Int),
      degLookup deg k = some v → (k, v) ∈ deg := by
  intro deg k v
  induction deg with
  | nil => intro h; simp [degLookup] at h
  | cons e rest ih =>
    obtain ⟨a, w⟩ := e
    by_cases h : a = k
    · subst h
      intro hv
      simp [degLookup] at hv
      simp [hv]
    · intro hv
      rw [degLookup, if_neg h] at hv
      exact List.mem_cons_of_mem _ (ih hv)

theorem countPos_bumpDeg_dec :
    ∀ (deg : List (String × Int)) (k : String),
      countPos deg =
        countPos (bumpDeg deg k (-1)) +
          (if degLookup deg k = some 1 then 1 else 0) := by
  intro deg k
  induction deg with
  | nil => rfl
  | cons e rest ih =>
    obtain ⟨a, v⟩ := e
    by_cases h : a = k
    · subst h
      by_cases hv : v = 1
      · subst hv
        simp [bumpDeg, degLookup, countPos, List.filter_cons]
      · rw [bumpDeg, if_pos rfl]
        have hcond : (degLookup ((a, v) :: rest) a = some 1) = False := by
          simp [degLookup, hv]
        simp only [hcond, if_false, Nat.add_zero]
        unfold countPos
        rw [List.filter_cons, List.filter_cons]
        by_cases hp : (0 : Int) < v
        · have hp' : (0 : Int) < v + -1 := by
            rcases Int.lt_iff_add_one_le.mp hp with h'
            omega
          simp [hp, hp']
        · have hp' : ¬(0 : Int) < v + -1 := by omega
          simp [hp, hp']
    · rw [bumpDeg, if_neg h]
      have hcond : degLookup ((a, v) :: rest) k = degLookup rest k := by
        simp [degLookup, h]
      rw [hcond]
      unfold countPos
      rw [List.filter_cons, List.filter_cons]
      by_cases hp : (0 : Int) < v
      · simp only [hp, decide_True, if_true, List.length_cons]
        have := ih
        unfold countPos at this
        omega
      · simp only [hp, decide_False, if_false]
        exact ih

theorem getAdj_setAdj_self :
    ∀ (g : List (String × List String)) (k : String) (ts : List String),
      getAdj (setAdj g k ts) k = ts := by
  intro g k ts
  induction g with
  | nil => simp [setAdj, getAdj]
  | cons e rest ih =>
    obtain ⟨a, v⟩ := e
    by_cases h : a = k <;> simp [setAdj, getAdj, h, ih]

theorem decAll_keys : ∀ (S : List String) (deg : List (String × Int)),
    ((decAll deg S).1).map Prod.fst = deg.map Prod.fst := by
  intro S
  induction S with
  | nil => intro deg; rfl
  | cons s ss ih =>
    intro deg
    rw [decAll]
    have hkeys : ((decAll (bumpDeg deg s (-1)) ss).1).map Prod.fst =
        deg.map Prod.fst := by rw [ih, bumpDeg_keys]
    by_cases h : degLookup (bumpDeg deg s (-1)) s = some 0
    · rw [if_pos h]; exact hkeys
    · rw [if_neg h]; exact hkeys

theorem decAll_lookup_not_mem :
    ∀ (S : List String) (deg : List (String × Int)) (k : String), k ∉ S →
      degLookup (decAll deg S).1 k = degLookup deg k := by
  intro S
  induction S with
  | nil => intro deg k _; rfl
  | cons s ss ih =>
    intro deg k hk
    have hks : k ≠ s := fun hc => hk (hc ▸ List.mem_cons_self s ss)
    have hkss : k ∉ ss := fun hc => hk (List.mem_cons_of_mem _ hc)
    rw [decAll]
    have hrec : degLookup (decAll (bumpDeg deg s (-1)) ss).1 k = degLookup deg k := by
      rw [ih _ _ hkss, degLookup_bumpDeg_other _ _ _ _ hks]
    by_cases h : degLookup (bumpDeg deg s (-1)) s = some 0
    · rw [if_pos h]; exact hrec
    · rw [if_neg h]; exact hrec

theorem decAll_lookup_mem :
    ∀ (S : List String) (deg : List (String × Int)) (k : String),
      S.Nodup → k ∈ S →
      degLookup (decAll deg S).1 k = (degLookup deg k).map (· + (-1)) := by
  intro S
  induction S with
  | nil => intro deg k _ hk; simp at hk
  | cons s ss ih =>
    intro deg k hnd hk
    rw [decAll]
    have hrec : degLookup (decAll (bumpDeg deg s (-1)) ss).1 k =
        (degLookup deg k).map (· + (-1)) := by
      rcases List.mem_cons.mp hk with rfl | hk'
      · rw [decAll_lookup_not_mem _ _ _ (List.nodup_cons.mp hnd).1,
          degLookup_bumpDeg_self]
      · rw [ih _ _ (List.nodup_cons.mp hnd).2 hk',
          degLookup_bumpDeg_other]
        intro hc
        exact (List.nodup_cons.mp hnd).1 (hc ▸ hk')
    by_cases h : degLookup (bumpDeg deg s (-1)) s = some 0
    · rw [if_pos h]; exact hrec
    · rw [if_neg h]; exact hrec

theorem decAll_newly :
    ∀ (S : List String) (deg : List (String × Int)), S.Nodup →
      (decAll deg S).2 = S.filter (fun s => decide (degLookup deg s = some 1)) := by
  intro S
  induction S with
  | nil => intro deg _; rfl
  | cons s ss ih =>
    intro deg hnd
    obtain ⟨hs, hss⟩ := List.nodup_cons.mp hnd
    have hcond : (degLookup (bumpDeg deg s (-1)) s = some 0) ↔
        (degLookup deg s = some 1) := by
      rw [degLookup_bumpDeg_self]
      cases degLookup deg s with
      | none => simp
      | some v =>
        simp only [Option.map_some', Option.some.injEq]
        omega
    have hrec : (decAll (bumpDeg deg s (-1)) ss).2 =
        ss.filter (fun x => decide (degLookup deg x = some 1)) := by
      rw [ih _ hss]
      refine List.filter_congr (fun x hx => ?_)
      rw [degLookup_bumpDeg_other]
      intro hc
      exact hs (hc ▸ hx)
    rw [decAll, List.filter_cons]
    by_cases h : degLookup (bumpDeg deg s (-1)) s = some 0
    · rw [if_pos h]
      show s :: (decAll (bumpDeg deg s (-1)) ss).2 = _
      rw [hrec]
      have h1 : degLookup deg s = some 1 := hcond.mp h
      simp [h1]
    · rw [if_neg h]
      show (decAll (bumpDeg deg s (-1)) ss).2 = _
      rw [hrec]
      have h1 : ¬degLookup deg s = some 1 := fun hc => h (hcond.mpr hc)
      simp [h1]

theorem decAll_countPos :
    ∀ (S : List String) (deg : List (String × Int)), S.Nodup →
      countPos deg = countPos (decAll deg S).1 + (decAll deg S).2.length := by
  intro S
  induction S with
  | nil => intro deg _; rfl
  | cons s ss ih =>
    intro deg hnd
    obtain ⟨hs, hss⟩ := List.nodup_cons.mp hnd
    have hstep := countPos_bumpDeg_dec deg s
    have hrec := ih (bumpDeg deg s (-1)) hss
    have hcond : (degLookup (bumpDeg deg s (-1)) s = some 0) ↔
        (degLookup deg s = some 1) := by
      rw [degLookup_bumpDeg_self]
      cases degLookup deg s with
      | none => simp
      | some v =>
        simp only [Option.map_some', Option.some.injEq]
        omega
    rw [decAll]
    by_cases h : degLookup (bumpDeg deg s (-1)) s = some 0
    · rw [if_pos h]
      show countPos deg = countPos (decAll (bumpDeg deg s (-1)) ss).1 +
        (s :: (decAll (bumpDeg deg s (-1)) ss).2).length
      have h1 : degLookup deg s = some 1 := hcond.mp h
      rw [hstep, if_pos h1, hrec]
      simp only [List.length_cons]
      omega
    · rw [if_neg h]
      show countPos deg = countPos (decAll (bumpDeg deg s (-1)) ss).1 +
        (decAll (bumpDeg deg s (-1)) ss).2.length
      have h1 : ¬degLookup deg s = some 1 := fun hc => h (hcond.mpr hc)
      rw [hstep, if_neg h1, hrec]
      omega

theorem getAdj_setAdj_other :
    ∀ (g : List (String × List String)) (k j : String) (ts : List String), j ≠ k →
      getAdj (setAdj g k ts) j = getAdj g j := by
  intro g k j ts hjk
  induction g with
  | nil => simp [setAdj, getAdj, Ne.symm hjk]
  | cons e rest ih =>
    obtain ⟨a, v⟩ := e
    by_cases h : a = k
    · subst h
      simp [setAdj, getAdj, Ne.symm hjk]
    · by_cases h2 : a = j <;> simp [setAdj, getAdj, h, h2, hjk, ih]

end TopologySort

theorem mem_insrcList (E : List (String × String)) (k s : String) :
    s ∈ insrcList E k ↔ (s, k) ∈ E := by
  constructor
  · intro h
    rw [insrcList] at h
    obtain ⟨e, he, h1⟩ := List.mem_map.mp h
    have h2 : e.2 = k := by simpa using (List.mem_filter.mp he).2
    have he' : e ∈ E := (List.mem_filter.mp he).1
    have heq : e = (s, k) := Prod.ext h1 h2
    rwa [heq] at he'
  · intro h
    rw [insrcList]
    exact List.mem_map.mpr ⟨(s, k), List.mem_filter.mpr ⟨h, by simp⟩, rfl⟩

theorem nodup_insrcList (E : List (String × String)) (k : String) (hE : E.Nodup) :
    (insrcList E k).Nodup := by
  refine List.Nodup.map_on ?_ (hE.filter _)
  intro x hx y hy hxy
  have hx2 : x.2 = k := by
    have := (List.mem_filter.mp hx).2
    simpa using this
  have hy2 : y.2 = k := by
    have := (List.mem_filter.mp hy).2
    simpa using this
  exact Prod.ext hxy (hx2.trans hy2.symm)

/-- A duplicate-free list missing an element of `l₂` is strictly shorter. -/
theorem nodup_length_lt_of_missing {α : Type} [DecidableEq α] {l₁ l₂ : List α}
    (h₁ : l₁.Nodup) (hsub : l₁ ⊆ l₂) {x : α} (hx₂ : x ∈ l₂) (hx₁ : x ∉ l₁) :
    l₁.length < l₂.length := by
  have hsub' : l₁ ⊆ l₂.erase x := by
    intro y hy
    have hyx : y ≠ x := fun hc => hx₁ (hc ▸ hy)
    exact (List.mem_erase_of_ne hyx).mpr (hsub hy)
  have hle : l₁.length ≤ (l₂.erase x).length :=
    (h₁.subperm hsub').length_le
  have herase : (l₂.erase x).length = l₂.length - 1 :=
    List.length_erase_of_mem hx₂
  have hpos : 0 < l₂.length := List.length_pos_of_mem hx₂
  omega

theorem length_filter_mem_of_subset {popped L : List String}
    (hp : popped.Nodup) (hL : L.Nodup) (hsub : ∀ x ∈ L, x ∈ popped) :
    (popped.filter (fun s => decide (s ∈ L))).length = L.length := by
  refine List.Perm.length_eq
    (TopologySort.perm_of_nodup_of_mem_iff (hp.filter _) hL fun x => ?_)
  simp only [List.mem_filter, decide_eq_true_eq]
  exact ⟨fun h => h.2, fun h => ⟨hsub x h, h⟩⟩

theorem length_filter_mem_lt {popped L : List String}
    (hp : popped.Nodup) (hL : L.Nodup) {y : String} (hy : y ∈ L)
    (hyp : y ∉ popped) :
    (popped.filter (fun s => decide (s ∈ L))).length < L.length := by
  refine nodup_length_lt_of_missing (hp.filter _) ?_ hy ?_
  · intro x hx
    have := (List.mem_filter.mp hx).2
    simpa using this
  · intro hc
    exact hyp (List.mem_filter.mp hc).1

theorem isReady_iff (E : List (String × String)) (keys remaining : List String)
    (k : String) :
    isReady E keys remaining k = true ↔
      ∀ e ∈ E, e.2 = k → e.1 ∈ keys ∧ e.1 ∉ remaining := by
  simp only [isReady, List.all_eq_true]
  refine forall_congr' fun e => forall_congr' fun _ => ?_
  by_cases h : e.2 = k <;> simp [h]

/-! ### Correctness of the build phase -/

namespace TopologySort

theorem except_bind_ok {α β γ : Type} (a : α) (f : α → Except γ β) :
    ((Except.ok a : Except γ α) >>= f) = f a := rfl

theorem except_bind_error {α β γ : Type} (e : γ) (f : α → Except γ β) :
    ((Except.error e : Except γ α) >>= f) = Except.error e := rfl

/-- The invariant tying the `graph` / `in_degree` tables to the
deduplicated edge list they represent. -/
structure BuildInv (keys0 : List String) (E : List (String × String))
    (st : BuildSt) : Prop where
  keys_eq : st.deg.map Prod.fst = keys0
  deg_eq : ∀ k, degLookup st.deg k =
    if k ∈ keys0 then some ((insrcList E k).length : Int) else none
  adj_nodup : ∀ s, (getAdj st.graph s).Nodup
  adj_mem : ∀ s t, t ∈ getAdj st.graph s ↔ (s, t) ∈ E
  edges_nodup : E.Nodup
  target_keys : ∀ e ∈ E, e.2 ∈ keys0

theorem degLookup_const_map (l : List String) (c : Int) (k : String) :
    degLookup (l.map (fun i => (i, c))) k = if k ∈ l then some c else none := by
  induction l with
  | nil => simp [degLookup]
  | cons a rest ih =>
    by_cases h : a = k
    · simp [degLookup, h]
    · have h' : ¬k = a := fun hc => h hc.symm
      simp [degLookup, h, h', ih]

theorem buildInv_init (nodes : List Node) :
    BuildInv (dedupFirst (nodes.map Node.id)) (dedupFirst ([] : List (String × String)))
      ⟨[], initInDeg nodes⟩ := by
  refine ⟨?_, ?_, ?_, ?_, ?_, ?_⟩
  · show (initInDeg nodes).map Prod.fst = _
    have hcomp : (Prod.fst ∘ fun i : String => (i, (0 : Int))) = id := rfl
    rw [initInDeg, List.map_map, hcomp, List.map_id]
  · intro k
    show degLookup (initInDeg nodes) k = _
    rw [initInDeg, degLookup_const_map]
    simp [insrcList, dedupFirst, dedupFirstAux]
  · intro s; simp [getAdj]
  · intro s t; simp [getAdj, dedupFirst, dedupFirstAux]
  · simp [dedupFirst, dedupFirstAux]
  · simp [dedupFirst, dedupFirstAux]

theorem insrcList_append_ne (E : List (String × String)) (p : String × String)
    (k : String) (h : p.2 ≠ k) :
    insrcList (E ++ [p]) k = insrcList E k := by
  rw [insrcList, List.filter_append, insrcList]
  simp [h]

theorem insrcList_append_eq (E : List (String × String)) (p : String × String)
    (h : p.2 = k) :
    insrcList (E ++ [p]) k = insrcList E k ++ [p.1] := by
  rw [insrcList, List.filter_append, insrcList]
  simp [h]

theorem buildStep_inv {keys0 : List String} {pairs : List (String × String)}
    {st st' : BuildSt} {w : Wire}
    (h : BuildInv keys0 (dedupFirst pairs) st)
    (hs : buildStep st w = .ok st') :
    BuildInv keys0 (dedupFirst (pairs ++ [wirePair w])) st' := by
  set s := (wirePair w).1 with hsdef
  set t := (wirePair w).2 with htdef
  rw [buildStep] at hs
  by_cases hmem : t ∈ getAdj st.graph s
  · rw [if_pos hmem] at hs
    have hst : st' = st := by cases hs; rfl
    have hpE : (s, t) ∈ dedupFirst pairs := (h.adj_mem s t).mp hmem
    have hpp : wirePair w ∈ pairs := by
      have := (mem_dedupFirst pairs (s, t)).mp hpE
      simpa [hsdef, htdef] using this
    rw [dedupFirst_append_singleton, if_pos hpp, List.append_nil, hst]
    exact h
  · rw [if_neg hmem] at hs
    by_cases hsome : (degLookup st.deg t).isSome
    · rw [if_pos hsome] at hs
      have hst : st' = ⟨setAdj st.graph s (getAdj st.graph s ++ [t]),
          bumpDeg st.deg t 1⟩ := by cases hs; rfl
      have htk : t ∈ keys0 := by
        rw [degLookup_isSome_iff_mem, h.keys_eq] at hsome
        exact hsome
      have hpp : wirePair w ∉ pairs := by
        intro hc
        have : (s, t) ∈ dedupFirst pairs := by
          rw [mem_dedupFirst]
          simpa [hsdef, htdef] using hc
        exact hmem ((h.adj_mem s t).mpr this)
      have hEnew : dedupFirst (pairs ++ [wirePair w]) =
          dedupFirst pairs ++ [(s, t)] := by
        rw [dedupFirst_append_singleton, if_neg hpp]
      have hpE : (s, t) ∉ dedupFirst pairs := fun hc =>
        hmem ((h.adj_mem s t).mpr hc)
      rw [hEnew, hst]
      refine ⟨?_, ?_, ?_, ?_, ?_, ?_⟩
      · show (bumpDeg st.deg t 1).map Prod.fst = keys0
        rw [bumpDeg_keys, h.keys_eq]
      · intro k
        show degLookup (bumpDeg st.deg t 1) k = _
        by_cases hk : k = t
        · rw [hk, degLookup_bumpDeg_self, h.deg_eq t, if_pos htk, if_pos htk,
            insrcList_append_eq _ _ rfl]
          simp
        · rw [degLookup_bumpDeg_other _ _ _ _ hk, h.deg_eq k,
            insrcList_append_ne _ _ _ (fun hc => hk hc.symm)]
      · intro s'
        show (getAdj (setAdj st.graph s (getAdj st.graph s ++ [t])) s').Nodup
        by_cases hs' : s' = s
        · rw [hs', getAdj_setAdj_self]
          refine List.Nodup.append (h.adj_nodup s) (List.nodup_singleton t) ?_
          intro a ha hb
          rw [List.mem_singleton] at hb
          exact hmem (hb ▸ ha)
        · rw [getAdj_setAdj_other _ _ _ _ hs']
          exact h.adj_nodup s'
      · intro s' t'
        show t' ∈ getAdj (setAdj st.graph s (getAdj st.graph s ++ [t])) s' ↔ _
        by_cases hs' : s' = s
        · rw [hs', getAdj_setAdj_self, List.mem_append, h.adj_mem s t',
            List.mem_append]
          simp
        · rw [getAdj_setAdj_other _ _ _ _ hs', h.adj_mem s' t',
            List.mem_append]
          have hnotin : (s', t') ∉ [(s, t)] := by
            simp only [List.mem_singleton, Prod.mk.injEq, not_and]
            intro hc
            exact absurd hc hs'
          constructor
          · exact fun hmem' => Or.inl hmem'
          · rintro (hmem' | hc)
            · exact hmem'
            · exact absurd hc hnotin
      · exact List.Nodup.append h.edges_nodup (List.nodup_singleton _)
          (fun x hx hx' => by
            rw [List.mem_singleton] at hx'
            exact hpE (hx' ▸ hx))
      · intro e he
        rcases List.mem_append.mp he with he | he
        · exact h.target_keys e he
        · rw [List.mem_singleton] at he
          subst he
          exact htk
    · rw [if_neg hsome] at hs
      cases hs

theorem buildAux {keys0 : List String} :
    ∀ (ws : List Wire) (st : BuildSt) (pairs : List (String × String))
      {stF : BuildSt},
      BuildInv keys0 (dedupFirst pairs) st →
      ws.foldlM buildStep st = .ok stF →
      BuildInv keys0 (dedupFirst (pairs ++ ws.map wirePair)) stF := by
  intro ws
  induction ws with
  | nil =>
    intro st pairs stF h hf
    simp only [List.foldlM_nil] at hf
    cases hf
    simpa using h
  | cons w ws ih =>
    intro st pairs stF h hf
    rw [List.foldlM_cons] at hf
    cases hstep : buildStep st w with
    | error e =>
      rw [hstep, except_bind_error] at hf
      cases hf
    | ok st1 =>
      rw [hstep, except_bind_ok] at hf
      have h1 := buildStep_inv h hstep
      have h2 := ih st1 (pairs ++ [wirePair w]) h1 hf
      simpa [List.append_assoc] using h2

/-- After a successful build, the tables represent exactly the
node-pair-deduplicated edge list and the node-id key list. -/
theorem buildGraph_ok {nodes : List Node} {wires : List Wire} {st : BuildSt}
    (h : buildGraph nodes wires = .ok st) :
    BuildInv (dedupFirst (nodes.map Node.id)) (edgeList wires) st := by
  have := buildAux wires ⟨[], initInDeg nodes⟩ [] (buildInv_init nodes) h
  simpa [edgeList] using this

end TopologySort

/-! ### Refinement of the pop loop against the specification order -/

/-- The ids of `keys0` not yet popped, in canonical sorted order. -/
def remAfter (keys0 popped : List String) : List String :=
  (sortStr keys0).filter (fun y => decide (y ∉ popped))

theorem mem_sortStr (l : List String) (x : String) : x ∈ sortStr l ↔ x ∈ l :=
  (sortStr_perm l).mem_iff

theorem nodup_sortStr {l : List String} (h : l.Nodup) : (sortStr l).Nodup :=
  ((sortStr_perm l).nodup_iff).mpr h

theorem mem_remAfter (keys0 popped : List String) (x : String) :
    x ∈ remAfter keys0 popped ↔ x ∈ keys0 ∧ x ∉ popped := by
  rw [remAfter, List.mem_filter, mem_sortStr]
  simp

theorem nodup_remAfter {keys0 : List String} (h : keys0.Nodup)
    (popped : List String) : (remAfter keys0 popped).Nodup :=
  (nodup_sortStr h).filter _

theorem sorted_remAfter (keys0 popped : List String) :
    List.Sorted sLe (remAfter keys0 popped) :=
  List.Pairwise.filter _ (sortStr_sorted keys0)

theorem remAfter_nil (keys0 : List String) : remAfter keys0 [] = sortStr keys0 := by
  rw [remAfter]
  apply List.filter_eq_self.mpr
  intro x _
  simp

theorem remAfter_snoc {keys0 : List String} (h : keys0.Nodup)
    (popped : List String) (m : String) :
    (remAfter keys0 popped).erase m = remAfter keys0 (popped ++ [m]) := by
  rw [List.Nodup.erase_eq_filter (nodup_remAfter h popped), remAfter, remAfter,
    List.filter_filter]
  apply List.filter_congr
  intro x _
  by_cases h1 : x = m <;> by_cases h2 : x ∈ popped <;> simp [h1, h2]

theorem specKahnF_ready_nil (f : Nat) (E : List (String × String))
    (K rem : List String) (h : rem.filter (isReady E K rem) = []) :
    specKahnF f E K rem = [] := by
  cases f with
  | zero => rfl
  | succ f => rw [specKahnF, h]

theorem snoc_split {α : Type} {p : List α} {m x : α} {l₁ l₂ : List α}
    (h : p ++ [m] = l₁ ++ x :: l₂) :
    (l₁ = p ∧ x = m ∧ l₂ = []) ∨ ∃ l₂', l₂ = l₂' ++ [m] ∧ p = l₁ ++ x :: l₂' := by
  rcases List.eq_nil_or_concat l₂ with rfl | ⟨l₂', b, rfl⟩
  · have h' : p ++ [m] = l₁ ++ [x] := h
    obtain ⟨h1, h2⟩ := List.append_inj' h' (by simp)
    exact Or.inl ⟨h1.symm, (List.singleton_injective h2).symm, rfl⟩
  · have h' : p ++ [m] = (l₁ ++ x :: l₂') ++ [b] := by
      rw [h]; simp
    obtain ⟨h1, h2⟩ := List.append_inj' h' (by simp)
    exact Or.inr ⟨l₂', by rw [List.concat_eq_append, ← List.singleton_injective h2], h1⟩

/-- The loop invariant of the Kahn pop loop relative to the deduplicated
edge list `E` and the in-degree key list `keys0`. -/
structure LoopInv (E : List (String × String)) (keys0 : List String)
    (g : List (String × List String)) (deg : List (String × Int))
    (queue popped : List String) : Prop where
  keys_nodup : keys0.Nodup
  keys_eq : deg.map Prod.fst = keys0
  deg_eq : ∀ k v, TopologySort.degLookup deg k = some v →
    v = ((insrcList E k).length : Int) -
      ((popped.filter (fun s => decide (s ∈ insrcList E k))).length : Int)
  edges_nodup : E.Nodup
  target_keys : ∀ e ∈ E, e.2 ∈ keys0
  adj_nodup : ∀ s, (TopologySort.getAdj g s).Nodup
  adj_mem : ∀ s t, t ∈ TopologySort.getAdj g s ↔ (s, t) ∈ E
  popped_nodup : popped.Nodup
  popped_sub : ∀ x ∈ popped, x ∈ keys0
  popped_closed : ∀ l₁ x l₂, popped = l₁ ++ x :: l₂ → ∀ s, (s, x) ∈ E → s ∈ l₁
  queue_perm : queue.Perm ((remAfter keys0 popped).filter
    (isReady E (sortStr keys0) (remAfter keys0 popped)))

/-- Everything an element of `popped` satisfies: its in-sources are popped. -/
theorem popped_insrc_sub {E : List (String × String)} {popped : List String}
    (hc : ∀ l₁ x l₂, popped = l₁ ++ x :: l₂ → ∀ s, (s, x) ∈ E → s ∈ l₁)
    {x : String} (hx : x ∈ popped) {s : String} (hs : (s, x) ∈ E) : s ∈ popped := by
  obtain ⟨l₁, l₂, rfl⟩ := List.append_of_mem hx
  exact List.mem_append.mpr (Or.inl (hc l₁ x l₂ rfl s hs))

/-- One iteration of the pop loop preserves `LoopInv`: popping the head `m`
of the sorted ready queue, decrementing its successors and enqueueing the
newly-zero ones yields the invariant for `popped ++ [m]`. -/
theorem loopInv_step {E : List (String × String)} {keys0 : List String}
    {g : List (String × List String)} {deg : List (String × Int)}
    {queue popped : List String} {m : String} {restR : List String}
    (hinv : LoopInv E keys0 g deg queue popped)
    (hready : (remAfter keys0 popped).filter
      (isReady E (sortStr keys0) (remAfter keys0 popped)) = m :: restR) :
    LoopInv E keys0 g (TopologySort.decAll deg (TopologySort.getAdj g m)).1
      (restR ++ (TopologySort.decAll deg (TopologySort.getAdj g m)).2)
      (popped ++ [m]) := by
  have hK0nd := hinv.keys_nodup
  have hEnd := hinv.edges_nodup
  have hpnd := hinv.popped_nodup
  have hm_filter : m ∈ (remAfter keys0 popped).filter
      (isReady E (sortStr keys0) (remAfter keys0 popped)) := by
    rw [hready]; exact List.mem_cons_self _ _
  have hmrem : m ∈ remAfter keys0 popped := (List.mem_filter.mp hm_filter).1
  have hmready : isReady E (sortStr keys0) (remAfter keys0 popped) m = true :=
    (List.mem_filter.mp hm_filter).2
  have hmK0 : m ∈ keys0 := ((mem_remAfter _ _ _).mp hmrem).1
  have hmnp : m ∉ popped := ((mem_remAfter _ _ _).mp hmrem).2
  have hready_insrc : ∀ x, x ∈ remAfter keys0 popped →
      isReady E (sortStr keys0) (remAfter keys0 popped) x = true →
      ∀ s, (s, x) ∈ E → s ∈ popped := by
    intro x hxrem hxready s hs
    have h2 := (isReady_iff E _ _ x).mp hxready (s, x) hs rfl
    have hsk : s ∈ keys0 := (mem_sortStr keys0 s).mp h2.1
    by_contra hnp
    exact h2.2 ((mem_remAfter keys0 popped s).mpr ⟨hsk, hnp⟩)
  have hminsrc : ∀ s, (s, m) ∈ E → s ∈ popped := hready_insrc m hmrem hmready
  have hpnd' : (popped ++ [m]).Nodup := by
    refine List.Nodup.append hpnd (List.nodup_singleton m) ?_
    intro a ha hb
    rw [List.mem_singleton] at hb
    exact hmnp (hb ▸ ha)
  have hlookup : ∀ k, k ∈ keys0 → ∃ v, TopologySort.degLookup deg k = some v := by
    intro k hk
    have hsome : (TopologySort.degLookup deg k).isSome := by
      rw [TopologySort.degLookup_isSome_iff_mem, hinv.keys_eq]
      exact hk
    cases hdl : TopologySort.degLookup deg k with
    | none => rw [hdl] at hsome; exact absurd hsome (by simp)
    | some v => exact ⟨v, rfl⟩
  have hlookup_keys : ∀ k v, TopologySort.degLookup deg k = some v → k ∈ keys0 := by
    intro k v hv
    have : (TopologySort.degLookup deg k).isSome := by rw [hv]; rfl
    rw [TopologySort.degLookup_isSome_iff_mem, hinv.keys_eq] at this
    exact this
  have hval0 : ∀ x, x ∈ remAfter keys0 popped →
      isReady E (sortStr keys0) (remAfter keys0 popped) x = true →
      TopologySort.degLookup deg x = some 0 := by
    intro x hxrem hxready
    obtain ⟨hxk, _⟩ := (mem_remAfter _ _ _).mp hxrem
    obtain ⟨v, hv⟩ := hlookup x hxk
    have hins_sub : ∀ s ∈ insrcList E x, s ∈ popped := by
      intro s hs
      exact hready_insrc x hxrem hxready s ((mem_insrcList E x s).mp hs)
    have hcnt := length_filter_mem_of_subset hpnd (nodup_insrcList E x hEnd) hins_sub
    have hveq := hinv.deg_eq x v hv
    rw [hv]
    congr 1
    omega
  have hpop_insrc : ∀ x ∈ popped, ∀ s, (s, x) ∈ E → s ∈ popped := by
    intro x hx s hs
    exact popped_insrc_sub hinv.popped_closed hx hs
  have hpop_val0 : ∀ x ∈ popped, ∀ v, TopologySort.degLookup deg x = some v → v ≤ 0 := by
    intro x hx v hv
    have hins_sub : ∀ s ∈ insrcList E x, s ∈ popped := by
      intro s hs
      exact hpop_insrc x hx s ((mem_insrcList E x s).mp hs)
    have hcnt := length_filter_mem_of_subset hpnd (nodup_insrcList E x hEnd) hins_sub
    have hveq := hinv.deg_eq x v hv
    omega
  have hnewly : (TopologySort.decAll deg (TopologySort.getAdj g m)).2 =
      (TopologySort.getAdj g m).filter
        (fun s => decide (TopologySort.degLookup deg s = some 1)) :=
    TopologySort.decAll_newly _ deg (hinv.adj_nodup m)
  have hnewly_mem : ∀ x, x ∈ (TopologySort.decAll deg (TopologySort.getAdj g m)).2 ↔
      ((m, x) ∈ E ∧ TopologySort.degLookup deg x = some 1) := by
    intro x
    rw [hnewly, List.mem_filter]
    simp only [decide_eq_true_eq, hinv.adj_mem m x]
  have hrem' : (remAfter keys0 popped).erase m = remAfter keys0 (popped ++ [m]) :=
    remAfter_snoc hK0nd popped m
  have hfilnd : (m :: restR).Nodup := by
    rw [← hready]
    exact (nodup_remAfter hK0nd popped).filter _
  have hmnotrestR : m ∉ restR := (List.nodup_cons.mp hfilnd).1
  have hrestRnd : restR.Nodup := (List.nodup_cons.mp hfilnd).2
  have hrestR_mem : ∀ x ∈ restR, x ∈ remAfter keys0 popped ∧
      isReady E (sortStr keys0) (remAfter keys0 popped) x = true := by
    intro x hx
    exact List.mem_filter.mp (by rw [hready]; exact List.mem_cons_of_mem _ hx)
  -- membership in the new ready set
  have hiff : ∀ x, x ∈ restR ++ (TopologySort.decAll deg (TopologySort.getAdj g m)).2 ↔
      x ∈ (remAfter keys0 (popped ++ [m])).filter
        (isReady E (sortStr keys0) (remAfter keys0 (popped ++ [m]))) := by
    intro x
    constructor
    · intro hx
      rcases List.mem_append.mp hx with hx | hx
      · -- from the old ready tail
        obtain ⟨hxrem, hxready⟩ := hrestR_mem x hx
        obtain ⟨hxk, hxnp⟩ := (mem_remAfter _ _ _).mp hxrem
        have hxm : x ≠ m := fun hc => hmnotrestR (hc ▸ hx)
        refine List.mem_filter.mpr ⟨(mem_remAfter _ _ _).mpr ⟨hxk, ?_⟩, ?_⟩
        · intro hc
          rcases List.mem_append.mp hc with hc | hc
          · exact hxnp hc
          · exact hxm (List.mem_singleton.mp hc)
        · rw [isReady_iff]
          intro e he h2
          have h3 := (isReady_iff E _ _ x).mp hxready e he h2
          refine ⟨h3.1, fun hc => h3.2 ?_⟩
          obtain ⟨hck, hcnp⟩ := (mem_remAfter _ _ _).mp hc
          refine (mem_remAfter _ _ _).mpr ⟨hck, fun hcp => ?_⟩
          exact hcnp (List.mem_append.mpr (Or.inl hcp))
      · -- from the newly-zero successors
        obtain ⟨hxE, hx1⟩ := (hnewly_mem x).mp hx
        have hxk : x ∈ keys0 := hlookup_keys x 1 hx1
        have hxnp : x ∉ popped := by
          intro hc
          have := hpop_val0 x hc 1 hx1
          omega
        have hxm : x ≠ m := by
          intro hc
          exact hmnp (hminsrc m (hc ▸ hxE))
        refine List.mem_filter.mpr ⟨(mem_remAfter _ _ _).mpr ⟨hxk, ?_⟩, ?_⟩
        · intro hc
          rcases List.mem_append.mp hc with hc | hc
          · exact hxnp hc
          · exact hxm (List.mem_singleton.mp hc)
        · rw [isReady_iff]
          intro e he h2
          have heE : (e.1, x) ∈ E := by rw [← h2]; exact he
          -- every in-source of x other than m is popped
          have hspop : e.1 ∈ popped ∨ e.1 = m := by
            by_contra hcon
            push_neg at hcon
            obtain ⟨hsnp, hsm⟩ := hcon
            -- two unpopped in-sources of x: contradiction with value 1
            have hmins : m ∈ insrcList E x := (mem_insrcList E x m).mpr hxE
            have hsins : e.1 ∈ insrcList E x := (mem_insrcList E x e.1).mpr heE
            have hnd_ins := nodup_insrcList E x hEnd
            have hsub2 : (popped.filter (fun t => decide (t ∈ insrcList E x))) ⊆
                (insrcList E x).erase m := by
              intro t ht
              obtain ⟨htp, htins⟩ := List.mem_filter.mp ht
              rw [decide_eq_true_eq] at htins
              have htm : t ≠ m := fun hc => hmnp (hc ▸ htp)
              exact (List.mem_erase_of_ne htm).mpr htins
            have hsmem : e.1 ∈ (insrcList E x).erase m :=
              (List.mem_erase_of_ne hsm).mpr hsins
            have hsnot : e.1 ∉ popped.filter (fun t => decide (t ∈ insrcList E x)) := by
              intro hc
              exact hsnp (List.mem_filter.mp hc).1
            have hlt := nodup_length_lt_of_missing (hpnd.filter _) hsub2 hsmem hsnot
            have hlen_erase : ((insrcList E x).erase m).length =
                (insrcList E x).length - 1 := List.length_erase_of_mem hmins
            have hpos : 0 < (insrcList E x).length := List.length_pos_of_mem hmins
            have hveq := hinv.deg_eq x 1 hx1
            omega
          refine ⟨?_, ?_⟩
          · rcases hspop with hs | hs
            · exact (mem_sortStr keys0 e.1).mpr (hinv.popped_sub e.1 hs)
            · exact (mem_sortStr keys0 e.1).mpr (hs ▸ hmK0)
          · intro hc
            obtain ⟨_, hcnp⟩ := (mem_remAfter _ _ _).mp hc
            rcases hspop with hs | hs
            · exact hcnp (List.mem_append.mpr (Or.inl hs))
            · exact hcnp (List.mem_append.mpr (Or.inr (List.mem_singleton.mpr hs)))
    · intro hx
      obtain ⟨hxrem', hxready'⟩ := List.mem_filter.mp hx
      obtain ⟨hxk, hxnp'⟩ := (mem_remAfter _ _ _).mp hxrem'
      have hxnp : x ∉ popped := fun hc => hxnp' (List.mem_append.mpr (Or.inl hc))
      have hxm : x ≠ m := fun hc =>
        hxnp' (List.mem_append.mpr (Or.inr (List.mem_singleton.mpr hc)))
      have hsrc' : ∀ s, (s, x) ∈ E → s ∈ popped ∨ s = m := by
        intro s hs
        have h2 := (isReady_iff E _ _ x).mp hxready' (s, x) hs rfl
        have hsk : s ∈ keys0 := (mem_sortStr keys0 s).mp h2.1
        by_cases hsp : s ∈ popped
        · exact Or.inl hsp
        · by_cases hsm : s = m
          · exact Or.inr hsm
          · exfalso
            refine h2.2 ((mem_remAfter _ _ _).mpr ⟨hsk, fun hc => ?_⟩)
            rcases List.mem_append.mp hc with hc | hc
            · exact hsp hc
            · exact hsm (List.mem_singleton.mp hc)
      by_cases hmx : (m, x) ∈ E
      · -- x was a successor of m whose in-degree just reached zero
        refine List.mem_append.mpr (Or.inr ((hnewly_mem x).mpr ⟨hmx, ?_⟩))
        obtain ⟨v, hv⟩ := hlookup x hxk
        have hmins : m ∈ insrcList E x := (mem_insrcList E x m).mpr hmx
        have hnd_ins := nodup_insrcList E x hEnd
        -- the popped in-sources of x are exactly the in-sources other than m
        have hpermcnt : (popped.filter (fun t => decide (t ∈ insrcList E x))).Perm
            ((insrcList E x).erase m) := by
          refine TopologySort.perm_of_nodup_of_mem_iff (hpnd.filter _)
            (hnd_ins.erase m) ?_
          intro t
          rw [List.mem_filter, decide_eq_true_eq, hnd_ins.mem_erase_iff]
          constructor
          · rintro ⟨htp, htins⟩
            exact ⟨fun hc => hmnp (hc ▸ htp), htins⟩
          · rintro ⟨htm, htins⟩
            have := hsrc' t ((mem_insrcList E x t).mp htins)
            rcases this with ht | ht
            · exact ⟨ht, htins⟩
            · exact absurd ht htm
        have hcnt := hpermcnt.length_eq
        have hlen_erase : ((insrcList E x).erase m).length =
            (insrcList E x).length - 1 := List.length_erase_of_mem hmins
        have hpos : 0 < (insrcList E x).length := List.length_pos_of_mem hmins
        have hveq := hinv.deg_eq x v hv
        have hv1 : v = 1 := by omega
        rw [hv1] at hv
        exact hv
      · -- x was already ready before m was popped
        have hxready : isReady E (sortStr keys0) (remAfter keys0 popped) x = true := by
          rw [isReady_iff]
          intro e he h2
          have heE : (e.1, x) ∈ E := by rw [← h2]; exact he
          have hs : e.1 ∈ popped := by
            rcases hsrc' e.1 heE with hs | hs
            · exact hs
            · exact absurd (hs ▸ heE) hmx
          refine ⟨(mem_sortStr keys0 e.1).mpr (hinv.popped_sub e.1 hs), fun hc => ?_⟩
          exact ((mem_remAfter _ _ _).mp hc).2 hs
        have hxrem : x ∈ remAfter keys0 popped := (mem_remAfter _ _ _).mpr ⟨hxk, hxnp⟩
        have hxready_filter : x ∈ (remAfter keys0 popped).filter
            (isReady E (sortStr keys0) (remAfter keys0 popped)) :=
          List.mem_filter.mpr ⟨hxrem, hxready⟩
        rw [hready] at hxready_filter
        rcases List.mem_cons.mp hxready_filter with hc | hc
        · exact absurd hc hxm
        · exact List.mem_append.mpr (Or.inl hc)
  -- the new queue is duplicate-free
  have hnewlynd : ((TopologySort.decAll deg (TopologySort.getAdj g m)).2).Nodup := by
    rw [hnewly]
    exact (hinv.adj_nodup m).filter _
  have hdisj : ∀ x ∈ restR,
      x ∉ (TopologySort.decAll deg (TopologySort.getAdj g m)).2 := by
    intro x hx hc
    obtain ⟨hxrem, hxready⟩ := hrestR_mem x hx
    have h0 := hval0 x hxrem hxready
    have h1 := ((hnewly_mem x).mp hc).2
    rw [h0] at h1
    exact absurd (Option.some.inj h1) (by omega)
  have hqnd : (restR ++ (TopologySort.decAll deg (TopologySort.getAdj g m)).2).Nodup :=
    List.Nodup.append hrestRnd hnewlynd hdisj
  -- assemble the new invariant
  refine ⟨hK0nd, ?_, ?_, hEnd, hinv.target_keys, hinv.adj_nodup, hinv.adj_mem,
    hpnd', ?_, ?_, ?_⟩
  · rw [TopologySort.decAll_keys]
    exact hinv.keys_eq
  · -- the in-degree bookkeeping after decrementing m's successors
    intro k v' hv'
    by_cases hkS : k ∈ TopologySort.getAdj g m
    · have hkE : (m, k) ∈ E := (hinv.adj_mem m k).mp hkS
      have hlk := TopologySort.decAll_lookup_mem _ deg k (hinv.adj_nodup m) hkS
      rw [hv'] at hlk
      cases hdk : TopologySort.degLookup deg k with
      | none => rw [hdk] at hlk; simp at hlk
      | some v =>
        rw [hdk] at hlk
        simp only [Option.map_some'] at hlk
        have hv'v : v' = v + (-1) := Option.some.inj hlk
        have hvold := hinv.deg_eq k v hdk
        have hmins : m ∈ insrcList E k := (mem_insrcList E k m).mpr hkE
        have hmcnt : ((popped ++ [m]).filter
            (fun s => decide (s ∈ insrcList E k))).length =
            (popped.filter (fun s => decide (s ∈ insrcList E k))).length + 1 := by
          rw [List.filter_append]
          have hone : [m].filter (fun s => decide (s ∈ insrcList E k)) = [m] := by
            simp [hmins]
          rw [hone, List.length_append, List.length_singleton]
        rw [hv'v, hvold, hmcnt]
        push_cast
        ring
    · have hkE : (m, k) ∉ E := fun hc => hkS ((hinv.adj_mem m k).mpr hc)
      have hlk := TopologySort.decAll_lookup_not_mem _ deg k hkS
      rw [hv'] at hlk
      have hvold := hinv.deg_eq k v' hlk.symm
      have hmins : m ∉ insrcList E k := fun hc => hkE ((mem_insrcList E k m).mp hc)
      have hmcnt : ((popped ++ [m]).filter
          (fun s => decide (s ∈ insrcList E k))).length =
          (popped.filter (fun s => decide (s ∈ insrcList E k))).length := by
        rw [List.filter_append]
        have hnone : [m].filter (fun s => decide (s ∈ insrcList E k)) = [] := by
          simp [hmins]
        rw [hnone, List.append_nil]
      rw [hvold, hmcnt]
  · -- popped ids are node ids
    intro x hx
    rcases List.mem_append.mp hx with hx | hx
    · exact hinv.popped_sub x hx
    · exact (List.mem_singleton.mp hx) ▸ hmK0
  · -- the ordered closure property
    intro l₁ x l₂ hsplit s hs
    rcases snoc_split hsplit with ⟨h1, h2, _⟩ | ⟨l₂', _, h2⟩
    · subst h1
      exact hminsrc s (h2 ▸ hs)
    · exact hinv.popped_closed l₁ x l₂' h2 s hs
  · -- the queue is a permutation of the new ready set
    exact TopologySort.perm_of_nodup_of_mem_iff hqnd
      ((nodup_remAfter hK0nd _).filter _) hiff

theorem kahnLoopF_succ_cons (fuel : Nat) (g : List (String × List String))
    (deg : List (String × Int)) (queue res : List String) (m : String)
    (restR : List String) (h : sortStr queue = m :: restR) :
    TopologySort.kahnLoopF (fuel + 1) g deg queue res =
      TopologySort.kahnLoopF fuel g
        (TopologySort.decAll deg (TopologySort.getAdj g m)).1
        (restR ++ (TopologySort.decAll deg (TopologySort.getAdj g m)).2)
        (res ++ [m]) := by
  simp only [TopologySort.kahnLoopF, h]

theorem kahnLoopF_succ_nil (fuel : Nat) (g : List (String × List String))
    (deg : List (String × Int)) (res : List String) :
    TopologySort.kahnLoopF (fuel + 1) g deg [] res = (res, deg) := by
  simp only [TopologySort.kahnLoopF]
  rfl

theorem specKahnF_step (E : List (String × String)) (K rem : List String)
    (m : String) (restR : List String)
    (hready : rem.filter (isReady E K rem) = m :: restR)
    (hmrem : m ∈ rem) :
    specKahnF rem.length E K rem =
      m :: specKahnF (rem.erase m).length E K (rem.erase m) := by
  obtain ⟨n, hn⟩ : ∃ n, rem.length = n + 1 :=
    ⟨rem.length - 1, by have := List.length_pos_of_mem hmrem; omega⟩
  have hlen_erase : (rem.erase m).length = n := by
    rw [List.length_erase_of_mem hmrem, hn]
    omega
  rw [hn, hlen_erase, specKahnF, hready]

/-- The master refinement: from any state satisfying `LoopInv` with enough
fuel, the pop loop emits exactly the specification order of the remaining
ids, and the final in-degree table again satisfies the invariant with an
empty queue. -/
theorem kahn_master (E : List (String × String)) (keys0 : List String)
    (g : List (String × List String)) :
    ∀ (fuel : Nat) (deg : List (String × Int)) (queue popped res : List String),
      LoopInv E keys0 g deg queue popped →
      queue.length + TopologySort.countPos deg ≤ fuel →
      ∃ degF,
        TopologySort.kahnLoopF fuel g deg queue res =
          (res ++ specKahnF (remAfter keys0 popped).length E (sortStr keys0)
            (remAfter keys0 popped), degF) ∧
        LoopInv E keys0 g degF []
          (popped ++ specKahnF (remAfter keys0 popped).length E (sortStr keys0)
            (remAfter keys0 popped)) := by
  intro fuel
  induction fuel with
  | zero =>
    intro deg queue popped res hinv hμ
    have hq : queue = [] := List.eq_nil_of_length_eq_zero (by omega)
    have hreadynil : (remAfter keys0 popped).filter
        (isReady E (sortStr keys0) (remAfter keys0 popped)) = [] := by
      have hp := hinv.queue_perm
      rw [hq] at hp
      exact (hp.symm).eq_nil
    have hspec := specKahnF_ready_nil (remAfter keys0 popped).length E _ _ hreadynil
    refine ⟨deg, ?_, ?_⟩
    · rw [hq, hspec, List.append_nil]
      rfl
    · rw [hspec, List.append_nil]
      exact { hinv with queue_perm := by rw [hreadynil] }
  | succ fuel ih =>
    intro deg queue popped res hinv hμ
    by_cases hq : queue = []
    · have hreadynil : (remAfter keys0 popped).filter
          (isReady E (sortStr keys0) (remAfter keys0 popped)) = [] := by
        have hp := hinv.queue_perm
        rw [hq] at hp
        exact (hp.symm).eq_nil
      have hspec := specKahnF_ready_nil (remAfter keys0 popped).length E _ _ hreadynil
      refine ⟨deg, ?_, ?_⟩
      · rw [hq, hspec, List.append_nil, kahnLoopF_succ_nil]
      · rw [hspec, List.append_nil]
        exact { hinv with queue_perm := by rw [hreadynil] }
    · -- one pop step
      cases hready : (remAfter keys0 popped).filter
          (isReady E (sortStr keys0) (remAfter keys0 popped)) with
      | nil =>
        exact absurd (by
          have hp := hinv.queue_perm
          rw [hready] at hp
          exact hp.eq_nil) hq
      | cons m restR =>
        have hqperm := hinv.queue_perm
        rw [hready] at hqperm
        have hfilsort : List.Sorted sLe (m :: restR) := by
          rw [← hready]
          exact List.Pairwise.filter _ (sorted_remAfter keys0 popped)
        have hsortq : sortStr queue = m :: restR := by
          rw [sortStr_eq_of_perm hqperm,
            TopologySort.sortStr_eq_self_of_sorted hfilsort]
        have hm_filter : m ∈ (remAfter keys0 popped).filter
            (isReady E (sortStr keys0) (remAfter keys0 popped)) := by
          rw [hready]; exact List.mem_cons_self _ _
        have hmrem : m ∈ remAfter keys0 popped := (List.mem_filter.mp hm_filter).1
        have hinv' := loopInv_step hinv hready
        -- fuel accounting
        have hlen : queue.length = restR.length + 1 := by
          rw [hqperm.length_eq, List.length_cons]
        have hcp := TopologySort.decAll_countPos (TopologySort.getAdj g m) deg
          (hinv.adj_nodup m)
        have hμ' : (restR ++ (TopologySort.decAll deg (TopologySort.getAdj g m)).2).length +
            TopologySort.countPos (TopologySort.decAll deg (TopologySort.getAdj g m)).1 ≤
              fuel := by
          rw [List.length_append]
          omega
        obtain ⟨degF, hrun, hfin⟩ := ih
          (TopologySort.decAll deg (TopologySort.getAdj g m)).1
          (restR ++ (TopologySort.decAll deg (TopologySort.getAdj g m)).2)
          (popped ++ [m]) (res ++ [m]) hinv' hμ'
        have hstep := specKahnF_step E (sortStr keys0) (remAfter keys0 popped)
          m restR hready hmrem
        have hrem' : (remAfter keys0 popped).erase m =
            remAfter keys0 (popped ++ [m]) :=
          remAfter_snoc hinv.keys_nodup popped m
        rw [hrem'] at hstep
        refine ⟨degF, ?_, ?_⟩
        · rw [kahnLoopF_succ_cons fuel g deg queue res m restR hsortq, hrun, hstep]
          simp
        · rw [hstep, List.append_cons]
          exact hfin

/-! ### From a successful build to the full characterization of `sort` -/

theorem mem_seed_iff :
    ∀ (deg : List (String × Int)), (deg.map Prod.fst).Nodup → ∀ x,
      (x ∈ (deg.filter (fun e => decide (e.2 = 0))).map Prod.fst ↔
        TopologySort.degLookup deg x = some 0) := by
  intro deg
  induction deg with
  | nil => intro _ x; simp [TopologySort.degLookup]
  | cons e rest ih =>
    intro hnd x
    obtain ⟨a, v⟩ := e
    simp only [List.map_cons, List.nodup_cons] at hnd
    obtain ⟨ha, hrest⟩ := hnd
    by_cases hax : a = x
    · subst hax
      by_cases hv : v = (0 : Int)
      · subst hv
        simp [List.filter_cons, TopologySort.degLookup]
      · have hpred : (decide (((a, v) : String × Int).2 = 0)) = false := by
          simp [hv]
        rw [List.filter_cons, hpred]
        have h1 : TopologySort.degLookup ((a, v) :: rest) a = some v := by
          simp [TopologySort.degLookup]
        rw [if_neg (by simp), h1]
        constructor
        · intro hmem
          exfalso
          apply ha
          have hsub : List.Sublist
              ((rest.filter (fun e => decide (e.2 = 0))).map Prod.fst)
              (rest.map Prod.fst) := (List.filter_sublist rest).map Prod.fst
          exact hsub.subset hmem
        · intro hl
          exact absurd (Option.some.inj hl) hv
    · have hlk : TopologySort.degLookup ((a, v) :: rest) x =
          TopologySort.degLookup rest x := by
        simp [TopologySort.degLookup, hax]
      rw [List.filter_cons, hlk]
      by_cases hv : (decide (((a, v) : String × Int).2 = 0)) = true
      · rw [if_pos hv]
        simp only [List.map_cons, List.mem_cons]
        rw [← ih hrest x]
        constructor
        · rintro (heq | hmem)
          · exact absurd heq.symm hax
          · exact hmem
        · exact fun hmem => Or.inr hmem
      · rw [if_neg hv]
        exact ih hrest x

/-- The invariant holds at loop entry: nothing popped, the queue seeded with
the in-degree-zero keys. -/
theorem loopInv_init {nodes : List Node} {wires : List Wire}
    {st : TopologySort.BuildSt}
    (hbuild : TopologySort.buildGraph nodes wires = .ok st) :
    LoopInv (edgeList wires) (TopologySort.dedupFirst (nodes.map Node.id))
      st.graph st.deg (TopologySort.seedQueue st.deg) [] := by
  have hBI := TopologySort.buildGraph_ok hbuild
  have hK0nd : (TopologySort.dedupFirst (nodes.map Node.id)).Nodup :=
    TopologySort.nodup_dedupFirst _
  have hdegnd : (st.deg.map Prod.fst).Nodup := by
    rw [hBI.keys_eq]; exact hK0nd
  refine ⟨hK0nd, hBI.keys_eq, ?_, hBI.edges_nodup, hBI.target_keys,
    hBI.adj_nodup, hBI.adj_mem, List.nodup_nil, by simp, ?_, ?_⟩
  · intro k v hv
    have := hBI.deg_eq k
    rw [hv] at this
    by_cases hk : k ∈ TopologySort.dedupFirst (nodes.map Node.id)
    · rw [if_pos hk] at this
      have hveq : v = ((insrcList (edgeList wires) k).length : Int) :=
        Option.some.inj this
      simp [hveq]
    · rw [if_neg hk] at this
      cases this
  · intro l₁ x l₂ hsplit
    exact absurd hsplit.symm (List.append_ne_nil_of_right_ne_nil l₁ (by simp))
  · -- the seed queue is exactly the initially-ready id set
    rw [TopologySort.seedQueue]
    refine TopologySort.perm_of_nodup_of_mem_iff ?_
      ((nodup_remAfter hK0nd []).filter _) ?_
    · refine List.Nodup.sublist ?_ hdegnd
      exact (List.filter_sublist st.deg).map Prod.fst
    · intro x
      rw [mem_seed_iff st.deg hdegnd x, List.mem_filter]
      constructor
      · intro hl
        have hx := hBI.deg_eq x
        rw [hl] at hx
        by_cases hk : x ∈ TopologySort.dedupFirst (nodes.map Node.id)
        · rw [if_pos hk] at hx
          have hlen : (insrcList (edgeList wires) x).length = 0 := by
            have := Option.some.inj hx
            omega
          have hnosrc : ∀ e ∈ edgeList wires, e.2 ≠ x := by
            intro e he hex
            have : e.1 ∈ insrcList (edgeList wires) x := by
              rw [mem_insrcList]
              have : e = (e.1, x) := Prod.ext rfl hex
              rw [← this]
              exact he
            rw [List.length_eq_zero.mp hlen] at this
            cases this
          refine ⟨?_, ?_⟩
          · rw [remAfter_nil, mem_sortStr]
            exact hk
          · rw [isReady_iff]
            intro e he hex
            exact absurd hex (hnosrc e he)
        · rw [if_neg hk] at hx
          cases hx
      · rintro ⟨hxrem, hxready⟩
        have hk : x ∈ TopologySort.dedupFirst (nodes.map Node.id) := by
          rw [remAfter_nil, mem_sortStr] at hxrem
          exact hxrem
        have hx := hBI.deg_eq x
        rw [if_pos hk] at hx
        have hnosrc : insrcList (edgeList wires) x = [] := by
          by_contra hne
          obtain ⟨s, hs⟩ := List.exists_mem_of_ne_nil _ hne
          have hsE : (s, x) ∈ edgeList wires := (mem_insrcList _ _ _).mp hs
          have h2 := (isReady_iff _ _ _ x).mp hxready (s, x) hsE rfl
          exact h2.2 (by rw [remAfter_nil]; exact h2.1)
        rw [hx, hnosrc]
        rfl

/-- A cycle in the edge relation. -/
def HasCycleRel (E : List (String × String)) : Prop :=
  ∃ x, Relation.TransGen (fun a b => (a, b) ∈ E) x x

/-- A node on a cycle is never popped by a list satisfying the ordered
closure property (its in-sources would have to be popped strictly earlier,
which a minimal-position argument refutes). -/
theorem cyc_not_popped {E : List (String × String)} {popped : List String}
    (hc : ∀ l₁ x l₂, popped = l₁ ++ x :: l₂ → ∀ s, (s, x) ∈ E → s ∈ l₁) :
    ∀ z, Relation.TransGen (fun a b => (a, b) ∈ E) z z → z ∉ popped := by
  have key : ∀ n l₁ z l₂, popped = l₁ ++ z :: l₂ → l₁.length = n →
      ¬Relation.TransGen (fun a b => (a, b) ∈ E) z z := by
    intro n
    induction n using Nat.strong_induction_on with
    | _ n ihn =>
      intro l₁ z l₂ hsplit hlen hcycz
      obtain ⟨y, hxy, hyz⟩ := (Relation.TransGen.tail'_iff).mp hcycz
      have hycyc : Relation.TransGen (fun a b => (a, b) ∈ E) y y :=
        Relation.TransGen.head' hyz hxy
      have hy_l₁ : y ∈ l₁ := hc l₁ z l₂ hsplit y hyz
      obtain ⟨a, b, hab⟩ := List.append_of_mem hy_l₁
      have hsplit2 : popped = a ++ y :: (b ++ z :: l₂) := by
        rw [hsplit, hab]; simp
      have hlt : a.length < n := by
        rw [hab] at hlen
        simp only [List.length_append, List.length_cons] at hlen
        omega
      exact ihn a.length hlt a y (b ++ z :: l₂) hsplit2 rfl hycyc
  intro z hcycz hzp
  obtain ⟨l₁, l₂, hsplit⟩ := List.append_of_mem hzp
  exact key l₁.length l₁ z l₂ hsplit rfl hcycz

/-- Full characterization of a successful `sort()` call: the emitted id
sequence is the specification order; `_has_cycle` is the emission-count test;
the emitted ids are distinct node ids; and a genuine cycle (on a nonempty
node set) forces a strict shortfall, the cycle flag, and a non-empty
cycle-node report. -/
theorem sort_spec {p : DAQProject} {r : TopologySort.SortResult}
    (h : TopologySort.sort p = .ok r) :
    r.sortedIds = specKahn (edgeList p.wires) (canonIds p.nodes) ∧
    r.has_cycle = decide (r.sortedIds.length ≠ p.nodes.length) ∧
    r.sortedIds.Nodup ∧
    (∀ x ∈ r.sortedIds, x ∈ p.nodes.map Node.id) ∧
    (p.nodes ≠ [] → HasCycleRel (edgeList p.wires) →
      r.sortedIds.length < p.nodes.length ∧ r.has_cycle = true ∧
        r.cycle_nodes ≠ []) := by
  rw [TopologySort.sort] at h
  by_cases hne : p.nodes.isEmpty
  · rw [if_pos hne] at h
    have hnil : p.nodes = [] := List.isEmpty_iff.mp hne
    have hr : r = ⟨[], false, []⟩ := (Except.ok.inj h).symm
    subst hr
    refine ⟨?_, by simp [hnil], List.nodup_nil, by simp, ?_⟩
    · show ([] : List String) = _
      rw [hnil]
      rfl
    · intro hne' _
      exact absurd hnil hne'
  · rw [if_neg hne] at h
    cases hbuild : TopologySort.buildGraph p.nodes p.wires with
    | error e =>
      rw [hbuild] at h
      exact Except.noConfusion h
    | ok st =>
      rw [hbuild] at h
      have hBI := TopologySort.buildGraph_ok hbuild
      have hinit := loopInv_init hbuild
      obtain ⟨degF, hrun, hfin⟩ := kahn_master (edgeList p.wires)
        (TopologySort.dedupFirst (p.nodes.map Node.id)) st.graph
        ((TopologySort.seedQueue st.deg).length + TopologySort.countPos st.deg)
        st.deg (TopologySort.seedQueue st.deg) [] []
        hinit (Nat.le_refl _)
      -- name the loop output
      have hids : r.sortedIds =
          (TopologySort.kahnLoopF
            ((TopologySort.seedQueue st.deg).length + TopologySort.countPos st.deg)
            st.graph st.deg (TopologySort.seedQueue st.deg) []).1 := by
        rw [← Except.ok.inj h]
      have hhc : r.has_cycle = decide (r.sortedIds.length ≠ p.nodes.length) := by
        rw [hids, ← Except.ok.inj h]
      have hcycf : r.cycle_nodes =
          if r.has_cycle then
            ((TopologySort.kahnLoopF
              ((TopologySort.seedQueue st.deg).length + TopologySort.countPos st.deg)
              st.graph st.deg (TopologySort.seedQueue st.deg) []).2.filter
                (fun e => decide (0 < e.2))).map (·.1)
          else [] := by
        rw [hhc, hids, ← Except.ok.inj h]
      have hspec : r.sortedIds =
          specKahnF (remAfter (TopologySort.dedupFirst (p.nodes.map Node.id)) []).length
            (edgeList p.wires)
            (sortStr (TopologySort.dedupFirst (p.nodes.map Node.id)))
            (remAfter (TopologySort.dedupFirst (p.nodes.map Node.id)) []) := by
        rw [hids, hrun]
        rfl
      have hdegF : (TopologySort.kahnLoopF
            ((TopologySort.seedQueue st.deg).length + TopologySort.countPos st.deg)
            st.graph st.deg (TopologySort.seedQueue st.deg) []).2 = degF := by
        rw [hrun]
      have hpoppedF : ([] : List String) ++
          specKahnF (remAfter (TopologySort.dedupFirst (p.nodes.map Node.id)) []).length
            (edgeList p.wires)
            (sortStr (TopologySort.dedupFirst (p.nodes.map Node.id)))
            (remAfter (TopologySort.dedupFirst (p.nodes.map Node.id)) []) =
          r.sortedIds := by
        rw [hspec, List.nil_append]
      rw [hpoppedF] at hfin
      have hnodup : r.sortedIds.Nodup := hfin.popped_nodup
      have hmemids : ∀ x ∈ r.sortedIds, x ∈ p.nodes.map Node.id := by
        intro x hx
        exact (TopologySort.mem_dedupFirst _ x).mp (hfin.popped_sub x hx)
      refine ⟨?_, hhc, hnodup, hmemids, ?_⟩
      · rw [hspec, remAfter_nil]
        rfl
      · intro _ hcyc
        obtain ⟨x, hx⟩ := hcyc
        obtain ⟨y, hxy, hyx⟩ := (Relation.TransGen.tail'_iff).mp hx
        have hxkeys : x ∈ TopologySort.dedupFirst (p.nodes.map Node.id) :=
          hBI.target_keys (y, x) hyx
        have hxnp := cyc_not_popped hfin.popped_closed x hx
        have hycyc : Relation.TransGen (fun a b => (a, b) ∈ edgeList p.wires) y y :=
          Relation.TransGen.head' hyx hxy
        have hynp := cyc_not_popped hfin.popped_closed y hycyc
        have hlt : r.sortedIds.length <
            (TopologySort.dedupFirst (p.nodes.map Node.id)).length :=
          nodup_length_lt_of_missing hnodup hfin.popped_sub hxkeys hxnp
        have hle : (TopologySort.dedupFirst (p.nodes.map Node.id)).length ≤
            p.nodes.length := by
          have := TopologySort.length_dedupFirst_le (p.nodes.map Node.id)
          simpa using this
        have hltn : r.sortedIds.length < p.nodes.length := by omega
        have hhctrue : r.has_cycle = true := by
          rw [hhc]
          simp [Nat.ne_of_lt hltn]
        refine ⟨hltn, hhctrue, ?_⟩
        -- the cycle-node report contains x
        obtain ⟨v, hv⟩ : ∃ v, TopologySort.degLookup degF x = some v := by
          have hsome : (TopologySort.degLookup degF x).isSome := by
            rw [TopologySort.degLookup_isSome_iff_mem, hfin.keys_eq]
            exact hxkeys
          cases hdl : TopologySort.degLookup degF x with
          | none => rw [hdl] at hsome; exact absurd hsome (by simp)
          | some v => exact ⟨v, rfl⟩
        have hveq := hfin.deg_eq x v hv
        have hyins : y ∈ insrcList (edgeList p.wires) x :=
          (mem_insrcList _ _ _).mpr hyx
        have hcntlt := length_filter_mem_lt hfin.popped_nodup
          (nodup_insrcList _ x hBI.edges_nodup) hyins hynp
        have hvpos : 0 < v := by omega
        have hxentry : (x, v) ∈ degF := TopologySort.degLookup_mem degF x v hv
        have hxfil : (x, v) ∈ degF.filter (fun e => decide (0 < e.2)) := by
          rw [List.mem_filter]
          exact ⟨hxentry, by simpa using hvpos⟩
        have hxcyc : x ∈ r.cycle_nodes := by
          rw [hcycf, if_pos hhctrue, hdegF]
          exact List.mem_map.mpr ⟨(x, v), hxfil, rfl⟩
        exact List.ne_nil_of_mem hxcyc

/-! ### Input-permutation invariance and the lexicographic tie-break -/

theorem all_perm {α : Type} {E E' : List α} (h : E.Perm E') (p : α → Bool) :
    E.all p = E'.all p := by
  cases hE : E.all p with
  | true =>
    symm
    rw [List.all_eq_true] at hE ⊢
    intro x hx
    exact hE x (h.mem_iff.mpr hx)
  | false =>
    symm
    rw [List.all_eq_false] at hE ⊢
    obtain ⟨x, hx, hpx⟩ := hE
    exact ⟨x, h.mem_iff.mp hx, hpx⟩

theorem isReady_perm_E {E E' : List (String × String)} (h : E.Perm E')
    (keys remaining : List String) (k : String) :
    isReady E keys remaining k = isReady E' keys remaining k :=
  all_perm h _

theorem specKahnF_perm_E {E E' : List (String × String)} (h : E.Perm E') :
    ∀ (f : Nat) (keys remaining : List String),
      specKahnF f E keys remaining = specKahnF f E' keys remaining := by
  intro f
  induction f with
  | zero => intro keys remaining; rfl
  | succ f ih =>
    intro keys remaining
    rw [specKahnF, specKahnF]
    have hfil : remaining.filter (isReady E keys remaining) =
        remaining.filter (isReady E' keys remaining) :=
      List.filter_congr (fun x _ => isReady_perm_E h keys remaining x)
    rw [← hfil]
    cases remaining.filter (isReady E keys remaining) with
    | nil => rfl
    | cons m rest =>
      show m :: specKahnF f E keys (remaining.erase m) =
        m :: specKahnF f E' keys (remaining.erase m)
      rw [ih]

/-- After a successful build every wire target resolves. -/
theorem buildGraph_targets {nodes : List Node} {wires : List Wire}
    {st : TopologySort.BuildSt}
    (h : TopologySort.buildGraph nodes wires = .ok st) :
    ∀ w ∈ wires, w.target.node_id ∈ nodes.map Node.id := by
  have hBI := TopologySort.buildGraph_ok h
  intro w hw
  have h1 : TopologySort.wirePair w ∈ wires.map TopologySort.wirePair :=
    List.mem_map_of_mem _ hw
  have h2 : TopologySort.wirePair w ∈ edgeList wires :=
    (TopologySort.mem_dedupFirst _ _).mpr h1
  have h3 := hBI.target_keys _ h2
  exact (TopologySort.mem_dedupFirst _ _).mp h3

/-- Conversely, if every wire target resolves the build succeeds. -/
theorem buildGraph_ok_of_targets {nodes : List Node} {wires : List Wire}
    (h : ∀ w ∈ wires, w.target.node_id ∈ nodes.map Node.id) :
    ∃ st, TopologySort.buildGraph nodes wires = .ok st := by
  have key : ∀ (ws : List Wire) (st : TopologySort.BuildSt)
      (pairs : List (String × String)),
      TopologySort.BuildInv (TopologySort.dedupFirst (nodes.map Node.id))
        (TopologySort.dedupFirst pairs) st →
      (∀ w ∈ ws, w.target.node_id ∈ nodes.map Node.id) →
      ∃ st', ws.foldlM TopologySort.buildStep st = .ok st' := by
    intro ws
    induction ws with
    | nil =>
      intro st pairs _ _
      exact ⟨st, rfl⟩
    | cons w ws ih =>
      intro st pairs hinv hts
      have hstep : ∃ st1, TopologySort.buildStep st w = .ok st1 := by
        rw [TopologySort.buildStep]
        by_cases hmem : (TopologySort.wirePair w).2 ∈
            TopologySort.getAdj st.graph (TopologySort.wirePair w).1
        · rw [if_pos hmem]
          exact ⟨st, rfl⟩
        · rw [if_neg hmem]
          have htk : (TopologySort.wirePair w).2 ∈
              TopologySort.dedupFirst (nodes.map Node.id) := by
            rw [TopologySort.mem_dedupFirst]
            exact hts w (List.mem_cons_self w ws)
          have hsome : (TopologySort.degLookup st.deg (TopologySort.wirePair w).2).isSome := by
            rw [TopologySort.degLookup_isSome_iff_mem, hinv.keys_eq]
            exact htk
          rw [if_pos hsome]
          exact ⟨_, rfl⟩
      obtain ⟨st1, hst1⟩ := hstep
      have hinv1 := TopologySort.buildStep_inv hinv hst1
      obtain ⟨st', hst'⟩ := ih st1 (pairs ++ [TopologySort.wirePair w]) hinv1
        (fun w' hw' => hts w' (List.mem_cons_of_mem _ hw'))
      refine ⟨st', ?_⟩
      rw [List.foldlM_cons, hst1, TopologySort.except_bind_ok]
      exact hst'
  exact key wires ⟨[], TopologySort.initInDeg nodes⟩ []
    (TopologySort.buildInv_init nodes) h

/-- `sort` succeeds on a project iff it succeeds on any nodes/wires
permutation of it. -/
theorem sort_ok_transfer {p p' : DAQProject} {r : TopologySort.SortResult}
    (hn : p'.nodes.Perm p.nodes) (hw : p'.wires.Perm p.wires)
    (hok : TopologySort.sort p = .ok r) :
    ∃ r', TopologySort.sort p' = .ok r' := by
  rw [TopologySort.sort] at hok ⊢
  by_cases hne : p.nodes.isEmpty
  · have hnil : p.nodes = [] := List.isEmpty_iff.mp hne
    have hnil' : p'.nodes = [] := (hnil ▸ hn).eq_nil
    have hne' : p'.nodes.isEmpty = true := List.isEmpty_iff.mpr hnil'
    rw [if_pos hne']
    exact ⟨_, rfl⟩
  · have hne' : ¬p'.nodes.isEmpty := by
      intro hc
      have hnil' : p'.nodes = [] := List.isEmpty_iff.mp hc
      exact hne (List.isEmpty_iff.mpr ((hnil' ▸ hn.symm).eq_nil))
    rw [if_neg hne] at hok
    rw [if_neg hne']
    cases hbuild : TopologySort.buildGraph p.nodes p.wires with
    | error e =>
      rw [hbuild] at hok
      exact Except.noConfusion hok
    | ok st =>
      have hts := buildGraph_targets hbuild
      have hts' : ∀ w ∈ p'.wires, w.target.node_id ∈ p'.nodes.map Node.id := by
        intro w hw'
        have h1 := hts w (hw.mem_iff.mp hw')
        exact ((hn.map Node.id).mem_iff).mpr h1
      obtain ⟨st', hst'⟩ := buildGraph_ok_of_targets hts'
      rw [hst']
      exact ⟨_, rfl⟩

theorem sLe_refl (a : String) : sLe a a :=
  (charsLe_total a.data a.data).elim id id

/-- In the specification order, every emitted id is, at its emission point,
a ready id that is lexicographically ≤ every ready id. -/
theorem specKahnF_min_split (E : List (String × String)) (keys0 : List String)
    (h0 : keys0.Nodup) :
    ∀ (pre : List String) (popped : List String) (m : String) (post : List String),
      specKahnF (remAfter keys0 popped).length E (sortStr keys0)
        (remAfter keys0 popped) = pre ++ m :: post →
      m ∈ remAfter keys0 (popped ++ pre) ∧
      isReady E (sortStr keys0) (remAfter keys0 (popped ++ pre)) m = true ∧
      ∀ x ∈ remAfter keys0 (popped ++ pre),
        isReady E (sortStr keys0) (remAfter keys0 (popped ++ pre)) x = true →
          sLe m x := by
  intro pre
  induction pre with
  | nil =>
    intro popped m post hspec
    rw [List.nil_append] at hspec
    rw [List.append_nil]
    cases hlen : (remAfter keys0 popped).length with
    | zero =>
      rw [hlen] at hspec
      exact absurd hspec.symm (List.cons_ne_nil m post)
    | succ n =>
      rw [hlen, specKahnF] at hspec
      cases hready : (remAfter keys0 popped).filter
          (isReady E (sortStr keys0) (remAfter keys0 popped)) with
      | nil =>
        rw [hready] at hspec
        exact absurd hspec.symm (List.cons_ne_nil m post)
      | cons m' rest =>
        rw [hready] at hspec
        have hspec2 : m' :: specKahnF n E (sortStr keys0)
            ((remAfter keys0 popped).erase m') = m :: post := hspec
        have hm' : m' = m := ((List.cons.injEq _ _ _ _).mp hspec2).1
        subst hm'
        have hmfil : m' ∈ (remAfter keys0 popped).filter
            (isReady E (sortStr keys0) (remAfter keys0 popped)) := by
          rw [hready]; exact List.mem_cons_self _ _
        have hsorted : List.Sorted sLe ((remAfter keys0 popped).filter
            (isReady E (sortStr keys0) (remAfter keys0 popped))) :=
          List.Pairwise.filter _ (sorted_remAfter keys0 popped)
        refine ⟨(List.mem_filter.mp hmfil).1, (List.mem_filter.mp hmfil).2, ?_⟩
        intro x hxrem hxready
        have hxfil : x ∈ (remAfter keys0 popped).filter
            (isReady E (sortStr keys0) (remAfter keys0 popped)) :=
          List.mem_filter.mpr ⟨hxrem, hxready⟩
        rw [hready] at hxfil hsorted
        rcases List.mem_cons.mp hxfil with rfl | hxrest
        · exact sLe_refl x
        · exact (List.sorted_cons.mp hsorted).1 x hxrest
  | cons a pre ih =>
    intro popped m post hspec
    cases hlen : (remAfter keys0 popped).length with
    | zero =>
      rw [hlen] at hspec
      exact absurd hspec.symm (List.cons_ne_nil a (pre ++ m :: post))
    | succ n =>
      rw [hlen, specKahnF] at hspec
      cases hready : (remAfter keys0 popped).filter
          (isReady E (sortStr keys0) (remAfter keys0 popped)) with
      | nil =>
        rw [hready] at hspec
        exact absurd hspec.symm (List.cons_ne_nil a (pre ++ m :: post))
      | cons m' rest =>
        rw [hready] at hspec
        have hspec2 : m' :: specKahnF n E (sortStr keys0)
            ((remAfter keys0 popped).erase m') = a :: (pre ++ m :: post) := hspec
        obtain ⟨hm', hspec'⟩ := (List.cons.injEq _ _ _ _).mp hspec2
        subst hm'
        have hmrem : m' ∈ remAfter keys0 popped := by
          have : m' ∈ (remAfter keys0 popped).filter
              (isReady E (sortStr keys0) (remAfter keys0 popped)) := by
            rw [hready]; exact List.mem_cons_self _ _
          exact (List.mem_filter.mp this).1
        have herase : (remAfter keys0 popped).erase m' =
            remAfter keys0 (popped ++ [m']) := remAfter_snoc h0 popped m'
        rw [herase] at hspec'
        have hlen2 : (remAfter keys0 (popped ++ [m'])).length = n := by
          rw [← herase, List.length_erase_of_mem hmrem, hlen]
          omega
        rw [← hlen2] at hspec'
        have hres := ih (popped ++ [m']) m post hspec'
        rw [List.append_assoc] at hres
        simpa using hres

theorem length_filterMap_of_all_some {α β : Type} (f : α → Option β) :
    ∀ l : List α, (∀ x ∈ l, (f x).isSome) → (l.filterMap f).length = l.length := by
  intro l
  induction l with
  | nil => intro _; rfl
  | cons a l ih =>
    intro h
    rw [List.filterMap_cons]
    cases hfa : f a with
    | none =>
      have := h a (List.mem_cons_self a l)
      rw [hfa] at this
      exact absurd this (by simp)
    | some b =>
      rw [List.length_cons, ih (fun x hx => h x (List.mem_cons_of_mem _ hx)),
        List.length_cons]

/-- C1: `sort()` is deterministic (it is a pure function of the Project in
this model, and its output is invariant under any permutation of the nodes
and wires arrays), it emits exactly the specification order `specKahn`, and
whenever an id `m` is emitted after a prefix `pre`, `m` is a ready id that is
lexicographically ≤ every simultaneously-ready id. -/
theorem c1_sort_deterministic_lex_min_perm_invariant
    (p p' : DAQProject) (r : TopologySort.SortResult)
    (hn : p'.nodes.Perm p.nodes) (hw : p'.wires.Perm p.wires)
    (hok : TopologySort.sort p = .ok r) :
    (∃ r', TopologySort.sort p' = .ok r' ∧ r'.sortedIds = r.sortedIds) ∧
    r.sortedIds = specKahn (edgeList p.wires) (canonIds p.nodes) ∧
    (∀ pre m post, r.sortedIds = pre ++ m :: post →
      m ∈ remAfter (TopologySort.dedupFirst (p.nodes.map Node.id)) pre ∧
      isReady (edgeList p.wires) (canonIds p.nodes)
        (remAfter (TopologySort.dedupFirst (p.nodes.map Node.id)) pre) m = true ∧
      ∀ x ∈ remAfter (TopologySort.dedupFirst (p.nodes.map Node.id)) pre,
        isReady (edgeList p.wires) (canonIds p.nodes)
          (remAfter (TopologySort.dedupFirst (p.nodes.map Node.id)) pre) x = true →
        sLe m x) := by
  obtain ⟨hspec, hhc, hnd, hmem, hcyc⟩ := sort_spec hok
  refine ⟨?_, hspec, ?_⟩
  · obtain ⟨r', hok'⟩ := sort_ok_transfer hn hw hok
    obtain ⟨hspec', _, _, _, _⟩ := sort_spec hok'
    refine ⟨r', hok', ?_⟩
    rw [hspec, hspec']
    have hK : canonIds p'.nodes = canonIds p.nodes := by
      rw [canonIds, canonIds]
      exact sortStr_eq_of_perm
        (TopologySort.dedupFirst_perm_of_perm (hn.map Node.id))
    have hE : (edgeList p'.wires).Perm (edgeList p.wires) :=
      TopologySort.dedupFirst_perm_of_perm (hw.map TopologySort.wirePair)
    rw [hK, specKahn, specKahn]
    exact specKahnF_perm_E hE _ _ _
  · intro pre m post hsplit
    have hsplit' : specKahnF
        (remAfter (TopologySort.dedupFirst (p.nodes.map Node.id)) []).length
        (edgeList p.wires)
        (sortStr (TopologySort.dedupFirst (p.nodes.map Node.id)))
        (remAfter (TopologySort.dedupFirst (p.nodes.map Node.id)) []) =
        pre ++ m :: post := by
      rw [remAfter_nil]
      show specKahn (edgeList p.wires) (canonIds p.nodes) = _
      rw [← hspec]
      exact hsplit
    have hres := specKahnF_min_split (edgeList p.wires)
      (TopologySort.dedupFirst (p.nodes.map Node.id))
      (TopologySort.nodup_dedupFirst _) pre [] m post hsplit'
    simpa using hres

/-- The degenerate project exposing C2's flaw: no nodes, one wire forming a
ghost self-loop.  Its edge relation contains a cycle, yet `sort()` returns
early (emitting exactly `len(nodes) = 0` ids) with `_has_cycle` false and no
cycle nodes. -/
def projC2cex : DAQProject :=
  { meta := { name := "c2cex", version := "1.0.0", schema_version := "0.1.0" }
    devices := []
    nodes := []
    wires := [{ id := "w", source := ⟨"g", "o"⟩, target := ⟨"g", "i"⟩ }]
    widgets := [] }

/-- C2 counterexample: on `projC2cex` the node-pair-deduplicated edge
relation contains a cycle, but `sort()` emits exactly `len(nodes)` nodes
(zero, not strictly fewer), `has_cycle()` is false and `get_cycle_nodes()`
is empty — refuting the claim's cyclic-graph clause as stated. -/
theorem c2_sort_completeness_counterexample :
    HasCycleRel (edgeList projC2cex.wires) ∧
    TopologySort.sort projC2cex = .ok ⟨[], false, []⟩ ∧
    (TopologySort.sortedNodes projC2cex ⟨[], false, []⟩).length =
      projC2cex.nodes.length ∧
    ¬((TopologySort.sortedNodes projC2cex ⟨[], false, []⟩).length <
      projC2cex.nodes.length) := by
  refine ⟨⟨"g", Relation.TransGen.single ?_⟩, rfl, rfl, by decide⟩
  show ("g", "g") ∈ edgeList projC2cex.wires
  decide

/-- C2 (amended): for a successful `sort()`, the emitted node count equals
`len(nodes)` iff `has_cycle()` is false; and on a project with at least one
node whose node-pair-deduplicated edge relation contains a cycle, `sort()`
emits strictly fewer nodes, `has_cycle()` is true and `get_cycle_nodes()`
is non-empty. -/
theorem c2_sort_completeness_amended (p : DAQProject)
    (r : TopologySort.SortResult) (h : TopologySort.sort p = .ok r) :
    ((TopologySort.sortedNodes p r).length = p.nodes.length ↔
      r.has_cycle = false) ∧
    (p.nodes ≠ [] → HasCycleRel (edgeList p.wires) →
      (TopologySort.sortedNodes p r).length < p.nodes.length ∧
      r.has_cycle = true ∧ r.cycle_nodes ≠ []) := by
  obtain ⟨hspec, hhc, hnd, hmem, hcyc⟩ := sort_spec h
  have hlen : (TopologySort.sortedNodes p r).length = r.sortedIds.length := by
    rw [TopologySort.sortedNodes]
    apply length_filterMap_of_all_some
    intro x hx
    obtain ⟨n, hn1, hn2⟩ := List.mem_map.mp (hmem x hx)
    rw [DAQProject.get_node, List.find?_isSome]
    exact ⟨n, hn1, by simp [hn2]⟩
  constructor
  · rw [hlen, hhc, decide_eq_false_iff_not, not_ne_iff]
  · intro h1 h2
    obtain ⟨hlt, hc1, hc2⟩ := hcyc h1 h2
    exact ⟨by rw [hlen]; exact hlt, hc1, hc2⟩

/-- Scenario B of the spec: nodes `X, Y, Z`, wires `X→Y, Y→X`. -/
def projC2 : DAQProject :=
  { meta := { name := "c2", version := "1.0.0", schema_version := "0.1.0" }
    devices := []
    nodes := [{ id := "X", type := "daq:math", position := ⟨0, 0⟩ },
              { id := "Y", type := "daq:math", position := ⟨0, 0⟩ },
              { id := "Z", type := "daq:math", position := ⟨0, 0⟩ }]
    wires := [{ id := "w1", source := ⟨"X", "o"⟩, target := ⟨"Y", "i"⟩ },
              { id := "w2", source := ⟨"Y", "o"⟩, target := ⟨"X", "i"⟩ }]
    widgets := [] }

theorem c2_sort_completeness_witness :
    TopologySort.sort projC2 = .ok ⟨["Z"], true, ["X", "Y"]⟩ ∧
    HasCycleRel (edgeList projC2.wires) ∧
    (TopologySort.sortedNodes projC2 ⟨["Z"], true, ["X", "Y"]⟩).length <
      projC2.nodes.length ∧
    (TopologySort.SortResult.cycle_nodes ⟨["Z"], true, ["X", "Y"]⟩ ≠ []) := by
  have hcyc : HasCycleRel (edgeList projC2.wires) := by
    have h1 : ("X", "Y") ∈ edgeList projC2.wires := by decide
    have h2 : ("Y", "X") ∈ edgeList projC2.wires := by decide
    exact ⟨"X", Relation.TransGen.head h1 (Relation.TransGen.single h2)⟩
  obtain ⟨_, hconc⟩ := c2_sort_completeness_amended projC2 ⟨["Z"], true, ["X", "Y"]⟩ rfl
  obtain ⟨hlt, _, hne⟩ := hconc (List.cons_ne_nil _ _) hcyc
  exact ⟨rfl, hcyc, hlt, hne⟩

/-- Two projects that are nodes/wires permutations of one another, with two
simultaneously-ready nodes (`a` and `b`). -/
def projC1 : DAQProject :=
  { meta := { name := "c1", version := "1.0.0", schema_version := "0.1.0" }
    devices := []
    nodes := [{ id := "b", type := "daq:math", position := ⟨0, 0⟩ },
              { id := "a", type := "daq:math", position := ⟨0, 0⟩ }]
    wires := []
    widgets := [] }

def projC1perm : DAQProject :=
  { meta := { name := "c1", version := "1.0.0", schema_version := "0.1.0" }
    devices := []
    nodes := [{ id := "a", type := "daq:math", position := ⟨0, 0⟩ },
              { id := "b", type := "daq:math", position := ⟨0, 0⟩ }]
    wires := []
    widgets := [] }

theorem c1_sort_witness :
    TopologySort.sort projC1 = .ok ⟨["a", "b"], false, []⟩ ∧
    (∃ r', TopologySort.sort projC1perm = .ok r' ∧ r'.sortedIds = ["a", "b"]) := by
  refine ⟨rfl, ?_⟩
  have hn : projC1perm.nodes.Perm projC1.nodes := List.Perm.swap _ _ _
  have hw : projC1perm.wires.Perm projC1.wires := List.Perm.refl _
  obtain ⟨⟨r', hok', hids⟩, _, _⟩ := c1_sort_deterministic_lex_min_perm_invariant
    projC1 projC1perm ⟨["a", "b"], false, []⟩ hn hw rfl
  exact ⟨r', hok', hids⟩

/-! ### Execution levels (`get_execution_levels`, topology.py lines 101-142) -/

namespace TopologySort

/-- `node_level[k]` read; `none` models the `KeyError` on a dangling id. -/
def lvLookup : List (String × Nat) → String → Option Nat
  | [], _ => none
  | (a, v) :: rest, k => if a = k then some v else lvLookup rest k

/-- `node_level[k] = nv` on the first occurrence of the (always present) key. -/
def lvSet : List (String × Nat) → String → Nat → List (String × Nat)
  | [], _, _ => []
  | (a, v) :: rest, k, nv =>
    if a = k then (a, nv) :: rest else (a, v) :: lvSet rest k nv

/-- One `for wire in wires` relaxation sweep with the `changed` flag. -/
def levelPass : List (String × Nat) → Bool → List Wire →
    Except String (List (String × Nat) × Bool)
  | lv, ch, [] => .ok (lv, ch)
  | lv, ch, w :: ws =>
    match lvLookup lv w.source.node_id with
    | none => .error ("KeyError: " ++ w.source.node_id)
    | some ls =>
      match lvLookup lv w.target.node_id with
      | none => .error ("KeyError: " ++ w.target.node_id)
      | some lt =>
        if ls + 1 > lt then levelPass (lvSet lv w.target.node_id (ls + 1)) true ws
        else levelPass lv ch ws

/-- The `while changed and iterations < max_iterations` loop; the fuel is the
`max_iterations` bound of the source, and the returned counter is the number
of sweeps actually performed. -/
def levelLoop : Nat → List (String × Nat) → List Wire →
    Except String (List (String × Nat) × Nat)
  | 0, lv, _ => .ok (lv, 0)
  | fuel + 1, lv, wires =>
    match levelPass lv false wires with
    | .error e => .error e
    | .ok (lv', ch) =>
      if ch then
        match levelLoop fuel lv' wires with
        | .error e => .error e
        | .ok (lvF, used) => .ok (lvF, used + 1)
      else .ok (lv', 1)

/-- `node_level = {node.id: 0 for node in nodes}`. -/
def initLv (nodes : List Node) : List (String × Nat) :=
  (dedupFirst (nodes.map Node.id)).map (fun i => (i, 0))

/-- `TopologySort.get_execution_levels`: bounded fixed-point level
computation followed by grouping the nodes by final level. -/
def get_execution_levels (p : DAQProject) : Except String (List (List Node)) :=
  if p.nodes.isEmpty then .ok []
  else
    match levelLoop (p.nodes.length + 1) (initLv p.nodes) p.wires with
    | .error e => .error e
    | .ok (lvF, _) =>
      let maxLevel := (lvF.map Prod.snd).foldl Nat.max 0
      .ok ((List.range (maxLevel + 1)).map (fun i =>
        p.nodes.filter (fun n => lvLookup lvF n.id == some i)))

theorem lvLookup_lvSet_self :
    ∀ (lv : List (String × Nat)) (k : String) (nv : Nat),
      lvLookup (lvSet lv k nv) k = (lvLookup lv k).map (fun _ => nv) := by
  intro lv k nv
  induction lv with
  | nil => rfl
  | cons e rest ih =>
    obtain ⟨a, v⟩ := e
    by_cases h : a = k <;> simp [lvSet, lvLookup, h, ih]

theorem lvLookup_lvSet_other :
    ∀ (lv : List (String × Nat)) (k j : String) (nv : Nat), j ≠ k →
      lvLookup (lvSet lv k nv) j = lvLookup lv j := by
  intro lv k j nv hjk
  induction lv with
  | nil => rfl
  | cons e rest ih =>
    obtain ⟨a, v⟩ := e
    by_cases h : a = k
    · subst h
      simp [lvSet, lvLookup, Ne.symm hjk]
    · by_cases h2 : a = j <;> simp [lvSet, lvLookup, h, h2, hjk, ih]

theorem lvSet_keys : ∀ (lv : List (String × Nat)) (k : String) (nv : Nat),
    (lvSet lv k nv).map Prod.fst = lv.map Prod.fst := by
  intro lv k nv
  induction lv with
  | nil => rfl
  | cons e rest ih =>
    obtain ⟨a, v⟩ := e
    by_cases h : a = k <;> simp [lvSet, h, ih]

theorem lvLookup_isSome_iff_mem :
    ∀ (lv : List (String × Nat)) (k : String),
      (lvLookup lv k).isSome ↔ k ∈ lv.map Prod.fst := by
  intro lv k
  induction lv with
  | nil => simp [lvLookup]
  | cons e rest ih =>
    obtain ⟨a, v⟩ := e
    by_cases h : a = k
    · simp [lvLookup, h]
    · have h' : ¬k = a := fun hc => h hc.symm
      simp [lvLookup, h, h', ih]

theorem lvLookup_const_map (l : List String) (c : Nat) (k : String) :
    lvLookup (l.map (fun i => (i, c))) k = if k ∈ l then some c else none := by
  induction l with
  | nil => simp [lvLookup]
  | cons a rest ih =>
    by_cases h : a = k
    · simp [lvLookup, h]
    · have h' : ¬k = a := fun hc => h hc.symm
      simp [lvLookup, h, h', ih]

theorem levelPass_keys :
    ∀ (ws : List Wire) (lv : List (String × Nat)) (ch : Bool)
      (lv' : List (String × Nat)) (ch' : Bool),
      levelPass lv ch ws = .ok (lv', ch') → lv'.map Prod.fst = lv.map Prod.fst := by
  intro ws
  induction ws with
  | nil =>
    intro lv ch lv' ch' h
    cases h
    rfl
  | cons w ws ih =>
    intro lv ch lv' ch' h
    rw [levelPass] at h
    cases hs : lvLookup lv w.source.node_id with
    | none => simp only [hs] at h; cases h
    | some ls =>
      simp only [hs] at h
      cases ht : lvLookup lv w.target.node_id with
      | none => simp only [ht] at h; cases h
      | some lt =>
        simp only [ht] at h
        by_cases hlt : ls + 1 > lt
        · rw [if_pos hlt] at h
          rw [ih _ _ _ _ h, lvSet_keys]
        · rw [if_neg hlt] at h
          exact ih _ _ _ _ h

theorem levelPass_mono :
    ∀ (ws : List Wire) (lv : List (String × Nat)) (ch : Bool)
      (lv' : List (String × Nat)) (ch' : Bool),
      levelPass lv ch ws = .ok (lv', ch') →
      ∀ k v, lvLookup lv k = some v →
        ∃ v', lvLookup lv' k = some v' ∧ v ≤ v' := by
  intro ws
  induction ws with
  | nil =>
    intro lv ch lv' ch' h k v hv
    cases h
    exact ⟨v, hv, Nat.le_refl v⟩
  | cons w ws ih =>
    intro lv ch lv' ch' h k v hv
    rw [levelPass] at h
    cases hs : lvLookup lv w.source.node_id with
    | none => simp only [hs] at h; cases h
    | some ls =>
      simp only [hs] at h
      cases ht : lvLookup lv w.target.node_id with
      | none => simp only [ht] at h; cases h
      | some lt =>
        simp only [ht] at h
        by_cases hlt : ls + 1 > lt
        · rw [if_pos hlt] at h
          by_cases hk : k = w.target.node_id
          · have hset : lvLookup (lvSet lv w.target.node_id (ls + 1)) k = some (ls + 1) := by
              rw [hk, lvLookup_lvSet_self]
              rw [hk] at hv
              rw [hv]
              rfl
            obtain ⟨v', hv', hle⟩ := ih _ _ _ _ h k (ls + 1) hset
            refine ⟨v', hv', ?_⟩
            have hvlt : v = lt := by
              rw [hk] at hv
              rw [hv] at ht
              exact Option.some.inj ht
            omega
          · have hset : lvLookup (lvSet lv w.target.node_id (ls + 1)) k = some v := by
              rw [lvLookup_lvSet_other _ _ _ _ hk]
              exact hv
            exact ih _ _ _ _ h k v hset
        · rw [if_neg hlt] at h
          exact ih _ _ _ _ h k v hv

theorem levelPass_dom :
    ∀ (ws : List Wire) (lv : List (String × Nat)) (ch : Bool)
      (r : List (String × Nat) × Bool),
      levelPass lv ch ws = .ok r →
      ∀ w ∈ ws, w.source.node_id ∈ lv.map Prod.fst ∧
        w.target.node_id ∈ lv.map Prod.fst := by
  intro ws
  induction ws with
  | nil => intro lv ch r _ w hw; cases hw
  | cons w0 ws ih =>
    intro lv ch r h w hw
    rw [levelPass] at h
    cases hs : lvLookup lv w0.source.node_id with
    | none => simp only [hs] at h; cases h
    | some ls =>
      simp only [hs] at h
      cases ht : lvLookup lv w0.target.node_id with
      | none => simp only [ht] at h; cases h
      | some lt =>
        simp only [ht] at h
        have hs0 : w0.source.node_id ∈ lv.map Prod.fst := by
          rw [← lvLookup_isSome_iff_mem, hs]; rfl
        have ht0 : w0.target.node_id ∈ lv.map Prod.fst := by
          rw [← lvLookup_isSome_iff_mem, ht]; rfl
        rcases List.mem_cons.mp hw with rfl | hw'
        · exact ⟨hs0, ht0⟩
        · by_cases hlt : ls + 1 > lt
          · rw [if_pos hlt] at h
            have := ih _ _ _ h w hw'
            rwa [lvSet_keys] at this
          · rw [if_neg hlt] at h
            exact ih _ _ _ h w hw'

theorem levelPass_true_sticky :
    ∀ (ws : List Wire) (lv : List (String × Nat))
      (lv' : List (String × Nat)) (ch' : Bool),
      levelPass lv true ws = .ok (lv', ch') → ch' = true := by
  intro ws
  induction ws with
  | nil =>
    intro lv lv' ch' h
    cases h
    rfl
  | cons w ws ih =>
    intro lv lv' ch' h
    rw [levelPass] at h
    cases hs : lvLookup lv w.source.node_id with
    | none => simp only [hs] at h; cases h
    | some ls =>
      simp only [hs] at h
      cases ht : lvLookup lv w.target.node_id with
      | none => simp only [ht] at h; cases h
      | some lt =>
        simp only [ht] at h
        by_cases hlt : ls + 1 > lt
        · rw [if_pos hlt] at h
          exact ih _ _ _ h
        · rw [if_neg hlt] at h
          exact ih _ _ _ h

/-- A wire whose relaxation constraint currently holds. -/
def satW (lv : List (String × Nat)) (w : Wire) : Prop :=
  ∃ ls lt, lvLookup lv w.source.node_id = some ls ∧
    lvLookup lv w.target.node_id = some lt ∧ ls + 1 ≤ lt

theorem levelPass_false :
    ∀ (ws : List Wire) (lv : List (String × Nat)) (ch : Bool)
      (lv' : List (String × Nat)),
      levelPass lv ch ws = .ok (lv', false) →
      lv' = lv ∧ ch = false ∧ ∀ w ∈ ws, satW lv w := by
  intro ws
  induction ws with
  | nil =>
    intro lv ch lv' h
    cases h
    exact ⟨rfl, rfl, fun w hw => absurd hw (List.not_mem_nil w)⟩
  | cons w0 ws ih =>
    intro lv ch lv' h
    rw [levelPass] at h
    cases hs : lvLookup lv w0.source.node_id with
    | none => simp only [hs] at h; cases h
    | some ls =>
      simp only [hs] at h
      cases ht : lvLookup lv w0.target.node_id with
      | none => simp only [ht] at h; cases h
      | some lt =>
        simp only [ht] at h
        by_cases hlt : ls + 1 > lt
        · rw [if_pos hlt] at h
          exact absurd (levelPass_true_sticky _ _ _ _ h) (by simp)
        · rw [if_neg hlt] at h
          obtain ⟨h1, h2, h3⟩ := ih _ _ _ h
          refine ⟨h1, h2, fun w hw => ?_⟩
          rcases List.mem_cons.mp hw with rfl | hw'
          · exact ⟨ls, lt, hs, ht, by omega⟩
          · exact h3 w hw'

/-- The upper-bound invariant: every nonzero level is at most one above the
current level of one of its in-wires' sources. -/
def Inv1 (wires : List Wire) (lv : List (String × Nat)) : Prop :=
  ∀ k v, lvLookup lv k = some v →
    v = 0 ∨ ∃ w ∈ wires, w.target.node_id = k ∧
      ∃ ls, lvLookup lv w.source.node_id = some ls ∧ v ≤ ls + 1

theorem levelPass_inv1 (wires : List Wire) :
    ∀ (ws : List Wire) (lv : List (String × Nat)) (ch : Bool)
      (lv' : List (String × Nat)) (ch' : Bool),
      (∀ w ∈ ws, w ∈ wires) →
      levelPass lv ch ws = .ok (lv', ch') →
      Inv1 wires lv → Inv1 wires lv' := by
  intro ws
  induction ws with
  | nil =>
    intro lv ch lv' ch' _ h hinv
    cases h
    exact hinv
  | cons w0 ws ih =>
    intro lv ch lv' ch' hsub h hinv
    rw [levelPass] at h
    cases hs : lvLookup lv w0.source.node_id with
    | none => simp only [hs] at h; cases h
    | some ls =>
      simp only [hs] at h
      cases ht : lvLookup lv w0.target.node_id with
      | none => simp only [ht] at h; cases h
      | some lt =>
        simp only [ht] at h
        by_cases hlt : ls + 1 > lt
        · rw [if_pos hlt] at h
          have hinv2 : Inv1 wires (lvSet lv w0.target.node_id (ls + 1)) := by
            intro k v hv
            by_cases hk : k = w0.target.node_id
            · subst hk
              rw [lvLookup_lvSet_self, ht] at hv
              have hveq : v = ls + 1 := (Option.some.inj hv).symm
              right
              refine ⟨w0, hsub w0 (List.mem_cons_self _ _), rfl, ?_⟩
              by_cases hsrc : w0.source.node_id = w0.target.node_id
              · refine ⟨ls + 1, ?_, by omega⟩
                rw [hsrc, lvLookup_lvSet_self, ht]
                rfl
              · refine ⟨ls, ?_, by omega⟩
                rw [lvLookup_lvSet_other _ _ _ _ hsrc]
                exact hs
            · rw [lvLookup_lvSet_other _ _ _ _ hk] at hv
              rcases hinv k v hv with h0 | ⟨w, hwmem, hwt, ls_w, hls_w, hle⟩
              · exact Or.inl h0
              · right
                refine ⟨w, hwmem, hwt, ?_⟩
                by_cases hsrc : w.source.node_id = w0.target.node_id
                · refine ⟨ls + 1, ?_, ?_⟩
                  · rw [hsrc, lvLookup_lvSet_self, ht]
                    rfl
                  · have : ls_w = lt := by
                      rw [hsrc] at hls_w
                      rw [hls_w] at ht
                      exact Option.some.inj ht
                    omega
                · refine ⟨ls_w, ?_, hle⟩
                  rw [lvLookup_lvSet_other _ _ _ _ hsrc]
                  exact hls_w
          exact ih _ _ _ _ (fun w hw => hsub w (List.mem_cons_of_mem _ hw)) h hinv2
        · rw [if_neg hlt] at h
          exact ih _ _ _ _ (fun w hw => hsub w (List.mem_cons_of_mem _ hw)) h hinv

theorem levelPass_total :
    ∀ (ws : List Wire) (lv : List (String × Nat)) (ch : Bool),
      (∀ w ∈ ws, w.source.node_id ∈ lv.map Prod.fst ∧
        w.target.node_id ∈ lv.map Prod.fst) →
      ∃ r, levelPass lv ch ws = .ok r := by
  intro ws
  induction ws with
  | nil => intro lv ch _; exact ⟨(lv, ch), rfl⟩
  | cons w0 ws ih =>
    intro lv ch hdom
    obtain ⟨hsm, htm⟩ := hdom w0 (List.mem_cons_self _ _)
    obtain ⟨ls, hs⟩ :=
      Option.isSome_iff_exists.mp ((lvLookup_isSome_iff_mem lv _).mpr hsm)
    obtain ⟨lt, ht⟩ :=
      Option.isSome_iff_exists.mp ((lvLookup_isSome_iff_mem lv _).mpr htm)
    simp only [levelPass, hs, ht]
    by_cases hlt : ls + 1 > lt
    · rw [if_pos hlt]
      exact ih _ true (fun w hw => by
        rw [lvSet_keys]
        exact hdom w (List.mem_cons_of_mem _ hw))
    · rw [if_neg hlt]
      exact ih _ ch (fun w hw => hdom w (List.mem_cons_of_mem _ hw))

theorem levelPass_nofire :
    ∀ (ws : List Wire) (lv : List (String × Nat)) (ch : Bool),
      (∀ w ∈ ws, satW lv w) →
      levelPass lv ch ws = .ok (lv, ch) := by
  intro ws
  induction ws with
  | nil => intro lv ch _; rfl
  | cons w0 ws ih =>
    intro lv ch hall
    obtain ⟨ls, lt, hs, ht, hle⟩ := hall w0 (List.mem_cons_self _ _)
    simp only [levelPass, hs, ht]
    rw [if_neg (by omega)]
    exact ih lv ch (fun w hw => hall w (List.mem_cons_of_mem _ hw))

theorem levelPass_stable_aux (rank : String → Nat) :
    ∀ (ws : List Wire) (lv lv0 : List (String × Nat)) (ch : Bool)
      (lv' : List (String × Nat)) (ch' : Bool) (j : Nat),
      (∀ w ∈ ws, rank w.source.node_id < rank w.target.node_id) →
      levelPass lv ch ws = .ok (lv', ch') →
      (∀ k, rank k < j → lvLookup lv k = lvLookup lv0 k) →
      (∀ w ∈ ws, rank w.target.node_id < j → satW lv w) →
      (∀ k, rank k < j → lvLookup lv' k = lvLookup lv0 k) ∧
      (∀ w ∈ ws, rank w.target.node_id ≤ j → satW lv' w) := by
  intro ws
  induction ws with
  | nil =>
    intro lv lv0 ch lv' ch' j _ h hfr _
    cases h
    exact ⟨hfr, fun w hw => absurd hw (List.not_mem_nil w)⟩
  | cons w0 ws ih =>
    intro lv lv0 ch lv' ch' j hrk h hfr hsat
    rw [levelPass] at h
    cases hs : lvLookup lv w0.source.node_id with
    | none => simp only [hs] at h; cases h
    | some ls =>
      simp only [hs] at h
      cases ht : lvLookup lv w0.target.node_id with
      | none => simp only [ht] at h; cases h
      | some lt =>
        simp only [ht] at h
        by_cases hlt : ls + 1 > lt
        · rw [if_pos hlt] at h
          have hrge : j ≤ rank w0.target.node_id := by
            by_contra hcon
            push_neg at hcon
            obtain ⟨a, b, ha, hb, hab⟩ := hsat w0 (List.mem_cons_self _ _) hcon
            rw [hs] at ha
            rw [ht] at hb
            have e1 := Option.some.inj ha
            have e2 := Option.some.inj hb
            omega
          have hfr1 : ∀ k, rank k < j →
              lvLookup (lvSet lv w0.target.node_id (ls + 1)) k = lvLookup lv0 k := by
            intro k hk
            rw [lvLookup_lvSet_other _ _ _ _ (fun he => by rw [he] at hk; omega)]
            exact hfr k hk
          have hsat1 : ∀ w ∈ ws, rank w.target.node_id < j →
              satW (lvSet lv w0.target.node_id (ls + 1)) w := by
            intro w hw hwj
            obtain ⟨a, b, ha, hb, hab⟩ := hsat w (List.mem_cons_of_mem _ hw) hwj
            have hsrcne : w.source.node_id ≠ w0.target.node_id := by
              intro he
              have := hrk w (List.mem_cons_of_mem _ hw)
              rw [he] at this
              omega
            by_cases htgt : w.target.node_id = w0.target.node_id
            · refine ⟨a, ls + 1, ?_, ?_, ?_⟩
              · rw [lvLookup_lvSet_other _ _ _ _ hsrcne]; exact ha
              · rw [htgt, lvLookup_lvSet_self, ht]; rfl
              · have hbe : b = lt := by
                  rw [htgt] at hb
                  rw [hb] at ht
                  exact Option.some.inj ht
                omega
            · refine ⟨a, b, ?_, ?_, hab⟩
              · rw [lvLookup_lvSet_other _ _ _ _ hsrcne]; exact ha
              · rw [lvLookup_lvSet_other _ _ _ _ htgt]; exact hb
          obtain ⟨ha', hb'⟩ := ih _ _ _ _ _ _
            (fun w hw => hrk w (List.mem_cons_of_mem _ hw)) h hfr1 hsat1
          refine ⟨ha', fun w hw hwj => ?_⟩
          rcases List.mem_cons.mp hw with rfl | hw'
          · have hsrclt : rank w.source.node_id < j := by
              have := hrk w (List.mem_cons_self _ _)
              omega
            have hsv : lvLookup lv' w.source.node_id = some ls := by
              rw [ha' _ hsrclt, ← hfr _ hsrclt]
              exact hs
            have hset : lvLookup (lvSet lv w.target.node_id (ls + 1))
                w.target.node_id = some (ls + 1) := by
              rw [lvLookup_lvSet_self, ht]
              rfl
            obtain ⟨v', hv', hle⟩ := levelPass_mono _ _ _ _ _ h _ _ hset
            exact ⟨ls, v', hsv, hv', by omega⟩
          · exact hb' w hw' hwj
        · rw [if_neg hlt] at h
          obtain ⟨ha', hb'⟩ := ih _ _ _ _ _ _
            (fun w hw => hrk w (List.mem_cons_of_mem _ hw)) h hfr
            (fun w hw hwj => hsat w (List.mem_cons_of_mem _ hw) hwj)
          refine ⟨ha', fun w hw hwj => ?_⟩
          rcases List.mem_cons.mp hw with rfl | hw'
          · have hsrclt : rank w.source.node_id < j := by
              have := hrk w (List.mem_cons_self _ _)
              omega
            have hsv : lvLookup lv' w.source.node_id = some ls := by
              rw [ha' _ hsrclt, ← hfr _ hsrclt]
              exact hs
            obtain ⟨v', hv', hle⟩ := levelPass_mono _ _ _ _ _ h _ _ ht
            exact ⟨ls, v', hsv, hv', by omega⟩
          · exact hb' w hw' hwj

theorem levelPass_stable (rank : String → Nat) (wires : List Wire)
    (lv lv' : List (String × Nat)) (ch ch' : Bool) (j : Nat)
    (hrk : ∀ w ∈ wires, rank w.source.node_id < rank w.target.node_id)
    (h : levelPass lv ch wires = .ok (lv', ch'))
    (hsat : ∀ w ∈ wires, rank w.target.node_id < j → satW lv w) :
    ∀ w ∈ wires, rank w.target.node_id < j + 1 → satW lv' w := by
  have hmain :=
    levelPass_stable_aux rank wires lv lv ch lv' ch' j hrk h (fun k _ => rfl) hsat
  intro w hw hwj
  exact hmain.2 w hw (by omega)

theorem levelLoop_used_le :
    ∀ (fuel : Nat) (lv : List (String × Nat)) (wires : List Wire)
      (lvF : List (String × Nat)) (used : Nat),
      levelLoop fuel lv wires = .ok (lvF, used) → used ≤ fuel := by
  intro fuel
  induction fuel with
  | zero => intro lv wires lvF used h; cases h; exact Nat.le_refl 0
  | succ f ih =>
    intro lv wires lvF used h
    rw [levelLoop] at h
    cases hp : levelPass lv false wires with
    | error e => simp only [hp] at h; cases h
    | ok r =>
      obtain ⟨lv1, ch1⟩ := r
      simp only [hp] at h
      by_cases hch : ch1 = true
      · subst hch
        rw [if_pos rfl] at h
        cases hl : levelLoop f lv1 wires with
        | error e => simp only [hl] at h; cases h
        | ok r2 =>
          obtain ⟨lvG, u⟩ := r2
          simp only [hl] at h
          cases h
          have := ih lv1 wires _ _ hl
          omega
      · rw [if_neg hch] at h
        cases h
        omega

theorem levelLoop_keys :
    ∀ (fuel : Nat) (lv : List (String × Nat)) (wires : List Wire)
      (lvF : List (String × Nat)) (used : Nat),
      levelLoop fuel lv wires = .ok (lvF, used) →
      lvF.map Prod.fst = lv.map Prod.fst := by
  intro fuel
  induction fuel with
  | zero => intro lv wires lvF used h; cases h; rfl
  | succ f ih =>
    intro lv wires lvF used h
    rw [levelLoop] at h
    cases hp : levelPass lv false wires with
    | error e => simp only [hp] at h; cases h
    | ok r =>
      obtain ⟨lv1, ch1⟩ := r
      simp only [hp] at h
      by_cases hch : ch1 = true
      · subst hch
        rw [if_pos rfl] at h
        cases hl : levelLoop f lv1 wires with
        | error e => simp only [hl] at h; cases h
        | ok r2 =>
          obtain ⟨lvG, u⟩ := r2
          simp only [hl] at h
          cases h
          rw [ih lv1 wires _ _ hl]
          exact levelPass_keys wires lv false lv1 true hp
      · rw [if_neg hch] at h
        cases h
        exact levelPass_keys wires lv false lvF ch1 hp

theorem levelLoop_inv1 (wires : List Wire) :
    ∀ (fuel : Nat) (lv : List (String × Nat))
      (lvF : List (String × Nat)) (used : Nat),
      levelLoop fuel lv wires = .ok (lvF, used) →
      Inv1 wires lv → Inv1 wires lvF := by
  intro fuel
  induction fuel with
  | zero => intro lv lvF used h hinv; cases h; exact hinv
  | succ f ih =>
    intro lv lvF used h hinv
    rw [levelLoop] at h
    cases hp : levelPass lv false wires with
    | error e => simp only [hp] at h; cases h
    | ok r =>
      obtain ⟨lv1, ch1⟩ := r
      simp only [hp] at h
      have hinv1 : Inv1 wires lv1 :=
        levelPass_inv1 wires wires lv false lv1 ch1 (fun w hw => hw) hp hinv
      by_cases hch : ch1 = true
      · subst hch
        rw [if_pos rfl] at h
        cases hl : levelLoop f lv1 wires with
        | error e => simp only [hl] at h; cases h
        | ok r2 =>
          obtain ⟨lvG, u⟩ := r2
          simp only [hl] at h
          cases h
          exact ih lv1 _ _ hl hinv1
      · rw [if_neg hch] at h
        cases h
        exact hinv1

theorem levelLoop_conv (rank : String → Nat) (wires : List Wire)
    (hrk : ∀ w ∈ wires, rank w.source.node_id < rank w.target.node_id) :
    ∀ (fuel : Nat) (j : Nat) (lv : List (String × Nat)),
      (∀ w ∈ wires, w.source.node_id ∈ lv.map Prod.fst ∧
        w.target.node_id ∈ lv.map Prod.fst) →
      (∀ w ∈ wires, rank w.target.node_id < j → satW lv w) →
      (∀ w ∈ wires, rank w.target.node_id < j + fuel) →
      ∃ lvF used, levelLoop (fuel + 1) lv wires = .ok (lvF, used) ∧
        (∀ w ∈ wires, satW lvF w) ∧ used ≤ fuel + 1 := by
  intro fuel
  induction fuel with
  | zero =>
    intro j lv _ hsat hbound
    have hall : ∀ w ∈ wires, satW lv w := fun w hw =>
      hsat w hw (by have := hbound w hw; omega)
    refine ⟨lv, 1, ?_, hall, Nat.le_refl 1⟩
    rw [levelLoop, levelPass_nofire wires lv false hall]
    rfl
  | succ f ih =>
    intro j lv hdom hsat hbound
    obtain ⟨r, hp⟩ := levelPass_total wires lv false hdom
    obtain ⟨lv1, ch1⟩ := r
    by_cases hch : ch1 = true
    · subst hch
      have hsat1 := levelPass_stable rank wires lv lv1 false true j hrk hp hsat
      have hdom1 : ∀ w ∈ wires, w.source.node_id ∈ lv1.map Prod.fst ∧
          w.target.node_id ∈ lv1.map Prod.fst := by
        intro w hw
        rw [levelPass_keys wires lv false lv1 true hp]
        exact hdom w hw
      have hbound1 : ∀ w ∈ wires, rank w.target.node_id < (j + 1) + f := by
        intro w hw
        have := hbound w hw
        omega
      obtain ⟨lvF, used, hl, hsatF, hused⟩ := ih (j + 1) lv1 hdom1 hsat1 hbound1
      refine ⟨lvF, used + 1, ?_, hsatF, by omega⟩
      rw [levelLoop, hp]
      simp only [hl, eq_self_iff_true, if_true]
    · have hch' : ch1 = false := by
        cases ch1
        · rfl
        · exact absurd rfl hch
      subst hch'
      obtain ⟨hlv, _, hall⟩ := levelPass_false wires lv false lv1 hp
      rw [hlv] at hp
      refine ⟨lv, 1, ?_, hall, by omega⟩
      rw [levelLoop, hp]
      rfl

theorem initLv_keys (nodes : List Node) :
    (initLv nodes).map Prod.fst = dedupFirst (nodes.map Node.id) := by
  rw [initLv, List.map_map]
  exact List.map_id _

theorem lvLookup_mem_snd :
    ∀ (lv : List (String × Nat)) (k : String) (v : Nat),
      lvLookup lv k = some v → v ∈ lv.map Prod.snd := by
  intro lv
  induction lv with
  | nil => intro k v h; cases h
  | cons e rest ih =>
    intro k v h
    obtain ⟨a, b⟩ := e
    rw [lvLookup] at h
    by_cases hak : a = k
    · rw [if_pos hak] at h
      rw [List.map_cons, ← Option.some.inj h]
      exact List.mem_cons_self _ _
    · rw [if_neg hak] at h
      rw [List.map_cons]
      exact List.mem_cons_of_mem _ (ih k v h)

end TopologySort

/-- `a` is a lower bound of `foldl Nat.max a`. -/
theorem foldl_max_init_le : ∀ (l : List Nat) (a : Nat), a ≤ l.foldl Nat.max a := by
  intro l
  induction l with
  | nil => intro a; exact Nat.le_refl a
  | cons b l ih =>
    intro a
    exact le_trans (Nat.le_max_left a b) (ih (Nat.max a b))

/-- Every member of `l` is at most `l.foldl Nat.max a`. -/
theorem le_foldl_max : ∀ (l : List Nat) (a x : Nat), x ∈ l → x ≤ l.foldl Nat.max a := by
  intro l
  induction l with
  | nil => intro a x hx; cases hx
  | cons b l ih =>
    intro a x hx
    rcases List.mem_cons.mp hx with rfl | hx'
    · exact le_trans (Nat.le_max_right a x) (foldl_max_init_le l (Nat.max a x))
    · exact ih (Nat.max a b) x hx'

/-- An acyclic edge list over a key list `K` admits a rank function that
strictly increases along every edge and stays below `K.length` on every
edge target (rank = number of strict ancestors among `K`). -/
theorem exists_rank (K : List String) (E : List (String × String))
    (hend : ∀ e ∈ E, e.1 ∈ K ∧ e.2 ∈ K)
    (hacyc : ¬ HasCycleRel E) :
    ∃ rank : String → Nat,
      (∀ e ∈ E, rank e.1 < rank e.2) ∧ (∀ e ∈ E, rank e.2 < K.length) := by
  classical
  refine ⟨fun x =>
    (K.toFinset.filter (fun y => Relation.TransGen (fun a b => (a, b) ∈ E) y x)).card,
    ?_, ?_⟩
  · intro e he
    have hst : (e.1, e.2) ∈ E := by rw [Prod.mk.eta]; exact he
    have hsub : K.toFinset.filter
          (fun y => Relation.TransGen (fun a b => (a, b) ∈ E) y e.1) ⊆
        K.toFinset.filter
          (fun y => Relation.TransGen (fun a b => (a, b) ∈ E) y e.2) := by
      intro y hy
      rw [Finset.mem_filter] at hy ⊢
      exact ⟨hy.1, Relation.TransGen.tail hy.2 hst⟩
    have hmem2 : e.1 ∈ K.toFinset.filter
        (fun y => Relation.TransGen (fun a b => (a, b) ∈ E) y e.2) := by
      rw [Finset.mem_filter]
      exact ⟨List.mem_toFinset.mpr (hend e he).1, Relation.TransGen.single hst⟩
    have hnot1 : e.1 ∉ K.toFinset.filter
        (fun y => Relation.TransGen (fun a b => (a, b) ∈ E) y e.1) := by
      rw [Finset.mem_filter]
      rintro ⟨-, hcyc⟩
      exact hacyc ⟨e.1, hcyc⟩
    exact Finset.card_lt_card ((Finset.ssubset_iff_of_subset hsub).mpr
      ⟨e.1, hmem2, hnot1⟩)
  · intro e he
    have hmemK : e.2 ∈ K.toFinset := List.mem_toFinset.mpr (hend e he).2
    have hnot : e.2 ∉ K.toFinset.filter
        (fun y => Relation.TransGen (fun a b => (a, b) ∈ E) y e.2) := by
      rw [Finset.mem_filter]
      rintro ⟨-, hcyc⟩
      exact hacyc ⟨e.2, hcyc⟩
    have hsubE : K.toFinset.filter
          (fun y => Relation.TransGen (fun a b => (a, b) ∈ E) y e.2) ⊆
        K.toFinset.erase e.2 :=
      Finset.subset_erase.mpr ⟨Finset.filter_subset _ _, hnot⟩
    have h1 := Finset.card_le_card hsubE
    have h2 : (K.toFinset.erase e.2).card = K.toFinset.card - 1 :=
      Finset.card_erase_of_mem hmemK
    have h3 : 0 < K.toFinset.card := Finset.card_pos.mpr ⟨e.2, hmemK⟩
    have h4 : K.toFinset.card ≤ K.length := List.toFinset_card_le K
    have hfin : (K.toFinset.filter
        (fun y => Relation.TransGen (fun a b => (a, b) ∈ E) y e.2)).card <
        K.length := by
      omega
    exact hfin

/-- A concrete edge-increasing rank function certifies acyclicity. -/
theorem acyclic_of_rank (E : List (String × String)) (rank : String → Nat)
    (hrk : ∀ e ∈ E, rank e.1 < rank e.2) : ¬ HasCycleRel E := by
  intro hcyc
  obtain ⟨x, hx⟩ := hcyc
  have key : ∀ a b, Relation.TransGen (fun p q => (p, q) ∈ E) a b →
      rank a < rank b := by
    intro a b hab
    induction hab with
    | single h => exact hrk (_, _) h
    | tail _ h ih => exact Nat.lt_trans ih (hrk (_, _) h)
  exact absurd (key x x hx) (Nat.lt_irrefl _)

/-- A graph with three wires each having exactly one unresolvable endpoint
and one self-loop wire: the validation-totality example from the spec. -/
def projC3 : DAQProject :=
  { meta := { name := "c3", version := "1.0.0", schema_version := "0.1.0" }
    devices := []
    nodes := [{ id := "n1", type := "daq:math", position := ⟨0, 0⟩ }]
    wires :=
      [ { id := "w1", source := ⟨"n1", "out"⟩, target := ⟨"ghost1", "in"⟩ }
      , { id := "w2", source := ⟨"ghost2", "out"⟩, target := ⟨"n1", "in"⟩ }
      , { id := "w3", source := ⟨"n1", "out"⟩, target := ⟨"ghost3", "in"⟩ }
      , { id := "w4", source := ⟨"n1", "out"⟩, target := ⟨"n1", "in"⟩ } ]
    widgets := [] }

/-- C3: `validate_connections` returns all violations in one batch: one error
per unresolvable wire endpoint plus one per self-loop wire, the boolean is
true iff the error list is empty, and the 3-dangling-wires-plus-1-self-loop
graph yields exactly 4 errors, not 1. -/
theorem c3_validate_connections_batches_all_violations :
    (∀ p : DAQProject,
      (TopologySort.validate_connections p).2.length =
        (p.wires.filter
          (fun w => decide (w.source.node_id ∉ p.nodes.map Node.id))).length +
        (p.wires.filter
          (fun w => decide (w.target.node_id ∉ p.nodes.map Node.id))).length +
        (p.wires.filter
          (fun w => decide (w.source.node_id = w.target.node_id))).length ∧
      ((TopologySort.validate_connections p).1 = true ↔
        (TopologySort.validate_connections p).2 = [])) ∧
    (TopologySort.validate_connections projC3).2.length = 4 ∧
    (TopologySort.validate_connections projC3).1 = false := by
  refine ⟨fun p => ⟨?_, ?_⟩, by decide, by decide⟩
  · show (p.wires.foldl _ []).length = _
    rw [TopologySort.validate_foldl_eq, List.nil_append,
      TopologySort.wireErrors_flat_length]
  · simp only [TopologySort.validate_connections]
    rw [TopologySort.validate_foldl_eq, List.nil_append, beq_iff_eq,
      List.length_eq_zero]


/-- An acyclic three-node project (a → b → c plus a → c) for exercising the
execution-level computation. -/
def projC9 : DAQProject :=
  { meta := { name := "c9", version := "1.0.0", schema_version := "0.1.0" }
    devices := []
    nodes := [ { id := "a", type := "daq:device", position := ⟨0, 0⟩ }
             , { id := "b", type := "daq:math", position := ⟨0, 0⟩ }
             , { id := "c", type := "daq:math", position := ⟨0, 0⟩ } ]
    wires := [ { id := "w1", source := ⟨"a", "out"⟩, target := ⟨"b", "in"⟩ }
             , { id := "w2", source := ⟨"b", "out"⟩, target := ⟨"c", "in"⟩ }
             , { id := "w3", source := ⟨"a", "out"⟩, target := ⟨"c", "in2"⟩ } ]
    widgets := [] }

/-- A rank certificate for the acyclicity of `projC9`'s wire graph. -/
def rankC9 (s : String) : Nat := if s = "a" then 0 else if s = "b" then 1 else 2

/-- C9: the fixed-point loop of `get_execution_levels` performs at most
`len(nodes) + 1` sweeps on every project; and on a project whose wires all
resolve to nodes and whose edge relation is acyclic, the computed levels are a
fixed point assigning level 0 to every node without a predecessor and level
`1 + max(level of predecessors)` to every node with one, and
`get_execution_levels` groups each node into exactly the list indexed by its
level. -/
theorem c9_execution_levels_bounded_fixed_point :
    (∀ (p : DAQProject) (lvF : List (String × Nat)) (used : Nat),
      TopologySort.levelLoop (p.nodes.length + 1) (TopologySort.initLv p.nodes)
          p.wires = .ok (lvF, used) →
      used ≤ p.nodes.length + 1) ∧
    (∀ p : DAQProject,
      (∀ w ∈ p.wires, w.source.node_id ∈ p.nodes.map Node.id ∧
        w.target.node_id ∈ p.nodes.map Node.id) →
      ¬ HasCycleRel (edgeList p.wires) →
      ∃ lvF used,
        TopologySort.levelLoop (p.nodes.length + 1)
            (TopologySort.initLv p.nodes) p.wires = .ok (lvF, used) ∧
        used ≤ p.nodes.length + 1 ∧
        (∀ n ∈ p.nodes, ∃ v, TopologySort.lvLookup lvF n.id = some v ∧
          ((∀ w ∈ p.wires, w.target.node_id ≠ n.id) → v = 0) ∧
          (∀ w ∈ p.wires, w.target.node_id = n.id →
            ∀ ls, TopologySort.lvLookup lvF w.source.node_id = some ls →
              ls + 1 ≤ v) ∧
          (∀ w0 ∈ p.wires, w0.target.node_id = n.id →
            ∃ w ∈ p.wires, w.target.node_id = n.id ∧
              ∃ ls, TopologySort.lvLookup lvF w.source.node_id = some ls ∧
                v = ls + 1)) ∧
        ∃ L, TopologySort.get_execution_levels p = .ok L ∧
          ∀ n ∈ p.nodes, ∀ v, TopologySort.lvLookup lvF n.id = some v →
            ∃ hv : v < L.length, n ∈ L.get ⟨v, hv⟩ ∧
              ∀ j, ∀ hj : j < L.length, n ∈ L.get ⟨j, hj⟩ → j = v) := by
  constructor
  · intro p lvF used h
    exact TopologySort.levelLoop_used_le _ _ _ _ _ h
  · intro p hdom hacyc
    have hendE : ∀ e ∈ edgeList p.wires,
        e.1 ∈ p.nodes.map Node.id ∧ e.2 ∈ p.nodes.map Node.id := by
      intro e he
      rw [edgeList, TopologySort.mem_dedupFirst] at he
      obtain ⟨w, hw, hwe⟩ := List.mem_map.mp he
      obtain ⟨h1, h2⟩ := hdom w hw
      rw [← hwe]
      exact ⟨h1, h2⟩
    obtain ⟨rank, hrkE, hbndE⟩ :=
      exists_rank (p.nodes.map Node.id) (edgeList p.wires) hendE hacyc
    have hpairmem : ∀ w ∈ p.wires, TopologySort.wirePair w ∈ edgeList p.wires := by
      intro w hw
      rw [edgeList, TopologySort.mem_dedupFirst]
      exact List.mem_map_of_mem _ hw
    have hrkW : ∀ w ∈ p.wires,
        rank w.source.node_id < rank w.target.node_id := by
      intro w hw
      exact hrkE _ (hpairmem w hw)
    have hbndW : ∀ w ∈ p.wires, rank w.target.node_id < 0 + p.nodes.length := by
      intro w hw
      have hb : rank w.target.node_id < (p.nodes.map Node.id).length :=
        hbndE _ (hpairmem w hw)
      rw [List.length_map] at hb
      omega
    have hdom0 : ∀ w ∈ p.wires,
        w.source.node_id ∈ (TopologySort.initLv p.nodes).map Prod.fst ∧
        w.target.node_id ∈ (TopologySort.initLv p.nodes).map Prod.fst := by
      intro w hw
      rw [TopologySort.initLv_keys, TopologySort.mem_dedupFirst,
        TopologySort.mem_dedupFirst]
      exact hdom w hw
    obtain ⟨lvF, used, hloop, hallsat, hused⟩ :=
      TopologySort.levelLoop_conv rank p.wires hrkW p.nodes.length 0
        (TopologySort.initLv p.nodes) hdom0
        (fun w hw h0 => absurd h0 (Nat.not_lt_zero _)) hbndW
    have hinv0 : TopologySort.Inv1 p.wires (TopologySort.initLv p.nodes) := by
      intro k v hv
      left
      rw [TopologySort.initLv, TopologySort.lvLookup_const_map] at hv
      split at hv
      · exact (Option.some.inj hv).symm
      · cases hv
    have hinvF : TopologySort.Inv1 p.wires lvF :=
      TopologySort.levelLoop_inv1 p.wires _ _ _ _ hloop hinv0
    have hkeys : lvF.map Prod.fst = (TopologySort.initLv p.nodes).map Prod.fst :=
      TopologySort.levelLoop_keys _ _ _ _ _ hloop
    refine ⟨lvF, used, hloop, hused, ?_, ?_⟩
    · intro n hn
      have hmemk : n.id ∈ lvF.map Prod.fst := by
        rw [hkeys, TopologySort.initLv_keys, TopologySort.mem_dedupFirst]
        exact List.mem_map_of_mem _ hn
      obtain ⟨v, hv⟩ := Option.isSome_iff_exists.mp
        ((TopologySort.lvLookup_isSome_iff_mem _ _).mpr hmemk)
      refine ⟨v, hv, ?_, ?_, ?_⟩
      · intro hnop
        rcases hinvF n.id v hv with h0 | ⟨w, hwmem, hwt, _, _, _⟩
        · exact h0
        · exact absurd hwt (hnop w hwmem)
      · intro w hw hwt ls hls
        obtain ⟨a, b, ha, hb, hab⟩ := hallsat w hw
        rw [hls] at ha
        rw [hwt, hv] at hb
        have e1 := Option.some.inj ha
        have e2 := Option.some.inj hb
        omega
      · intro w0 hw0 hw0t
        obtain ⟨a, b, ha, hb, hab⟩ := hallsat w0 hw0
        rw [hw0t, hv] at hb
        have e2 := Option.some.inj hb
        rcases hinvF n.id v hv with h0 | ⟨w, hwmem, hwt, ls, hls, hle⟩
        · omega
        · refine ⟨w, hwmem, hwt, ls, hls, ?_⟩
          obtain ⟨a2, b2, ha2, hb2, hab2⟩ := hallsat w hwmem
          rw [hls] at ha2
          rw [hwt, hv] at hb2
          have e3 := Option.some.inj ha2
          have e4 := Option.some.inj hb2
          omega
    · by_cases hemp : p.nodes.isEmpty
      · refine ⟨[], ?_, ?_⟩
        · rw [TopologySort.get_execution_levels, if_pos hemp]
        · intro n hn
          rw [List.isEmpty_iff] at hemp
          rw [hemp] at hn
          cases hn
      · refine ⟨(List.range ((lvF.map Prod.snd).foldl Nat.max 0 + 1)).map
          (fun i => p.nodes.filter
            (fun n => TopologySort.lvLookup lvF n.id == some i)), ?_, ?_⟩
        · rw [TopologySort.get_execution_levels, if_neg hemp]
          simp only [hloop]
        · intro n hn v hv2
          have hvM : v ≤ (lvF.map Prod.snd).foldl Nat.max 0 :=
            le_foldl_max _ 0 v (TopologySort.lvLookup_mem_snd lvF n.id v hv2)
          have hvlt : v < ((List.range ((lvF.map Prod.snd).foldl Nat.max 0 + 1)).map
              (fun i => p.nodes.filter
                (fun n => TopologySort.lvLookup lvF n.id == some i))).length := by
            rw [List.length_map, List.length_range]
            omega
          refine ⟨hvlt, ?_, ?_⟩
          · rw [List.get_eq_getElem, List.getElem_map, List.getElem_range,
              List.mem_filter]
            refine ⟨hn, ?_⟩
            rw [hv2]
            exact beq_self_eq_true _
          · intro j hj hmem
            rw [List.get_eq_getElem, List.getElem_map, List.getElem_range,
              List.mem_filter] at hmem
            have hb := hmem.2
            rw [hv2] at hb
            exact (Option.some.inj (eq_of_beq hb)).symm

theorem c9_execution_levels_witness :
    ((TopologySort.levelLoop (projC9.nodes.length + 1)
        (TopologySort.initLv projC9.nodes) projC9.wires
        = .ok ([("a", 0), ("b", 1), ("c", 2)], 2)) ∧
      2 ≤ projC9.nodes.length + 1) ∧
    (∀ w ∈ projC9.wires, w.source.node_id ∈ projC9.nodes.map Node.id ∧
      w.target.node_id ∈ projC9.nodes.map Node.id) ∧
    ¬ HasCycleRel (edgeList projC9.wires) ∧
    (∃ lvF used,
      TopologySort.levelLoop (projC9.nodes.length + 1)
          (TopologySort.initLv projC9.nodes) projC9.wires = .ok (lvF, used) ∧
      used ≤ projC9.nodes.length + 1 ∧
      (∀ n ∈ projC9.nodes, ∃ v, TopologySort.lvLookup lvF n.id = some v ∧
        ((∀ w ∈ projC9.wires, w.target.node_id ≠ n.id) → v = 0) ∧
        (∀ w ∈ projC9.wires, w.target.node_id = n.id →
          ∀ ls, TopologySort.lvLookup lvF w.source.node_id = some ls →
            ls + 1 ≤ v) ∧
        (∀ w0 ∈ projC9.wires, w0.target.node_id = n.id →
          ∃ w ∈ projC9.wires, w.target.node_id = n.id ∧
            ∃ ls, TopologySort.lvLookup lvF w.source.node_id = some ls ∧
              v = ls + 1)) ∧
      ∃ L, TopologySort.get_execution_levels projC9 = .ok L ∧
        ∀ n ∈ projC9.nodes, ∀ v, TopologySort.lvLookup lvF n.id = some v →
          ∃ hv : v < L.length, n ∈ L.get ⟨v, hv⟩ ∧
            ∀ j, ∀ hj : j < L.length, n ∈ L.get ⟨j, hj⟩ → j = v) := by
  have h1 : ∀ w ∈ projC9.wires, w.source.node_id ∈ projC9.nodes.map Node.id ∧
      w.target.node_id ∈ projC9.nodes.map Node.id := by decide
  have h2 : ¬ HasCycleRel (edgeList projC9.wires) :=
    acyclic_of_rank _ rankC9 (by decide)
  have heq : TopologySort.levelLoop (projC9.nodes.length + 1)
      (TopologySort.initLv projC9.nodes) projC9.wires
      = .ok ([("a", 0), ("b", 1), ("c", 2)], 2) := by rfl
  exact ⟨⟨heq, c9_execution_levels_bounded_fixed_point.1 projC9 _ _ heq⟩,
    h1, h2, c9_execution_levels_bounded_fixed_point.2 projC9 h1 h2⟩

/-! ### Engine runtime (`daq_core/engine.py`, `daq_core/components/base.py`) -/

/-- Generic dict read, modelling `d.get(k)` and `k in d` on a `Dict[str, ·]`
kept as an insertion-ordered association list with unique keys. -/
def aGet {β : Type} : List (String × β) → String → Option β
  | [], _ => none
  | (a, b) :: rest, k => if a = k then some b else aGet rest k

/-- Dict assignment `d[k] = v`: overwrite the existing entry in place, else
append at the end (Python insertion order). -/
def aSet {β : Type} : List (String × β) → String → β → List (String × β)
  | [], k, v => [(k, v)]
  | (a, b) :: rest, k, v =>
    if a = k then (a, v) :: rest else (a, b) :: aSet rest k v

/-- `d.update(u)`: assign every pair of `u` in order. -/
def dictUpdate {β : Type} (d u : List (String × β)) : List (String × β) :=
  u.foldl (fun acc kv => aSet acc kv.1 kv.2) d

/-- `PortType` enum (base.py lines 26-33). -/
inductive PortType where
  | number
  | string
  | boolean
  | object
  | array
  | any
deriving Repr, DecidableEq

/-- `Port` (base.py lines 36-49). `connected_to` is initialized to `None` and
never read or written on the engine paths modelled here, so it is omitted. -/
structure Port where
  name : String
  port_type : PortType
  description : String := ""
  value : Option Value := none
deriving Repr

/-- `Port.set_value`. -/
def Port.set_value (p : Port) (v : Option Value) : Port := { p with value := v }

/-- `Port.get_value`. -/
def Port.get_value (p : Port) : Option Value := p.value

/-- The runtime state of a `ComponentBase` instance: identity, config and the
two port dicts (base.py lines 64-71). -/
structure ComponentState where
  instance_id : String
  component_name : String
  config : List (String × Value) := []
  input_ports : List (String × Port) := []
  output_ports : List (String × Port) := []
  is_running : Bool := false
deriving Repr

/-- A registered component class: its registry name, the ports its
`_setup_ports` installs, and its `_on_configure` callback (subclass-defined,
hence an opaque-to-us state transformer). -/
structure ComponentClass where
  name : String
  setup_inputs : List (String × Port) := []
  setup_outputs : List (String × Port) := []
  on_configure : ComponentState → ComponentState := id

/-- `ComponentBase.__init__` with an explicit instance id: empty config,
ports from `_setup_ports`, not running. -/
def mkComponent (cls : ComponentClass) (instance_id : String) : ComponentState :=
  { instance_id := instance_id, component_name := cls.name,
    config := [], input_ports := cls.setup_inputs,
    output_ports := cls.setup_outputs, is_running := false }

/-- `ComponentBase.configure`: `self.config.update(config)` then
`self._on_configure()`. -/
def configureComponent (cls : ComponentClass) (c : ComponentState)
    (cfg : List (String × Value)) : ComponentState :=
  cls.on_configure { c with config := dictUpdate c.config cfg }

namespace ComponentRegistry

/-- `ComponentRegistry.create` (base.py lines 190-200): `None` for an
unregistered name; otherwise instantiate, and configure only when the config
dict is truthy (non-empty; a `None` config is equally falsy). -/
def create (registry : List (String × ComponentClass))
    (name instance_id : String) (config : List (String × Value)) :
    Option ComponentState :=
  match aGet registry name with
  | some cls =>
    let inst := mkComponent cls instance_id
    some (if config.isEmpty then inst else configureComponent cls inst config)
  | none => none

end ComponentRegistry

/-- `Connection` (engine.py lines 16-29). -/
structure Connection where
  source_component_id : String
  source_port : String
  target_component_id : String
  target_port : String
deriving Repr, DecidableEq

/-- The engine state relevant to data flow: the component map and the
connection list (engine.py lines 46-52). -/
structure DAQEngine where
  components : List (String × ComponentState) := []
  connections : List Connection := []
deriving Repr

namespace DAQEngine

/-- `DAQEngine.connect` (engine.py lines 77-81): build the `Connection` and
append it. The body performs no validation of ids or port names. -/
def connect (e : DAQEngine) (source_id source_port target_id target_port : String) :
    DAQEngine :=
  { e with connections :=
      e.connections ++ [⟨source_id, source_port, target_id, target_port⟩] }

/-- `DAQEngine.add_component` (engine.py lines 65-71): `ValueError` when the
registry returns `None` (raised before any mutation, so the caller's engine
is untouched), else store under `instance_id` and return the component. -/
def add_component (registry : List (String × ComponentClass)) (e : DAQEngine)
    (type_name instance_id : String) (config : List (String × Value)) :
    Except String (DAQEngine × ComponentState) :=
  match ComponentRegistry.create registry type_name instance_id config with
  | none => .error ("无法创建组件: " ++ type_name)
  | some component =>
    .ok ({ e with components := aSet e.components instance_id component }, component)

/-- `target.input_ports[k].set_value(v)`: write through to the port stored
under `k`, leaving every other entry untouched. -/
def portWrite : List (String × Port) → String → Value → List (String × Port)
  | [], _, _ => []
  | (a, p) :: rest, k, v =>
    if a = k then (a, p.set_value (some v)) :: portWrite rest k v
    else (a, p) :: portWrite rest k v

/-- One `for conn in self._connections` step of `_transfer_data`
(engine.py lines 101-128; the MQTT debug publishing only has external
effects and is elided). -/
def transferOne (components : List (String × ComponentState)) (conn : Connection) :
    List (String × ComponentState) :=
  match aGet components conn.source_component_id,
      aGet components conn.target_component_id with
  | some source, some target =>
    match aGet source.output_ports conn.source_port with
    | some sp =>
      match sp.get_value with
      | some v =>
        match aGet target.input_ports conn.target_port with
        | some _ =>
          aSet components conn.target_component_id
            { target with
              input_ports := portWrite target.input_ports conn.target_port v }
        | none => components
      | none => components
    | none => components
  | _, _ => components

/-- `DAQEngine._transfer_data`: the per-tick propagation phase, one pass over
the connections in registration order. -/
def _transfer_data (e : DAQEngine) : DAQEngine :=
  { e with components := e.connections.foldl transferOne e.components }

/-- The value a connection would deliver right now: `some v` iff both
component ids resolve, the named source port exists with a non-`None` value,
and the named target port exists. -/
def resolvedValue (components : List (String × ComponentState))
    (conn : Connection) : Option Value :=
  match aGet components conn.source_component_id,
      aGet components conn.target_component_id with
  | some source, some target =>
    match aGet source.output_ports conn.source_port with
    | some sp =>
      match sp.get_value with
      | some v =>
        match aGet target.input_ports conn.target_port with
        | some _ => some v
        | none => none
      | none => none
    | none => none
  | _, _ => none

/-- The current value of input port `tp` of the component stored under
`tid`. -/
def inputVal (components : List (String × ComponentState)) (tid tp : String) :
    Option Value :=
  match aGet components tid with
  | some t =>
    match aGet t.input_ports tp with
    | some p => p.get_value
    | none => none
  | none => none

end DAQEngine

theorem aGet_aSet_self {β : Type} :
    ∀ (d : List (String × β)) (k : String) (v : β), aGet (aSet d k v) k = some v := by
  intro d k v
  induction d with
  | nil => simp [aGet, aSet]
  | cons e rest ih =>
    obtain ⟨a, b⟩ := e
    by_cases h : a = k
    · simp [aSet, aGet, h]
    · simp [aSet, aGet, h, ih]

theorem aGet_aSet_other {β : Type} :
    ∀ (d : List (String × β)) (k j : String) (v : β), j ≠ k →
      aGet (aSet d k v) j = aGet d j := by
  intro d k j v hjk
  induction d with
  | nil =>
    simp [aGet, aSet, Ne.symm hjk]
  | cons e rest ih =>
    obtain ⟨a, b⟩ := e
    by_cases h : a = k
    · subst h
      simp [aSet, aGet, Ne.symm hjk]
    · by_cases h2 : a = j <;> simp [aSet, aGet, h, h2, hjk, Ne.symm hjk, ih]

theorem aGet_portWrite_self :
    ∀ (ports : List (String × Port)) (k : String) (v : Value),
      aGet (DAQEngine.portWrite ports k v) k =
        (aGet ports k).map (fun p => p.set_value (some v)) := by
  intro ports k v
  induction ports with
  | nil => rfl
  | cons e rest ih =>
    obtain ⟨a, p⟩ := e
    by_cases h : a = k
    · simp [DAQEngine.portWrite, aGet, h]
    · simp [DAQEngine.portWrite, aGet, h, ih]

theorem aGet_portWrite_other :
    ∀ (ports : List (String × Port)) (k j : String) (v : Value), j ≠ k →
      aGet (DAQEngine.portWrite ports k v) j = aGet ports j := by
  intro ports k j v hjk
  induction ports with
  | nil => rfl
  | cons e rest ih =>
    obtain ⟨a, p⟩ := e
    by_cases h : a = k
    · subst h
      simp [DAQEngine.portWrite, aGet, hjk, Ne.symm hjk, ih]
    · by_cases h2 : a = j <;> simp [DAQEngine.portWrite, aGet, h, h2, hjk, ih]

namespace DAQEngine

theorem transferOne_not_resolved :
    ∀ (comps : List (String × ComponentState)) (conn : Connection),
      resolvedValue comps conn = none → transferOne comps conn = comps := by
  intro comps conn h
  rw [resolvedValue] at h
  rw [transferOne]
  cases hs : aGet comps conn.source_component_id with
  | none => simp only [hs]
  | some source =>
    cases htg : aGet comps conn.target_component_id with
    | none => simp only [hs, htg]
    | some target =>
      simp only [hs, htg] at h ⊢
      cases hsp : aGet source.output_ports conn.source_port with
      | none => simp only [hsp]
      | some sp =>
        simp only [hsp] at h ⊢
        cases hv : sp.get_value with
        | none => simp only [hv]
        | some v =>
          simp only [hv] at h ⊢
          cases hip : aGet target.input_ports conn.target_port with
          | none => simp only [hip]
          | some q =>
            simp only [hip] at h
            cases h

theorem transferOne_resolved :
    ∀ (comps : List (String × ComponentState)) (conn : Connection) (v : Value),
      resolvedValue comps conn = some v →
      inputVal (transferOne comps conn)
        conn.target_component_id conn.target_port = some v := by
  intro comps conn v h
  rw [resolvedValue] at h
  rw [transferOne]
  cases hs : aGet comps conn.source_component_id with
  | none => simp only [hs] at h; cases h
  | some source =>
    cases htg : aGet comps conn.target_component_id with
    | none => simp only [hs, htg] at h; cases h
    | some target =>
      simp only [hs, htg] at h ⊢
      cases hsp : aGet source.output_ports conn.source_port with
      | none => simp only [hsp] at h; cases h
      | some sp =>
        simp only [hsp] at h ⊢
        cases hv : sp.get_value with
        | none => simp only [hv] at h; cases h
        | some v0 =>
          simp only [hv] at h ⊢
          cases hip : aGet target.input_ports conn.target_port with
          | none => simp only [hip] at h; cases h
          | some q =>
            simp only [hip] at h ⊢
            have hv0 : v0 = v := Option.some.inj h
            subst hv0
            rw [inputVal]
            simp only [aGet_aSet_self, aGet_portWrite_self, hip]
            rfl

theorem inputVal_transferOne_other :
    ∀ (comps : List (String × ComponentState)) (conn : Connection)
      (tid tp : String),
      (tid ≠ conn.target_component_id ∨ tp ≠ conn.target_port) →
      inputVal (transferOne comps conn) tid tp = inputVal comps tid tp := by
  intro comps conn tid tp hne
  rw [transferOne]
  cases hs : aGet comps conn.source_component_id with
  | none => simp only [hs]
  | some source =>
    cases htg : aGet comps conn.target_component_id with
    | none => simp only [hs, htg]
    | some target =>
      simp only [hs, htg]
      cases hsp : aGet source.output_ports conn.source_port with
      | none => simp only [hsp]
      | some sp =>
        simp only [hsp]
        cases hv : sp.get_value with
        | none => simp only [hv]
        | some v =>
          simp only [hv]
          cases hip : aGet target.input_ports conn.target_port with
          | none => simp only [hip]
          | some q =>
            simp only [hip]
            by_cases htid : tid = conn.target_component_id
            · subst htid
              rcases hne with hA | hB
              · exact absurd rfl hA
              · rw [inputVal, inputVal, aGet_aSet_self, htg]
                simp only [aGet_portWrite_other _ _ _ _ hB]
            · rw [inputVal, inputVal, aGet_aSet_other _ _ _ _ htid]

theorem transferOne_shape :
    ∀ (comps : List (String × ComponentState)) (conn : Connection),
      transferOne comps conn = comps ∨
      ∃ target v, aGet comps conn.target_component_id = some target ∧
        transferOne comps conn = aSet comps conn.target_component_id
          { target with
            input_ports := portWrite target.input_ports conn.target_port v } := by
  intro comps conn
  rw [transferOne]
  cases hs : aGet comps conn.source_component_id with
  | none => left; simp only
  | some source =>
    cases htg : aGet comps conn.target_component_id with
    | none => left; simp only
    | some target =>
      simp only
      cases hsp : aGet source.output_ports conn.source_port with
      | none => left; simp only [hsp]
      | some sp =>
        simp only [hsp]
        cases hv : sp.get_value with
        | none => left; simp only [hv]
        | some v =>
          simp only [hv]
          cases hip : aGet target.input_ports conn.target_port with
          | none => left; simp only [hip]
          | some q =>
            simp only [hip]
            right
            exact ⟨target, v, rfl, rfl⟩

/-- Two components with identical outputs and identically-present input
ports are indistinguishable to `resolvedValue`. -/
def SameShape (c c' : ComponentState) : Prop :=
  c.output_ports = c'.output_ports ∧
  ∀ port, (aGet c.input_ports port).isSome = (aGet c'.input_ports port).isSome

/-- Pointwise `SameShape` of two component maps. -/
def SimilarComps (cs cs' : List (String × ComponentState)) : Prop :=
  ∀ cid, (aGet cs cid = none ∧ aGet cs' cid = none) ∨
    ∃ c c', aGet cs cid = some c ∧ aGet cs' cid = some c' ∧ SameShape c c'

theorem similarComps_refl (cs : List (String × ComponentState)) :
    SimilarComps cs cs := by
  intro cid
  cases h : aGet cs cid with
  | none => exact Or.inl ⟨rfl, rfl⟩
  | some c => exact Or.inr ⟨c, c, rfl, rfl, rfl, fun _ => rfl⟩

theorem resolvedValue_congr :
    ∀ (cs cs' : List (String × ComponentState)) (conn : Connection),
      SimilarComps cs cs' → resolvedValue cs conn = resolvedValue cs' conn := by
  intro cs cs' conn hsim
  rw [resolvedValue, resolvedValue]
  rcases hsim conn.source_component_id with ⟨hs1, hs2⟩ | ⟨c, c', hs1, hs2, hshape⟩
  · simp only [hs1, hs2]
  · simp only [hs1, hs2]
    rcases hsim conn.target_component_id with ⟨ht1, ht2⟩ | ⟨t, t', ht1, ht2, htshape⟩
    · simp only [ht1, ht2]
    · simp only [ht1, ht2]
      rw [hshape.1]
      cases hsp : aGet c'.output_ports conn.source_port with
      | none => simp only [hsp]
      | some sp =>
        simp only [hsp]
        cases hv : sp.get_value with
        | none => simp only [hv]
        | some v =>
          simp only [hv]
          have hpres := htshape.2 conn.target_port
          cases hip : aGet t.input_ports conn.target_port with
          | none =>
            cases hip' : aGet t'.input_ports conn.target_port with
            | none => simp only [hip, hip']
            | some q =>
              rw [hip, hip'] at hpres
              cases hpres
          | some q =>
            cases hip' : aGet t'.input_ports conn.target_port with
            | none =>
              rw [hip, hip'] at hpres
              cases hpres
            | some q' => simp only [hip, hip']

theorem transferOne_similar :
    ∀ (comps : List (String × ComponentState)) (conn : Connection),
      SimilarComps (transferOne comps conn) comps := by
  intro comps conn
  rcases transferOne_shape comps conn with heq | ⟨target, v, htg, heq⟩
  · rw [heq]
    exact similarComps_refl comps
  · rw [heq]
    intro cid
    by_cases hc : cid = conn.target_component_id
    · subst hc
      right
      refine ⟨_, target, aGet_aSet_self _ _ _, htg, rfl, ?_⟩
      intro port
      by_cases hp : port = conn.target_port
      · subst hp
        rw [aGet_portWrite_self]
        cases aGet target.input_ports conn.target_port <;> rfl
      · rw [aGet_portWrite_other _ _ _ _ hp]
    · rw [aGet_aSet_other _ _ _ _ hc]
      cases h : aGet comps cid with
      | none => exact Or.inl ⟨rfl, rfl⟩
      | some c => exact Or.inr ⟨c, c, rfl, rfl, rfl, fun _ => rfl⟩

theorem resolvedValue_transferOne :
    ∀ (comps : List (String × ComponentState)) (c' conn : Connection),
      resolvedValue (transferOne comps c') conn = resolvedValue comps conn :=
  fun comps c' conn => resolvedValue_congr _ _ conn (transferOne_similar comps c')

theorem inputVal_transferOne_preserves :
    ∀ (comps : List (String × ComponentState)) (conn : Connection)
      (tid tp : String) (v : Value),
      inputVal comps tid tp = some v →
      ∃ v', inputVal (transferOne comps conn) tid tp = some v' := by
  intro comps conn tid tp v hv
  by_cases ht : tid = conn.target_component_id ∧ tp = conn.target_port
  · obtain ⟨h1, h2⟩ := ht
    cases hr : resolvedValue comps conn with
    | none =>
      rw [transferOne_not_resolved _ _ hr]
      exact ⟨v, hv⟩
    | some w =>
      subst h1
      subst h2
      exact ⟨w, transferOne_resolved _ _ _ hr⟩
  · have hne : tid ≠ conn.target_component_id ∨ tp ≠ conn.target_port := by
      by_cases hA : tid = conn.target_component_id
      · right
        intro hB
        exact ht ⟨hA, hB⟩
      · left
        exact hA
    rw [inputVal_transferOne_other _ _ _ _ hne]
    exact ⟨v, hv⟩

theorem inputVal_foldl_preserves :
    ∀ (conns : List Connection) (comps : List (String × ComponentState))
      (tid tp : String) (v : Value),
      inputVal comps tid tp = some v →
      ∃ v', inputVal (conns.foldl transferOne comps) tid tp = some v' := by
  intro conns
  induction conns with
  | nil => intro comps tid tp v hv; exact ⟨v, hv⟩
  | cons c cs ih =>
    intro comps tid tp v hv
    obtain ⟨v1, hv1⟩ := inputVal_transferOne_preserves comps c tid tp v hv
    exact ih _ tid tp v1 hv1

end DAQEngine

/-- A fresh engine: no components, no connections. -/
def emptyEngine : DAQEngine := { components := [], connections := [] }

/-- C5 counterexample: on an empty engine, `connect` with two unresolvable
component ids records a `Connection` anyway — nothing fails and the
connection table is NOT left unchanged, contradicting the claimed
UnknownComponent validation. -/
theorem c5_connect_validates_counterexample :
    (DAQEngine.connect emptyEngine "ghost" "out" "ghost2" "in").connections =
      [⟨"ghost", "out", "ghost2", "in"⟩] ∧
    aGet emptyEngine.components "ghost" = none ∧
    aGet emptyEngine.components "ghost2" = none :=
  ⟨rfl, rfl, rfl⟩

/-- C5 (amended): `connect` performs no validation whatsoever: for every
engine state and arguments it unconditionally appends the `Connection` to the
connection table and leaves the component map unchanged. -/
theorem c5_connect_appends_unconditionally :
    ∀ (e : DAQEngine) (source_id source_port target_id target_port : String),
      DAQEngine.connect e source_id source_port target_id target_port =
        { e with connections := e.connections ++
            [⟨source_id, source_port, target_id, target_port⟩] } ∧
      (DAQEngine.connect e source_id source_port target_id target_port).components
        = e.components :=
  fun _ _ _ _ _ => ⟨rfl, rfl⟩

/-- C6 (amended): with exactly two connections `c1` then `c2` both targeting
input `tp` of component `tid`, after one propagation phase the input holds
the value of the LAST connection that fully resolves with a non-`None` source
value — `c2`'s value if `c2` resolves, else `c1`'s, else the prior value. -/
theorem c6_last_resolving_connection_wins :
    ∀ (e : DAQEngine) (c1 c2 : Connection) (tid tp : String),
      e.connections = [c1, c2] →
      c1.target_component_id = tid → c1.target_port = tp →
      c2.target_component_id = tid → c2.target_port = tp →
      DAQEngine.inputVal (DAQEngine._transfer_data e).components tid tp =
        (match DAQEngine.resolvedValue e.components c2 with
         | some v => some v
         | none =>
           match DAQEngine.resolvedValue e.components c1 with
           | some v => some v
           | none => DAQEngine.inputVal e.components tid tp) := by
  intro e c1 c2 tid tp hconn h1t h1p h2t h2p
  have hcomp : (DAQEngine._transfer_data e).components =
      DAQEngine.transferOne (DAQEngine.transferOne e.components c1) c2 := by
    show e.connections.foldl DAQEngine.transferOne e.components = _
    rw [hconn, List.foldl_cons, List.foldl_cons, List.foldl_nil]
  rw [hcomp]
  cases hr2 : DAQEngine.resolvedValue e.components c2 with
  | some v =>
    have hr2' : DAQEngine.resolvedValue
        (DAQEngine.transferOne e.components c1) c2 = some v := by
      rw [DAQEngine.resolvedValue_transferOne]
      exact hr2
    have hfin := DAQEngine.transferOne_resolved _ _ _ hr2'
    rw [h2t, h2p] at hfin
    exact hfin
  | none =>
    have hr2' : DAQEngine.resolvedValue
        (DAQEngine.transferOne e.components c1) c2 = none := by
      rw [DAQEngine.resolvedValue_transferOne]
      exact hr2
    rw [DAQEngine.transferOne_not_resolved _ _ hr2']
    cases hr1 : DAQEngine.resolvedValue e.components c1 with
    | some v =>
      have hfin := DAQEngine.transferOne_resolved _ _ _ hr1
      rw [h1t, h1p] at hfin
      exact hfin
    | none =>
      rw [DAQEngine.transferOne_not_resolved _ _ hr1]

/-- Two sources wired into the same sink input: `A.o` holds `1`, `B.o` holds
`None`; the `B` connection is registered second. -/
def engC6 : DAQEngine :=
  { components :=
      [ ("A", { instance_id := "A", component_name := "SrcA",
                output_ports :=
                  [("o", { name := "o", port_type := .number,
                           value := some (.vint 1) })] })
      , ("B", { instance_id := "B", component_name := "SrcB",
                output_ports :=
                  [("o", { name := "o", port_type := .number,
                           value := none })] })
      , ("C", { instance_id := "C", component_name := "Sink",
                input_ports :=
                  [("in", { name := "in", port_type := .number,
                            value := none })] }) ]
    connections := [⟨"A", "o", "C", "in"⟩, ⟨"B", "o", "C", "in"⟩] }

/-- C6 counterexample: the later-registered connection `c2` (from `B`) has a
`None` source value, so after the propagation phase `C.in` holds `c1`'s value
`1`, not `c2`'s source value `None` — refuting unconditional
last-registered-wins. -/
theorem c6_last_registered_wins_counterexample :
    engC6.connections = [⟨"A", "o", "C", "in"⟩, ⟨"B", "o", "C", "in"⟩] ∧
    DAQEngine.inputVal (DAQEngine._transfer_data engC6).components "C" "in" =
      some (.vint 1) ∧
    (aGet engC6.components "B").bind
      (fun c => (aGet c.output_ports "o").map Port.get_value) = some none :=
  ⟨rfl, rfl, rfl⟩

theorem c6_last_resolving_connection_wins_witness :
    engC6.connections = [⟨"A", "o", "C", "in"⟩, ⟨"B", "o", "C", "in"⟩] ∧
    DAQEngine.inputVal (DAQEngine._transfer_data engC6).components "C" "in" =
      (match DAQEngine.resolvedValue engC6.components ⟨"B", "o", "C", "in"⟩ with
       | some v => some v
       | none =>
         match DAQEngine.resolvedValue engC6.components ⟨"A", "o", "C", "in"⟩ with
         | some v => some v
         | none => DAQEngine.inputVal engC6.components "C" "in") :=
  ⟨rfl, c6_last_resolving_connection_wins engC6
    ⟨"A", "o", "C", "in"⟩ ⟨"B", "o", "C", "in"⟩ "C" "in" rfl rfl rfl rfl rfl⟩

/-- A registered component class exercising `add_component`. -/
def clsMath : ComponentClass :=
  { name := "MathOperation",
    setup_inputs := [("in", { name := "in", port_type := .number })],
    setup_outputs := [("out", { name := "out", port_type := .number })],
    on_configure := id }

/-- A one-entry registry. -/
def regC8 : List (String × ComponentClass) := [("MathOperation", clsMath)]

/-- C8: `add_component` on an unregistered type name raises
`ValueError("无法创建组件: ...")` before touching the component map (the
error is raised before the store, so the caller's engine is unchanged; in
particular a fresh engine's map stays empty); on a registered name the
component is instantiated, configured with the config when non-empty, stored
under the instance id and returned. -/
theorem c8_add_component_unknown_type :
    (∀ (registry : List (String × ComponentClass)) (t i : String)
       (cfg : List (String × Value)),
      aGet registry t = none → ComponentRegistry.create registry t i cfg = none) ∧
    (∀ (registry : List (String × ComponentClass)) (e : DAQEngine) (t i : String)
       (cfg : List (String × Value)),
      aGet registry t = none →
      DAQEngine.add_component registry e t i cfg =
        .error ("无法创建组件: " ++ t)) ∧
    (∀ (registry : List (String × ComponentClass)) (e : DAQEngine) (t i : String)
       (cfg : List (String × Value)) (comp : ComponentState),
      ComponentRegistry.create registry t i cfg = some comp →
      DAQEngine.add_component registry e t i cfg =
        .ok ({ e with components := aSet e.components i comp }, comp)) ∧
    (∀ (registry : List (String × ComponentClass)) (t i : String)
       (cfg : List (String × Value)) (cls : ComponentClass),
      aGet registry t = some cls →
      ComponentRegistry.create registry t i cfg =
        some (if cfg.isEmpty then mkComponent cls i
          else configureComponent cls (mkComponent cls i) cfg)) ∧
    DAQEngine.add_component [] { components := [], connections := [] }
      "Unknown" "n1" [] = .error "无法创建组件: Unknown" := by
  refine ⟨?_, ?_, ?_, ?_, rfl⟩
  · intro registry t i cfg h
    rw [ComponentRegistry.create]
    simp only [h]
  · intro registry e t i cfg h
    rw [DAQEngine.add_component, ComponentRegistry.create]
    simp only [h]
  · intro registry e t i cfg comp h
    rw [DAQEngine.add_component]
    simp only [h]
  · intro registry t i cfg cls h
    rw [ComponentRegistry.create]
    simp only [h]

theorem c8_add_component_unknown_type_witness :
    ComponentRegistry.create [] "Unknown" "n1" [] = none ∧
    DAQEngine.add_component [] { components := [], connections := [] }
      "Unknown" "n1" [] = .error ("无法创建组件: " ++ "Unknown") ∧
    DAQEngine.add_component regC8 { components := [], connections := [] }
        "MathOperation" "m1" [] =
      .ok ({ components := aSet [] "m1" (mkComponent clsMath "m1"),
             connections := [] }, mkComponent clsMath "m1") ∧
    ComponentRegistry.create regC8 "MathOperation" "m1" [] =
      some (if ([] : List (String × Value)).isEmpty then mkComponent clsMath "m1"
        else configureComponent clsMath (mkComponent clsMath "m1") []) :=
  ⟨c8_add_component_unknown_type.1 [] "Unknown" "n1" [] rfl,
   c8_add_component_unknown_type.2.1 [] { components := [], connections := [] }
     "Unknown" "n1" [] rfl,
   c8_add_component_unknown_type.2.2.1 regC8
     { components := [], connections := [] } "MathOperation" "m1" []
     (mkComponent clsMath "m1") rfl,
   c8_add_component_unknown_type.2.2.2.1 regC8 "MathOperation" "m1" []
     clsMath rfl⟩

/-- C10: a connection transfers only when it fully resolves with a
non-`None` value — each failure condition (missing source component, missing
target component, unknown source port, `None` source value, unknown target
port) leaves the component map entirely unchanged for that connection, and a
tick's propagation never overwrites a non-`None` input with `None`. -/
theorem c10_transfer_requires_full_resolution :
    (∀ (comps : List (String × ComponentState)) (conn : Connection),
      DAQEngine.resolvedValue comps conn = none →
      DAQEngine.transferOne comps conn = comps) ∧
    (∀ (comps : List (String × ComponentState)) (conn : Connection),
      aGet comps conn.source_component_id = none →
      DAQEngine.resolvedValue comps conn = none) ∧
    (∀ (comps : List (String × ComponentState)) (conn : Connection),
      aGet comps conn.target_component_id = none →
      DAQEngine.resolvedValue comps conn = none) ∧
    (∀ (comps : List (String × ComponentState)) (conn : Connection)
       (source : ComponentState),
      aGet comps conn.source_component_id = some source →
      aGet source.output_ports conn.source_port = none →
      DAQEngine.resolvedValue comps conn = none) ∧
    (∀ (comps : List (String × ComponentState)) (conn : Connection)
       (source : ComponentState) (sp : Port),
      aGet comps conn.source_component_id = some source →
      aGet source.output_ports conn.source_port = some sp →
      sp.get_value = none → DAQEngine.resolvedValue comps conn = none) ∧
    (∀ (comps : List (String × ComponentState)) (conn : Connection)
       (target : ComponentState),
      aGet comps conn.target_component_id = some target →
      aGet target.input_ports conn.target_port = none →
      DAQEngine.resolvedValue comps conn = none) ∧
    (∀ (e : DAQEngine) (tid tp : String) (v : Value),
      DAQEngine.inputVal e.components tid tp = some v →
      ∃ v', DAQEngine.inputVal (DAQEngine._transfer_data e).components tid tp
        = some v') := by
  refine ⟨DAQEngine.transferOne_not_resolved, ?_, ?_, ?_, ?_, ?_, ?_⟩
  · intro comps conn h
    rw [DAQEngine.resolvedValue]
    simp only [h]
  · intro comps conn h
    rw [DAQEngine.resolvedValue]
    cases hs : aGet comps conn.source_component_id <;> simp only [hs, h]
  · intro comps conn source hs h
    rw [DAQEngine.resolvedValue]
    cases htg : aGet comps conn.target_component_id <;> simp only [hs, htg, h]
  · intro comps conn source sp hs hsp hv
    rw [DAQEngine.resolvedValue]
    cases htg : aGet comps conn.target_component_id <;>
      simp only [hs, htg, hsp, hv]
  · intro comps conn target htg h
    rw [DAQEngine.resolvedValue]
    cases hs : aGet comps conn.source_component_id with
    | none => simp only [hs]
    | some source =>
      simp only [hs, htg]
      cases hsp : aGet source.output_ports conn.source_port with
      | none => simp only [hsp]
      | some sp =>
        simp only [hsp]
        cases hv : sp.get_value <;> simp only [hv, h]
  · intro e tid tp v hv
    exact DAQEngine.inputVal_foldl_preserves e.connections e.components tid tp v hv

/-- A two-component engine: `S.o = 7`, `S.q = None`, `T.in = 3`, and one
connection naming a nonexistent source port. -/
def engC10 : DAQEngine :=
  { components :=
      [ ("S", { instance_id := "S", component_name := "Src",
                output_ports :=
                  [ ("o", { name := "o", port_type := .number,
                            value := some (.vint 7) })
                  , ("q", { name := "q", port_type := .number,
                            value := none }) ] })
      , ("T", { instance_id := "T", component_name := "Sink",
                input_ports :=
                  [("in", { name := "in", port_type := .number,
                            value := some (.vint 3) })] }) ]
    connections := [⟨"S", "missing", "T", "in"⟩] }

theorem c10_transfer_requires_full_resolution_witness :
    (DAQEngine.transferOne engC10.components ⟨"S", "missing", "T", "in"⟩ =
      engC10.components) ∧
    DAQEngine.resolvedValue engC10.components ⟨"ghost", "o", "T", "in"⟩ = none ∧
    DAQEngine.resolvedValue engC10.components ⟨"S", "o", "ghost", "in"⟩ = none ∧
    DAQEngine.resolvedValue engC10.components ⟨"S", "missing", "T", "in"⟩ = none ∧
    DAQEngine.resolvedValue engC10.components ⟨"S", "q", "T", "in"⟩ = none ∧
    DAQEngine.resolvedValue engC10.components ⟨"S", "o", "T", "nope"⟩ = none ∧
    (∃ v', DAQEngine.inputVal (DAQEngine._transfer_data engC10).components
      "T" "in" = some v') :=
  ⟨c10_transfer_requires_full_resolution.1 engC10.components
     ⟨"S", "missing", "T", "in"⟩ rfl,
   c10_transfer_requires_full_resolution.2.1 engC10.components
     ⟨"ghost", "o", "T", "in"⟩ rfl,
   c10_transfer_requires_full_resolution.2.2.1 engC10.components
     ⟨"S", "o", "ghost", "in"⟩ rfl,
   c10_transfer_requires_full_resolution.2.2.2.1 engC10.components
     ⟨"S", "missing", "T", "in"⟩ _ rfl rfl,
   c10_transfer_requires_full_resolution.2.2.2.2.1 engC10.components
     ⟨"S", "q", "T", "in"⟩ _ _ rfl rfl rfl,
   c10_transfer_requires_full_resolution.2.2.2.2.2.1 engC10.components
     ⟨"S", "o", "T", "nope"⟩ _ rfl rfl,
   c10_transfer_requires_full_resolution.2.2.2.2.2.2 engC10 "T" "in"
     (.vint 3) rfl⟩

/-! ### Code generation (`daq_core/compiler/codegen.py`)

`datetime.now().isoformat()` is the single impure input of `generate`; it is
hoisted into an explicit `now` argument. Everything else is a pure function
of the project and the ordered node list. -/

namespace CodeGenerator

/-- `sep.join(lines)`. -/
def joinSep (sep : String) : List String → String
  | [] => ""
  | [a] => a
  | a :: rest => a ++ sep ++ joinSep sep rest

/-- `NODE_TYPE_MAPPING` (codegen.py lines 18-33). -/
def NODE_TYPE_MAPPING : List (String × String) :=
  [ ("daq:mock_device", "MockDevice")
  , ("daq:mqtt_subscribe", "MQTTSubscriber")
  , ("daq:mqtt_publish", "MQTTPublisher")
  , ("daq:math", "MathOperation")
  , ("daq:compare", "Compare")
  , ("daq:scale", "MathOperation")
  , ("daq:custom_script", "CustomScript")
  , ("daq:csv_write", "CSVStorage")
  , ("daq:csv_storage", "CSVStorage") ]

/-- Python `repr` of a string that contains no quote or escape characters
(the only strings fed to `repr` here). -/
def pyRepr (s : String) : String := "'" ++ s ++ "'"

mutual

/-- `_value_to_python_code` (codegen.py lines 259-276); the `bool` test
precedes the `int` test exactly as in the source. -/
def _value_to_python_code : Value → String
  | .vnone => "None"
  | .vbool b => if b then "True" else "False"
  | .vint i => toString i
  | .vfloat i f => toString i ++ "." ++ toString f
  | .vstr s => pyRepr s
  | .vlist items => "[" ++ joinSep ", " (valuesToCode items) ++ "]"
  | .vdict items => "\x7b" ++ joinSep ", " (dictEntriesToCode items) ++ "\x7d"

/-- The elementwise codes of a list value. -/
def valuesToCode : List Value → List String
  | [] => []
  | v :: vs => _value_to_python_code v :: valuesToCode vs

/-- The `"key": value` codes of a dict value. -/
def dictEntriesToCode : List (String × Value) → List String
  | [] => []
  | kv :: kvs =>
    ("\"" ++ kv.1 ++ "\": " ++ _value_to_python_code kv.2) :: dictEntriesToCode kvs

end

/-- `_dict_to_python_code` (codegen.py lines 242-257). -/
def _dict_to_python_code (d : List (String × Value)) (indent : Nat) : String :=
  if d.isEmpty then "\x7b\x7d"
  else
    joinSep "\n"
      (["\x7b"] ++
       (d.enum.map (fun ikv =>
         String.mk (List.replicate indent ' ') ++ "\"" ++ ikv.2.1 ++ "\": " ++
         _value_to_python_code ikv.2.2 ++
         (if ikv.1 < d.length - 1 then "," else ""))) ++
       ["    \x7d"])

/-- `dict.setdefault(k, v)`: append `(k, v)` only when `k` is absent. -/
def setdefault (d : List (String × Value)) (k : String) (v : Value) :
    List (String × Value) :=
  if (aGet d k).isSome then d else d ++ [(k, v)]

/-- `dict.pop(k, None)`: drop the entry under `k` if present. -/
def dictPop (d : List (String × Value)) (k : String) : List (String × Value) :=
  d.filter (fun e => decide (e.1 ≠ k))

/-- `_convert_node_properties` (codegen.py lines 278-315): copy the node's
properties and fill per-type defaults. -/
def _convert_node_properties (node : Node) : List (String × Value) :=
  let props := node.properties
  if node.type = "daq:mqtt_subscribe" then
    setdefault (setdefault (setdefault props
      "broker_host" (.vstr "localhost"))
      "broker_port" (.vint 1883))
      "topic" (.vstr "sensors/#")
  else if node.type = "daq:mqtt_publish" then
    setdefault (setdefault (setdefault props
      "broker_host" (.vstr "localhost"))
      "broker_port" (.vint 1883))
      "topic" (.vstr "output/data")
  else if node.type = "daq:mock_device" then
    setdefault (setdefault (setdefault (setdefault (setdefault props
      "broker_host" (.vstr "localhost"))
      "broker_port" (.vint 1883))
      "topic" (.vstr "sensors/mock"))
      "wave_type" (.vstr "sine"))
      "interval_ms" (.vint 1000)
  else if node.type = "daq:math" ∨ node.type = "daq:scale" then
    setdefault (setdefault (setdefault props
      "operation" (.vstr "scale"))
      "scale" (.vfloat 1 0))
      "offset" (.vint 0)
  else if node.type = "daq:csv_write" ∨ node.type = "daq:csv_storage" then
    setdefault (setdefault props
      "file_path" (.vstr "./data/output.csv"))
      "include_timestamp" (.vbool true)
  else if node.type = "daq:custom_script" then
    dictPop (setdefault props "generatedCode" (.vstr "")) "blocklyXml"
  else props

/-- `_node_id_to_var` (codegen.py lines 233-240). An empty id would raise
`IndexError` in the source; ids are non-empty in every project. -/
def _node_id_to_var (node_id : String) : String :=
  let var_name := String.mk (node_id.data.map
    (fun c => if c = '-' ∨ c = ':' ∨ c = '.' then '_' else c))
  match var_name.data with
  | [] => var_name
  | c :: _ => if c.isDigit then "node_" ++ var_name else var_name

/-- `_generate_header` (codegen.py lines 66-77); the generation-time line is
output-lines index 4. -/
def headerLines (p : DAQProject) (now : String) : List String :=
  [ "\"\"\""
  , "自动生成的 DAQ 运行脚本"
  , "项目: " ++ p.meta.name
  , "版本: " ++ p.meta.version
  , "生成时间: " ++ now
  , ""
  , "警告: 此文件由 DAQ 编译器自动生成，请勿手动修改"
  , "\"\"\""
  , "" ]

/-- The component names used by the ordered node list: a deduplicated set,
then `sorted(...)` (codegen.py lines 91-97). -/
def used_components (sorted_nodes : List Node) : List String :=
  sortStr (TopologySort.dedupFirst
    (sorted_nodes.filterMap (fun n => aGet NODE_TYPE_MAPPING n.type)))

/-- `_generate_imports` (codegen.py lines 79-101). -/
def importLines (sorted_nodes : List Node) : List String :=
  [ "import sys"
  , "import time"
  , "import logging"
  , ""
  , "# DAQ Core 导入"
  , "from daq_core.engine import DAQEngine"
  , "from daq_core.components import ("
  , "    ComponentRegistry," ]
  ++ (used_components sorted_nodes).map (fun comp => "    " ++ comp ++ "Component,")
  ++ [ ")", "" ]

/-- `_generate_engine_setup` (codegen.py lines 103-116). -/
def engineSetupLines : List String :=
  [ "# 配置日志"
  , "logging.basicConfig("
  , "    level=logging.INFO,"
  , "    format=\"%(asctime)s [%(levelname)s] %(name)s: %(message)s\""
  , ")"
  , "logger = logging.getLogger(__name__)"
  , ""
  , ""
  , "def create_engine():"
  , "    \"\"\"创建并配置 DAQ 引擎\"\"\""
  , "    engine = DAQEngine()"
  , "" ]

/-- The `add_component` statement of one node, when its type maps to a
component. -/
def instLine (n : Node) : Option String :=
  (aGet NODE_TYPE_MAPPING n.type).map (fun comp_name =>
    "    " ++ _node_id_to_var n.id ++ " = engine.add_component(\"" ++
    comp_name ++ "\", \"" ++ n.id ++ "\", " ++
    _dict_to_python_code (_convert_node_properties n) 8 ++ ")")

/-- The lines one node contributes to `_generate_components`
(codegen.py lines 122-135): unknown types degrade to a warning comment. -/
def componentLines (n : Node) : List String :=
  match instLine n with
  | none => ["    # 警告: 未知节点类型 " ++ n.type]
  | some line => [line, ""]

/-- `_generate_components` (codegen.py lines 118-135). -/
def componentsLines (sorted_nodes : List Node) : List String :=
  "    # 创建组件" :: (sorted_nodes.map componentLines).flatten

/-- The `engine.connect` statement of one wire. -/
def connLine (w : Wire) : String :=
  "    engine.connect(\"" ++ w.source.node_id ++ "\", \"" ++ w.source.port_id ++
  "\", \"" ++ w.target.node_id ++ "\", \"" ++ w.target.port_id ++ "\")"

/-- `_generate_connections` (codegen.py lines 137-150): one statement per
wire, in wire input order. -/
def connectionLines (p : DAQProject) : List String :=
  "    # 建立连接" :: (p.wires.map connLine ++ ["", "    return engine", ""])

/-- The data-forwarding lines one outgoing wire contributes to an MQTT
callback (codegen.py lines 177-185). -/
def callbackWireLines (p : DAQProject) (wire : Wire) : List String :=
  match p.get_node wire.target.node_id with
  | none => []
  | some _ =>
    let target_var := _node_id_to_var wire.target.node_id
    [ "        # 传递数据到 " ++ wire.target.node_id
    , "        " ++ target_var ++ " = engine.get_component(\"" ++
        wire.target.node_id ++ "\")"
    , "        if " ++ target_var ++ " and isinstance(data, dict) and \"value\" in data:"
    , "            " ++ target_var ++ ".input_ports[\"" ++ wire.target.port_id ++
        "\"].set_value(data[\"value\"])"
    , "            " ++ target_var ++ ".process()" ]

/-- The callback block of one MQTT-subscribe node (codegen.py lines 165-189):
emitted only when the node has outgoing wires. -/
def callbackNodeLines (p : DAQProject) (node : Node) : List String :=
  let var_name := _node_id_to_var node.id
  let outgoing := p.get_outgoing_wires node.id
  if outgoing.isEmpty then []
  else
    [ ""
    , "    # " ++ node.id ++ " 的消息处理回调"
    , "    def on_" ++ var_name ++ "_message(topic, data):"
    , "        logger.debug(f\"收到消息 [\x7btopic\x7d]: \x7bdata\x7d\")" ]
    ++ (outgoing.map (callbackWireLines p)).flatten
    ++ [ ""
       , "    " ++ var_name ++ " = engine.get_component(\"" ++ node.id ++ "\")"
       , "    " ++ var_name ++ ".set_message_callback(on_" ++ var_name ++ "_message)" ]

/-- `_generate_callbacks` (codegen.py lines 152-191). -/
def callbacksLines (p : DAQProject) (sorted_nodes : List Node) : List String :=
  let mqtt_nodes := sorted_nodes.filter (fun n => n.type == "daq:mqtt_subscribe")
  if mqtt_nodes.isEmpty then []
  else
    [ "", "def setup_callbacks(engine):", "    \"\"\"设置组件回调\"\"\"" ]
    ++ (mqtt_nodes.map (callbackNodeLines p)).flatten
    ++ [ "" ]

/-- `_generate_main` (codegen.py lines 193-231). -/
def mainLines (p : DAQProject) (sorted_nodes : List Node) : List String :=
  [ ""
  , "def main():"
  , "    \"\"\"主函数 - 运行 " ++ p.meta.name ++ "\"\"\""
  , "    print(\"=\" * 60)"
  , "    print(\"DAQ 项目: " ++ p.meta.name ++ "\")"
  , "    print(\"=\" * 60)"
  , ""
  , "    engine = create_engine()"
  , "" ]
  ++ (if (sorted_nodes.filter (fun n => n.type == "daq:mqtt_subscribe")).isEmpty
      then []
      else ["    setup_callbacks(engine)", ""])
  ++ [ "    print(\"启动引擎...\")"
     , "    print(\"按 Ctrl+C 停止\")"
     , "    print(\"-\" * 40)"
     , ""
     , "    try:"
     , "        engine.start()"
     , ""
     , "        while True:"
     , "            time.sleep(1)"
     , ""
     , "    except KeyboardInterrupt:"
     , "        print(\"\\n接收到停止信号...\")"
     , ""
     , "    finally:"
     , "        engine.stop()"
     , "        engine.destroy()"
     , "        print(\"引擎已停止\")"
     , ""
     , ""
     , "if __name__ == \"__main__\":"
     , "    main()" ]

/-- The full `self._output_lines` of `CodeGenerator.generate`
(codegen.py lines 47-59). -/
def outputLines (p : DAQProject) (sorted_nodes : List Node) (now : String) :
    List String :=
  headerLines p now ++ importLines sorted_nodes ++ engineSetupLines ++
  componentsLines sorted_nodes ++ connectionLines p ++
  callbacksLines p sorted_nodes ++ mainLines p sorted_nodes

/-- `CodeGenerator.generate`: `"\n".join(self._output_lines)`. -/
def generate (p : DAQProject) (sorted_nodes : List Node) (now : String) : String :=
  joinSep "\n" (outputLines p sorted_nodes now)

end CodeGenerator

theorem instLines_flatten_sublist :
    ∀ (ns : List Node),
      List.Sublist (ns.filterMap CodeGenerator.instLine)
        ((ns.map CodeGenerator.componentLines).flatten) := by
  intro ns
  induction ns with
  | nil => exact List.Sublist.refl []
  | cons n rest ih =>
    rw [List.map_cons, List.flatten_cons, List.filterMap_cons]
    cases hm : CodeGenerator.instLine n with
    | none =>
      simp only [CodeGenerator.componentLines, hm]
      exact ih.trans (List.sublist_append_right _ _)
    | some line =>
      simp only [CodeGenerator.componentLines, hm]
      exact List.Sublist.cons₂ _ (ih.trans (List.sublist_cons_self _ _))

/-- C7: code generation is a pure function of the project, the ordered node
list and the (hoisted) timestamp: outputs for two timestamps differ exactly
at output-lines index 4 (the generation-time header line), the joined text is
determined accordingly; the generated import component list is sorted, the
connect statements follow wire input order, and the instantiation statements
follow the ordered node list. -/
theorem c7_generate_pure_modulo_timestamp :
    (∀ (p : DAQProject) (ns : List Node) (t1 t2 : String),
      CodeGenerator.outputLines p ns t1 =
        (CodeGenerator.outputLines p ns t2).set 4 ("生成时间: " ++ t1) ∧
      (CodeGenerator.outputLines p ns t1).get? 4 = some ("生成时间: " ++ t1) ∧
      CodeGenerator.generate p ns t1 =
        CodeGenerator.joinSep "\n"
          ((CodeGenerator.outputLines p ns t2).set 4 ("生成时间: " ++ t1))) ∧
    (∀ ns : List Node, List.Sorted sLe (CodeGenerator.used_components ns)) ∧
    (∀ (p : DAQProject) (ns : List Node) (t : String),
      List.Sublist (p.wires.map CodeGenerator.connLine)
        (CodeGenerator.outputLines p ns t)) ∧
    (∀ (p : DAQProject) (ns : List Node) (t : String),
      List.Sublist (ns.filterMap CodeGenerator.instLine)
        (CodeGenerator.outputLines p ns t)) := by
  refine ⟨fun p ns t1 t2 => ⟨rfl, rfl, rfl⟩, fun ns => sortStr_sorted _, ?_, ?_⟩
  · intro p ns t
    have h0 : List.Sublist (p.wires.map CodeGenerator.connLine)
        (CodeGenerator.connectionLines p) := by
      rw [CodeGenerator.connectionLines]
      exact (List.sublist_append_left _ _).trans (List.sublist_cons_self _ _)
    rw [CodeGenerator.outputLines]
    exact ((h0.trans (List.sublist_append_right _ _)).trans
      (List.sublist_append_left _ _)).trans (List.sublist_append_left _ _)
  · intro p ns t
    have h0 : List.Sublist (ns.filterMap CodeGenerator.instLine)
        (CodeGenerator.componentsLines ns) :=
      (instLines_flatten_sublist ns).trans (List.sublist_cons_self _ _)
    rw [CodeGenerator.outputLines]
    exact (((h0.trans (List.sublist_append_right _ _)).trans
      (List.sublist_append_left _ _)).trans
      (List.sublist_append_left _ _)).trans (List.sublist_append_left _ _)

/-! ### The compiler pipeline (`daq_core/compiler/compiler.py`) -/

namespace DAQCompiler

/-- Python `str` of a list of plain strings (`repr` per element). -/
def pyListRepr (l : List String) : String :=
  "[" ++ CodeGenerator.joinSep ", " (l.map CodeGenerator.pyRepr) ++ "]"

/-- The post-parse pipeline of `compile_string` (compiler.py lines 110-126;
`compile_file` lines 55-88 runs the identical guard sequence before its file
output): validate connections, topologically sort, refuse on a detected
cycle, and only then generate code. The `.error` case is an uncaught
`KeyError` escaping `sort()`. -/
def compile_string_body (now : String) (p : DAQProject) :
    Except String (Bool × String) :=
  if (TopologySort.validate_connections p).1 = false then
    .ok (false, "连接验证失败:\n" ++
      CodeGenerator.joinSep "\n" (TopologySort.validate_connections p).2)
  else
    match TopologySort.sort p with
    | .error e => .error e
    | .ok r =>
      if r.has_cycle then
        .ok (false, "检测到循环依赖: " ++ pyListRepr r.cycle_nodes)
      else
        .ok (true, CodeGenerator.generate p (TopologySort.sortedNodes p r) now)

end DAQCompiler

/-- C4: cycle detection blocks code generation on every output-producing
path: when `sort()` reports a cycle the pipeline returns `(False, cycle
diagnostic)` without invoking the generator, and conversely any `(True,
text)` result implies `has_cycle()` was false and `text` is the generator's
output. -/
theorem c4_cycle_blocks_codegen :
    (∀ (now : String) (p : DAQProject) (r : TopologySort.SortResult),
      (TopologySort.validate_connections p).1 = true →
      TopologySort.sort p = .ok r →
      r.has_cycle = true →
      DAQCompiler.compile_string_body now p =
        .ok (false, "检测到循环依赖: " ++ DAQCompiler.pyListRepr r.cycle_nodes)) ∧
    (∀ (now : String) (p : DAQProject) (text : String),
      DAQCompiler.compile_string_body now p = .ok (true, text) →
      ∃ r, TopologySort.sort p = .ok r ∧ r.has_cycle = false ∧
        text = CodeGenerator.generate p (TopologySort.sortedNodes p r) now) := by
  constructor
  · intro now p r hval hsort hcyc
    rw [DAQCompiler.compile_string_body, hval,
      if_neg (by decide : ¬(true = false))]
    simp only [hsort]
    rw [if_pos hcyc]
  · intro now p text h
    rw [DAQCompiler.compile_string_body] at h
    by_cases hval : (TopologySort.validate_connections p).1 = false
    · rw [if_pos hval] at h
      cases h
    · rw [if_neg hval] at h
      cases hsort : TopologySort.sort p with
      | error e =>
        simp only [hsort] at h
        cases h
      | ok r =>
        simp only [hsort] at h
        by_cases hcyc : r.has_cycle = true
        · rw [if_pos hcyc] at h
          cases h
        · rw [if_neg hcyc] at h
          have hfalse : r.has_cycle = false := by
            cases hb : r.has_cycle
            · rfl
            · exact absurd hb hcyc
          have htext : CodeGenerator.generate p (TopologySort.sortedNodes p r) now
              = text := congrArg Prod.snd (Except.ok.inj h)
          exact ⟨r, rfl, hfalse, htext.symm⟩

/-- A two-node cycle `a → b → a` (all endpoints resolve, no self loop). -/
def projC4cyc : DAQProject :=
  { meta := { name := "c4", version := "1.0.0", schema_version := "0.1.0" }
    devices := []
    nodes := [ { id := "a", type := "daq:math", position := ⟨0, 0⟩ }
             , { id := "b", type := "daq:math", position := ⟨0, 0⟩ } ]
    wires := [ { id := "w1", source := ⟨"a", "out"⟩, target := ⟨"b", "in"⟩ }
             , { id := "w2", source := ⟨"b", "out"⟩, target := ⟨"a", "in"⟩ } ]
    widgets := [] }

/-- A single-node acyclic project. -/
def projC4ok : DAQProject :=
  { meta := { name := "c4ok", version := "1.0.0", schema_version := "0.1.0" }
    devices := []
    nodes := [ { id := "a", type := "daq:math", position := ⟨0, 0⟩ } ]
    wires := []
    widgets := [] }

theorem c4_cycle_blocks_codegen_witness :
    (TopologySort.validate_connections projC4cyc).1 = true ∧
    TopologySort.sort projC4cyc = .ok ⟨[], true, ["a", "b"]⟩ ∧
    DAQCompiler.compile_string_body "T" projC4cyc =
      .ok (false, "检测到循环依赖: " ++ DAQCompiler.pyListRepr ["a", "b"]) ∧
    (∃ r, TopologySort.sort projC4ok = .ok r ∧ r.has_cycle = false ∧
      CodeGenerator.generate projC4ok
          (TopologySort.sortedNodes projC4ok ⟨["a"], false, []⟩) "T" =
        CodeGenerator.generate projC4ok (TopologySort.sortedNodes projC4ok r) "T") := by
  have hval : (TopologySort.validate_connections projC4cyc).1 = true := by decide
  have hsort : TopologySort.sort projC4cyc = .ok ⟨[], true, ["a", "b"]⟩ := by rfl
  refine ⟨hval, hsort,
    c4_cycle_blocks_codegen.1 "T" projC4cyc ⟨[], true, ["a", "b"]⟩ hval hsort rfl, ?_⟩
  exact c4_cycle_blocks_codegen.2 "T" projC4ok
    (CodeGenerator.generate projC4ok
      (TopologySort.sortedNodes projC4ok ⟨["a"], false, []⟩) "T") rfl
